import Mathlib

/-!
# mipha: multi-context template rendering

A shallow embedding of `miphacore/mipha.go`.

* Path strings follow `path/filepath` on a Unix system: `Clean`, `Join`, `Dir`
  and `Rel` are implemented lexically over the `/`-separated elements of a
  string.
* The output side of the filesystem is an in-memory tree addressed by absolute
  element lists (no symbolic links, no permissions). The names handed to
  `os.MkdirAll`, `os.Stat` and `os.Create` are made by `filepath.Join` and are
  clean, so that they are resolved lexically against the working directory;
  the output path is handed to `os.RemoveAll` as the caller wrote it and is
  resolved element by element, as the kernel does.
* The template engine, the YAML decoder, `ioutil.ReadFile` and the sequence of
  callbacks made by `filepath.Walk` are external collaborators: they are
  parameters of the embedding (`Collab`). The outcome of a template execution
  may depend on the moment at which it happens.
-/

namespace Mipha

/-- The error numbers the filesystem model reports. -/
inductive Errno where
  | ENOENT
  | ENOTDIR
  | EISDIR
  | EINVAL
  | EBUSY
  | ENOTEMPTY
deriving DecidableEq, Repr

/-- What ends a call early. `msg` is a Go `error` with a plain message
(`errors.New`, errors of the template engine and of the YAML decoder); `path`
is an `*os.PathError`, of which the error number is kept (its `Op` and `Path`
strings are not part of the embedding); `panic` is a run-time panic: it is not
an `error` value, it unwinds through every caller, none of which recovers, so
that each function of the engine ends where it would return an error. -/
inductive Err where
  | msg (text : String)
  | path (errno : Errno)
  | panic (text : String)
deriving DecidableEq, Repr

deriving instance DecidableEq for Except

/-! ## `path/filepath` -/

/-- Splitting at every `/`, as `strings.Split(s, "/")` does. -/
def splitSlash : List Char → List (List Char)
  | [] => [[]]
  | c :: cs =>
    if c = '/' then [] :: splitSlash cs
    else
      match splitSlash cs with
      | [] => [[c]]
      | h :: t => (c :: h) :: t

/-- The non-empty elements between the separators of a path string. -/
def elements (s : String) : List String :=
  ((splitSlash s.data).filter (fun e => !e.isEmpty)).map String.mk

/-- A path is rooted when it starts with the separator. -/
def isRooted (s : String) : Bool :=
  match s.data with
  | c :: _ => c == '/'
  | [] => false

/-- One element processed by `Clean`: `.` is dropped, `..` removes the
preceding element when there is one to remove (at the root it is dropped, in a
relative path it is kept), anything else is appended. -/
def cleanStep (rooted : Bool) (st : List String) (e : String) : List String :=
  if e = "." then st
  else if e = ".." then
    match st.getLast? with
    | none => if rooted then [] else [".."]
    | some top => if top = ".." then st ++ [".."] else st.dropLast
  else st ++ [e]

/-- All elements of a path processed by `Clean`, starting from `st`. -/
def cleanFrom (rooted : Bool) (st : List String) (es : List String) : List String :=
  es.foldl (cleanStep rooted) st

/-- Elements joined by single separators, as `strings.Join(es, "/")` does. -/
def joinSlash : List String → String
  | [] => ""
  | [a] => a
  | a :: b :: rest => a ++ "/" ++ joinSlash (b :: rest)

/-- The string of a cleaned path. -/
def render (rooted : Bool) (es : List String) : String :=
  if rooted then "/" ++ joinSlash es
  else if es.isEmpty then "." else joinSlash es

/-- The function `filepath.Clean`. -/
def Clean (s : String) : String :=
  render (isRooted s) (cleanFrom (isRooted s) [] (elements s))

/-- The function `filepath.Join`: leading empty elements are ignored, the rest
is joined with separators and cleaned; all elements empty gives `""`. -/
def Join (es : List String) : String :=
  match es.dropWhile (fun e => e == "") with
  | [] => ""
  | e :: rest => Clean (joinSlash (e :: rest))

/-- The function `filepath.Dir`: everything up to the last separator, cleaned. -/
def Dir (path : String) : String :=
  Clean (String.mk (path.data.reverse.dropWhile (fun c => c != '/')).reverse)

/-- The longest common prefix of two element lists removed from both. -/
def stripCommon : List String → List String → List String × List String
  | b :: bs, t :: ts => if b = t then stripCommon bs ts else (b :: bs, t :: ts)
  | bs, ts => (bs, ts)

/-- The function `filepath.Rel`: both paths are cleaned, a path that cleans to
`.` has no elements, the common leading elements are dropped, and the result
goes up once for every element left of the base and then down the elements
left of the target (`Rel "templates" "."` is `..`). -/
def Rel (basepath targpath : String) : Except Err String :=
  let base := Clean basepath
  let targ := Clean targpath
  if targ = base then .ok "."
  else
    let base1 := if base = "." then "" else base
    let targ1 := if targ = "." then "" else targ
    if isRooted base1 != isRooted targ1 then
      .error (.msg ("Rel: can't make " ++ targpath ++ " relative to " ++ basepath))
    else
      match stripCommon (elements base1) (elements targ1) with
      | (b, t) =>
        if b.head? = some ".." then
          .error (.msg ("Rel: can't make " ++ targpath ++ " relative to " ++ basepath))
        else if b.isEmpty then .ok (joinSlash t)
        else .ok (joinSlash (b.map (fun _ => "..") ++ t))

/-! ## The filesystem written by `Execute` -/

/-- A filesystem node: a directory, or a regular file with its bytes. -/
inductive Node where
  | dir
  | file (bytes : String)
deriving DecidableEq, Repr

/-- The state of the machine the engine runs on: the node at every absolute
path (a list of elements, the root being `[]`), the working directory of the
process, and the number of template executions made so far, which stands for
the moment at which the next one happens (the clock, the random source and
whatever else a template function may read). There are no symbolic links and
no permissions. -/
structure FS where
  cwd : List String
  nodes : List String → Option Node
  ticks : Nat

/-- The state once a template execution is over. -/
def FS.tick (fs : FS) : FS :=
  { fs with ticks := fs.ticks + 1 }

/-- The absolute path a name denotes: rooted names start at the root, others at
the working directory; `.` and `..` are resolved lexically. For a clean name,
in which `..` can only come first, this is where the kernel arrives. -/
def FS.resolve (fs : FS) (path : String) : List String :=
  cleanFrom true (if isRooted path then [] else fs.cwd) (elements path)

/-- The filesystem with the node at `p` replaced. -/
def FS.set (fs : FS) (p : List String) (n : Option Node) : FS :=
  { fs with nodes := fun q => if q = p then n else fs.nodes q }

/-- Path lookup as the kernel does it: every element before the last must be a
directory (`ENOTDIR` at a regular file, `ENOENT` at a missing one). -/
def FS.walkFrom (fs : FS) (pre : List String) : List String → Except Errno Node
  | [] =>
    match fs.nodes pre with
    | some n => .ok n
    | none => .error .ENOENT
  | c :: rest =>
    match fs.nodes pre with
    | some .dir => FS.walkFrom fs (pre ++ [c]) rest
    | some (.file _) => .error .ENOTDIR
    | none => .error .ENOENT

/-- Lookup of an absolute path from the root. -/
def FS.lookup (fs : FS) (p : List String) : Except Errno Node :=
  fs.walkFrom [] p

/-- The function `os.Stat`. -/
def osStat (path : String) (fs : FS) : Except Err Node :=
  if path = "" then .error (.path .ENOENT)
  else
    match fs.lookup (fs.resolve path) with
    | .ok n => .ok n
    | .error e => .error (.path e)

/-- The function `os.IsNotExist`. -/
def osIsNotExist : Err → Bool
  | .path .ENOENT => true
  | _ => false

/-- The test `endsWithDot` of `os.RemoveAll`. -/
def endsWithDot (path : String) : Bool :=
  match path.data.reverse with
  | ['.'] => true
  | '.' :: '/' :: _ => true
  | _ => false

/-- Path resolution as the kernel does it, for a name that need not be clean.
`held` says that `cur` is known to exist: the directory the walk starts from and
what `.` and `..` reach from it. A place reached by a name must be a directory
before anything is looked up in it: `ENOENT` when it is missing, `ENOTDIR` when
it is a regular file. Each element moves as in `Clean` of a rooted path: `.`
stays, `..` is the parent (the root is its own parent), a name goes down. The
result is the place of the last element, which need not exist. -/
def FS.kwalk (fs : FS) : Bool → List String → List String → Except Errno (List String)
  | _, cur, [] => .ok cur
  | held, cur, e :: es =>
    if held then fs.kwalk (e == "." || e == "..") (cleanStep true cur e) es
    else
      match fs.nodes cur with
      | some .dir => fs.kwalk false (cleanStep true cur e) es
      | some (.file _) => .error .ENOTDIR
      | none => .error .ENOENT

/-- The state with everything strictly below `r` removed. -/
def FS.clearBelow (fs : FS) (r : List String) : FS :=
  { fs with nodes := fun q => if r <+: q ∧ q ≠ r then none else fs.nodes q }

/-- The state with `r` and everything below it removed. -/
def FS.clear (fs : FS) (r : List String) : FS :=
  { fs with nodes := fun q => if r <+: q then none else fs.nodes q }

/-- The function `os.RemoveAll`, which is handed the name as the caller wrote
it. The empty name is ignored and a name ending in `.` is refused. The name is
resolved by the kernel: when a directory on the way is missing there is nothing
to remove and no error (`missing/../output` removes nothing when `missing` does
not exist); a regular file on the way is an error. Otherwise the place and
everything beneath it are removed, and a place that does not exist is not an
error. The root directory, and a name whose last element is `.` or `..`, lose
what is beneath them and the call fails, since the directory itself cannot be
removed under that name. -/
def osRemoveAll (path : String) (fs : FS) : FS × Option Err :=
  if path = "" then (fs, none)
  else if endsWithDot path then (fs, some (.path .EINVAL))
  else
    match fs.kwalk true (if isRooted path then [] else fs.cwd) (elements path) with
    | .error .ENOENT => (fs, none)
    | .error e => (fs, some (.path e))
    | .ok r =>
      if r = [] then (fs.clearBelow r, some (.path .EBUSY))
      else if (elements path).getLast? = some "." then (fs.clearBelow r, some (.path .EINVAL))
      else if (elements path).getLast? = some ".." then
        (fs.clearBelow r, some (.path .ENOTEMPTY))
      else (fs.clear r, none)

/-- The directories of `os.MkdirAll` below `pre`, which is a directory: a
directory that exists is entered, a missing one is created, a regular file
stops the operation with `ENOTDIR`. -/
def FS.mkdirFrom (pre : List String) : List String → FS → FS × Option Errno
  | [], fs => (fs, none)
  | c :: rest, fs =>
    match fs.nodes (pre ++ [c]) with
    | some .dir => FS.mkdirFrom (pre ++ [c]) rest fs
    | some (.file _) => (fs, some .ENOTDIR)
    | none => FS.mkdirFrom (pre ++ [c]) rest (fs.set (pre ++ [c]) (some .dir))

/-- The function `os.MkdirAll`: creates the directory and every missing parent;
an existing directory is not an error. -/
def osMkdirAll (path : String) (fs : FS) : FS × Option Err :=
  if path = "" then (fs, some (.path .ENOENT))
  else
    match fs.nodes [] with
    | some .dir =>
      match FS.mkdirFrom [] (fs.resolve path) fs with
      | (fs1, none) => (fs1, none)
      | (fs1, some e) => (fs1, some (.path e))
    | some (.file _) => (fs, some (.path .ENOTDIR))
    | none => (fs, some (.path .ENOENT))

/-- The function `os.Create`: the parent must be a directory and the path must
not be one; the file is created, or truncated when it exists. The handle of
the open file is its absolute path. -/
def osCreate (path : String) (fs : FS) : FS × Except Err (List String) :=
  if path = "" then (fs, .error (.path .ENOENT))
  else if fs.resolve path = [] then (fs, .error (.path .EISDIR))
  else
    match fs.lookup (fs.resolve path).dropLast with
    | .error e => (fs, .error (.path e))
    | .ok (.file _) => (fs, .error (.path .ENOTDIR))
    | .ok .dir =>
      match fs.nodes (fs.resolve path) with
      | some .dir => (fs, .error (.path .EISDIR))
      | _ => (fs.set (fs.resolve path) (some (.file "")), .ok (fs.resolve path))

/-- Bytes appended through an open handle. -/
def FS.write (fs : FS) (h : List String) (bytes : String) : FS :=
  match fs.nodes h with
  | some (.file old) => fs.set h (some (.file (old ++ bytes)))
  | _ => fs

/-! ## External collaborators -/

/-- One callback of `filepath.Walk`: the path, the `Name()` and `IsDir()` of
its `os.FileInfo`, and the traversal error, if any. -/
structure WalkEntry where
  path : String
  name : String
  isDir : Bool
  err : Option Err
deriving DecidableEq, Repr

/-- What `yaml.Unmarshal(configBytes, &c)` has done when it returns no error.
It is handed the address of the pointer `c`: for a null document (`~`, `null`,
a document that is only `---`) it sets `c` itself to nil; otherwise `c` keeps
pointing to the struct, whose field tagged `configurations` is the nil map
(key absent, or present with a null value) or a map with the given entries. -/
inductive Decoded (V : Type) where
  | null
  | contexts (entries : Option (List (String × V)))
deriving DecidableEq, Repr

/-- The services the engine calls, for a type `T` of compiled templates, a type
`Tree` of parse trees and a type `V` of decoded YAML values.
* `readFile` is `ioutil.ReadFile`;
* `parse name text` is `template.New(name).Parse(text)`;
* `templates`, `name`, `tree` are `Templates()`, `Name()` and `Tree`;
* `parseFiles path` is
  `template.New(filepath.Base(path)).Funcs(sprig.TxtFuncMap()).ParseFiles(path)`;
* `option t o` is `t` after `t.Option(o)`; `addParseTree t name tree` is `t`
  after `t.AddParseTree(name, tree)` (the engine drops the template the call
  returns and goes on with `t`); `lookupTree t name` is the tree of
  `t.Lookup(name)`, when there is one; `isEmptyTree` is `parse.IsEmptyTree`;
* `execute t v n` is `t.Execute(w, v)` at the moment `n`: the bytes written to
  `w` and the error. The templates are compiled with `sprig.TxtFuncMap()`,
  whose functions read the clock, the random source and the environment, so
  that the outcome may depend on the moment;
* `walk root` is the sequence of callbacks `filepath.Walk(root, fn)` makes as
  long as `fn` returns `nil`;
* `unmarshal bytes` is what `yaml.Unmarshal(configBytes, &c)` does to the
  value made by `NewMipha`, whose map is nil before decoding (`Decoded`). -/
structure Collab (T Tree V : Type) where
  readFile : String → Except Err String
  parse : String → String → Except Err T
  templates : T → List T
  name : T → String
  tree : T → Tree
  parseFiles : String → Except Err T
  option : T → String → T
  addParseTree : T → String → Tree → Except Err T
  lookupTree : T → String → Option Tree
  isEmptyTree : Tree → Bool
  execute : T → V → Nat → String × Option Err
  walk : String → List WalkEntry
  unmarshal : String → Except Err (Decoded V)

/-! ## `miphacore/mipha.go` -/

/-- The struct `templateFile`. -/
structure templateFile (T : Type) where
  fullpath : String
  relpath : String
  name : String
  template : T
deriving DecidableEq

/-- The struct `templateCollection`. -/
structure templateCollection (T : Type) where
  helperPath : String
  helpers : List T
  templatesPath : String
  templates : List (templateFile T)

/-- The function `newTemplateCollection`. -/
def newTemplateCollection {T : Type} (templates : String) (helper : String) :
    templateCollection T :=
  { helperPath := helper, helpers := [], templatesPath := templates, templates := [] }

/-- A loop that stops at the first error, keeping the state reached. -/
def forEach {α σ : Type} (body : α → σ → σ × Option Err) : List α → σ → σ × Option Err
  | [], s => (s, none)
  | x :: xs, s =>
    match body x s with
    | (s1, some err) => (s1, some err)
    | (s1, none) => forEach body xs s1

/-- The loop of `walkFunc` that merges the helpers into a template. -/
def addHelpers {T Tree V : Type} (K : Collab T Tree V) : List T → T → Except Err T
  | [], t => .ok t
  | helperT :: rest, t =>
    match K.addParseTree t (K.name helperT) (K.tree helperT) with
    | .error err => .error err
    | .ok t1 => addHelpers K rest t1

/-- The function returned by `templateCollection.walkFunc`. -/
def walkFunc {T Tree V : Type} (K : Collab T Tree V) (e : WalkEntry)
    (tc : templateCollection T) : templateCollection T × Option Err :=
  match e.err with
  | some err => (tc, some err)
  | none =>
    if e.isDir then (tc, none)
    else
      match Rel tc.templatesPath (Dir e.path) with
      | .error err => (tc, some err)
      | .ok rel =>
        match K.parseFiles e.path with
        | .error err => (tc, some err)
        | .ok t =>
          match addHelpers K tc.helpers (K.option t "missingkey=error") with
          | .error err => (tc, some err)
          | .ok t1 =>
            ({ tc with templates := tc.templates ++
                [{ fullpath := e.path, relpath := rel, name := e.name, template := t1 }] }, none)

/-- The name given to the helper document. -/
def helperTemlatesName : String := "__helper__.tpl"

/-- The loop of `load` over `helper.Templates()`: the template named like the
helper document is skipped, every other one is appended. -/
def collectHelpers {T Tree V : Type} (K : Collab T Tree V) : List T → List T → List T
  | [], helpers => helpers
  | helperT :: rest, helpers =>
    if K.name helperT = helperTemlatesName then collectHelpers K rest helpers
    else collectHelpers K rest (helpers ++ [helperT])

/-- The method `templateCollection.load`. -/
def templateCollection.load {T Tree V : Type} (K : Collab T Tree V)
    (tc : templateCollection T) : templateCollection T × Option Err :=
  if tc.helperPath.length ≠ 0 then
    match K.readFile tc.helperPath with
    | .error err => (tc, some err)
    | .ok helperBytes =>
      match K.parse helperTemlatesName helperBytes with
      | .error err => (tc, some err)
      | .ok helper =>
        forEach (walkFunc K) (K.walk tc.templatesPath)
          { tc with helpers := collectHelpers K (K.templates helper) tc.helpers }
  else forEach (walkFunc K) (K.walk tc.templatesPath) tc

/-- The struct `renderContexts`; `Contexts` lists the entries of the map in the
order in which `range` visits them, `none` being the nil map. -/
structure renderContexts (V : Type) where
  path : String
  Contexts : Option (List (String × V))

/-- The message of the missing-section error. -/
def noConfigurations : Err :=
  .msg "Invalid configuration file, no 'configurations' section"

/-- The panic of `c.Contexts` when `c` is nil. -/
def nilDereference : Err :=
  .panic "runtime error: invalid memory address or nil pointer dereference"

/-- The method `renderContexts.load`. After a null document the receiver `c`
is nil and the test `c.Contexts == nil` dereferences it; the struct the engine
holds is as it was. -/
def renderContexts.load {T Tree V : Type} (K : Collab T Tree V)
    (c : renderContexts V) : renderContexts V × Option Err :=
  match K.readFile c.path with
  | .error err => (c, some err)
  | .ok configBytes =>
    match K.unmarshal configBytes with
    | .error err => (c, some err)
    | .ok .null => (c, some nilDereference)
    | .ok (.contexts none) => ({ c with Contexts := none }, some noConfigurations)
    | .ok (.contexts (some l)) => ({ c with Contexts := some l }, none)

/-- The struct `MiphaEngine`. -/
structure MiphaEngine (T V : Type) where
  tc : templateCollection T
  rc : renderContexts V
  outputPath : String

/-- The function `NewMipha`. -/
def NewMipha {T V : Type} (templates config helper output : String) : MiphaEngine T V :=
  { tc := newTemplateCollection templates helper,
    rc := { path := config, Contexts := none },
    outputPath := output }

/-- The method `MiphaEngine.Load`. -/
def MiphaEngine.Load {T Tree V : Type} (K : Collab T Tree V)
    (m : MiphaEngine T V) : MiphaEngine T V × Option Err :=
  match m.tc.load K with
  | (tc1, some err) => ({ m with tc := tc1 }, some err)
  | (tc1, none) =>
    match m.rc.load K with
    | (rc1, some err) => ({ m with tc := tc1, rc := rc1 }, some err)
    | (rc1, none) => ({ m with tc := tc1, rc := rc1 }, none)

/-- The `Stat` step of the inner loop of `Execute`: a directory reported
missing is created with `MkdirAll`, any other `Stat` error is returned. -/
def ensureDir (tdir : String) (fs : FS) : FS × Option Err :=
  match osStat tdir fs with
  | .error err => if osIsNotExist err then osMkdirAll tdir fs else (fs, some err)
  | .ok _ => (fs, none)

/-- The body of the inner loop of `Execute`: one template rendered for one
context. -/
def renderTemplate {T Tree V : Type} (K : Collab T Tree V) (configOutputdir : String)
    (context : V) (t : templateFile T) (fs : FS) : FS × Option Err :=
  match ensureDir (Join [configOutputdir, t.relpath]) fs with
  | (fs1, some err) => (fs1, some err)
  | (fs1, none) =>
    match osCreate (Join [Join [configOutputdir, t.relpath], t.name]) fs1 with
    | (fs2, .error err) => (fs2, some err)
    | (fs2, .ok tfile) =>
      ((fs2.write tfile (K.execute t.template context fs2.ticks).1).tick,
        (K.execute t.template context fs2.ticks).2)

/-- The body of the outer loop of `Execute`: one context. -/
def renderContext {T Tree V : Type} (K : Collab T Tree V) (m : MiphaEngine T V)
    (c : String × V) (fs : FS) : FS × Option Err :=
  match osMkdirAll (Join [m.outputPath, c.1]) fs with
  | (fs1, some err) => (fs1, some err)
  | (fs1, none) =>
    forEach (renderTemplate K (Join [m.outputPath, c.1]) c.2) m.tc.templates fs1

/-- The method `MiphaEngine.Execute`. -/
def MiphaEngine.Execute {T Tree V : Type} (K : Collab T Tree V)
    (m : MiphaEngine T V) (fs : FS) : FS × Option Err :=
  match osRemoveAll m.outputPath fs with
  | (fs0, some err) => (fs0, some err)
  | (fs0, none) => forEach (renderContext K m) (m.rc.Contexts.getD []) fs0

/-- The body of `main` after flag parsing: `Load`, then `Execute` unless `Load`
failed (`log.Fatal` ends the process). -/
def mainRun {T Tree V : Type} (K : Collab T Tree V) (m : MiphaEngine T V) (fs : FS) :
    FS × Option Err :=
  match m.Load K with
  | (_, some err) => (fs, some err)
  | (m1, none) => m1.Execute K fs

/-! ## Vocabulary of the statements -/

/-- The absolute path of the output root. -/
def MiphaEngine.root {T V : Type} (m : MiphaEngine T V) (fs : FS) : List String :=
  fs.resolve m.outputPath

/-- The absolute path of the output directory of a context. -/
def MiphaEngine.ctxDir {T V : Type} (m : MiphaEngine T V) (fs : FS) (cname : String) :
    List String :=
  fs.resolve (Join [m.outputPath, cname])

/-- The absolute path of the directory a template is rendered into. -/
def MiphaEngine.tplDir {T V : Type} (m : MiphaEngine T V) (fs : FS) (cname : String)
    (t : templateFile T) : List String :=
  fs.resolve (Join [Join [m.outputPath, cname], t.relpath])

/-- The absolute path of the file a template is rendered to for a context. -/
def MiphaEngine.dest {T V : Type} (m : MiphaEngine T V) (fs : FS) (cname : String)
    (t : templateFile T) : List String :=
  fs.resolve (Join [Join [Join [m.outputPath, cname], t.relpath], t.name])

/-- The contexts of the engine, in iteration order. -/
def MiphaEngine.contexts {T V : Type} (m : MiphaEngine T V) : List (String × V) :=
  m.rc.Contexts.getD []

/-- The node kinds agree. -/
def Node.sameKind : Node → Node → Bool
  | .dir, .dir => true
  | .file _, .file _ => true
  | _, _ => false

/-- The second state extends the first: the working directory is the same,
every node keeps its kind, a file whose bytes are new is one of the writes
`Wr`, made at a moment between the two states, a new directory lies on the way
to one of the targets `Tg`, and time has not gone back. -/
def Grows (Wr : Nat → List String → String → Prop) (Tg : List String → Prop)
    (fs fs1 : FS) : Prop :=
  fs1.cwd = fs.cwd ∧
  (∀ p n, fs.nodes p = some n → ∃ n1, fs1.nodes p = some n1 ∧ n.sameKind n1 = true) ∧
  (∀ p b, fs1.nodes p = some (.file b) →
    fs.nodes p = some (.file b) ∨ ∃ n, fs.ticks ≤ n ∧ n < fs1.ticks ∧ Wr n p b) ∧
  (∀ p, fs1.nodes p = some .dir →
    fs.nodes p = some .dir ∨ (fs.nodes p = none ∧ ∃ g, Tg g ∧ p <+: g)) ∧
  fs.ticks ≤ fs1.ticks

/-- The writes of an engine: moment, destination and bytes of every pair of a
context and a template unit. -/
def MiphaEngine.writes {T Tree V : Type} (K : Collab T Tree V) (m : MiphaEngine T V) (fs : FS)
    (cs : List (String × V)) (n : Nat) (p : List String) (b : String) : Prop :=
  ∃ c ∈ cs, ∃ t ∈ m.tc.templates, m.dest fs c.1 t = p ∧ (K.execute t.template c.2 n).1 = b

/-- The directories an engine asks for: the directory of every context and the
directory of every template below it. -/
def MiphaEngine.targets {T V : Type} (m : MiphaEngine T V) (fs : FS)
    (cs : List (String × V)) (g : List String) : Prop :=
  ∃ c ∈ cs, m.ctxDir fs c.1 = g ∨ ∃ t ∈ m.tc.templates, m.tplDir fs c.1 t = g

/-- The regular files at or below a path. -/
def regularFilesUnder (fs : FS) (root : List String) : Set (List String) :=
  {p | root <+: p ∧ ∃ b, fs.nodes p = some (.file b)}

/-- A string that can be an element of a path: not empty, no separator. -/
def IsPiece (s : String) : Prop := s.data ≠ [] ∧ '/' ∉ s.data

/-! ## The filesystem after a successful run -/

/-- The same engine with the contexts visited in another order. -/
def MiphaEngine.reorder {T V : Type} (m : MiphaEngine T V) (cs : List (String × V)) :
    MiphaEngine T V :=
  { m with rc := { m.rc with Contexts := some cs } }

/-- Every template unit renders the same bytes for a context whenever it is
executed. -/
def Repeatable {T Tree V : Type} (K : Collab T Tree V) (m : MiphaEngine T V) : Prop :=
  ∀ t ∈ m.tc.templates, ∀ c ∈ m.contexts, ∀ n n',
    (K.execute t.template c.2 n).1 = (K.execute t.template c.2 n').1

/-- No two pairs of a context and a template unit have the same destination. -/
def NoCollision {T V : Type} (m : MiphaEngine T V) (fs : FS) : Prop :=
  ∀ c ∈ m.contexts, ∀ t ∈ m.tc.templates, ∀ c' ∈ m.contexts, ∀ t' ∈ m.tc.templates,
    m.dest fs c.1 t = m.dest fs c'.1 t' → c = c' ∧ t = t'

/-- The node `y` at path `p` after a successful run that found `x` there once
the output root was removed: the bytes of a pair rendered to `p`; otherwise the
node found, or a directory on the way to a directory of the engine, or
nothing. -/
def Settled {T Tree V : Type} (K : Collab T Tree V) (m : MiphaEngine T V) (fs : FS)
    (cs : List (String × V)) (p : List String) (x y : Option Node) : Prop :=
  (∃ c ∈ cs, ∃ t ∈ m.tc.templates, m.dest fs c.1 t = p ∧
      ∃ n, y = some (.file (K.execute t.template c.2 n).1)) ∨
  ((¬ ∃ c ∈ cs, ∃ t ∈ m.tc.templates, m.dest fs c.1 t = p) ∧
    ((∃ n, x = some n ∧ y = some n) ∨
      (x = none ∧ (((∃ g, m.targets fs cs g ∧ p <+: g) ∧ y = some .dir) ∨
        ((¬ ∃ g, m.targets fs cs g ∧ p <+: g) ∧ y = none)))))

/-! ## Engines with well-formed names -/

/-- A single path element: a piece other than `.` and `..`. -/
def IsElem (s : String) : Prop := IsPiece s ∧ s ≠ "." ∧ s ≠ ".."

/-- A path that never steps to a parent directory. -/
def Descends (rel : String) : Prop := ∀ e ∈ elements rel, e ≠ ".."

/-- A relative path that, cleaned, does not begin with `..`: joined to a
directory it stays at or below it. -/
def Stays (s : String) : Prop :=
  isRooted s = false ∧ ".." ∉ cleanFrom false [] (elements s)

/-- The elements a descending path adds to a directory. -/
def relElems (rel : String) : List String := (elements rel).filter (fun e => e != ".")

/-- Context names and file names are single path elements and the relative
directories of the template units descend. -/
def WellNamed {T V : Type} (m : MiphaEngine T V) : Prop :=
  (∀ c ∈ m.contexts, IsElem c.1) ∧ ∀ t ∈ m.tc.templates, Descends t.relpath ∧ IsElem t.name

/-- The context names are the keys of a map, and the template units are
distinct files of the template tree. -/
def Distinct {T V : Type} (m : MiphaEngine T V) : Prop :=
  (m.contexts.map Prod.fst).Nodup ∧
    (m.tc.templates.map (fun t => (relElems t.relpath, t.name))).Nodup

/-- The destination paths of all pairs of a context and a template unit. -/
def destPaths {T V : Type} (m : MiphaEngine T V) (fs : FS) : List (List String) :=
  (List.product m.contexts m.tc.templates).map (fun ct => m.dest fs ct.1.1 ct.2)

/-- Cross-product completeness: the regular files at or below the output root
are the destinations of the pairs, which are pairwise distinct, so that their
number is the number of templates times the number of contexts. -/
def CrossProduct {T V : Type} (m : MiphaEngine T V) (fs fs' : FS) : Prop :=
  (∀ p, p ∈ regularFilesUnder fs' (m.root fs) ↔ p ∈ destPaths m fs) ∧
  (destPaths m fs).Nodup ∧
  (regularFilesUnder fs' (m.root fs)).ncard = m.tc.templates.length * m.contexts.length

/-! ## Loading -/

/-- What the engine relies on of `AddParseTree`, as `text/template` does it:
the other names keep their trees; the name gets the given tree, unless the tree
is empty and the name has a tree already, which it keeps. -/
def Associates {T Tree V : Type} (K : Collab T Tree V) : Prop :=
  ∀ t n tr t', K.addParseTree t n tr = .ok t' →
    (∀ n', n' ≠ n → K.lookupTree t' n' = K.lookupTree t n') ∧
    K.lookupTree t' n =
      if K.isEmptyTree tr = true ∧ (K.lookupTree t n).isSome = true then K.lookupTree t n
      else some tr

/-- The reference definition of helper loading: no definitions for the empty
path; otherwise the file is read and parsed, and the definitions are the
templates of the parsed document other than the one named like the document
itself. -/
def helperDefinitions {T Tree V : Type} (K : Collab T Tree V) (path : String) :
    Except Err (List T) :=
  if path = "" then .ok []
  else
    match K.readFile path with
    | .error err => .error err
    | .ok bytes =>
      match K.parse helperTemlatesName bytes with
      | .error err => .error err
      | .ok helper =>
        .ok ((K.templates helper).filter (fun h => K.name h != helperTemlatesName))

/-- The template unit `walkFunc` builds for an entry, when it builds one. -/
def unitOf {T Tree V : Type} (K : Collab T Tree V) (tc : templateCollection T)
    (e : WalkEntry) : Option (templateFile T) :=
  match e.err with
  | some _ => none
  | none =>
    if e.isDir then none
    else
      match Rel tc.templatesPath (Dir e.path) with
      | .error _ => none
      | .ok rel =>
        match K.parseFiles e.path with
        | .error _ => none
        | .ok t =>
          match addHelpers K tc.helpers (K.option t "missingkey=error") with
          | .error _ => none
          | .ok t1 => some { fullpath := e.path, relpath := rel, name := e.name, template := t1 }

/-- The template units built from a list of entries. -/
def unitsOf {T Tree V : Type} (K : Collab T Tree V) (tc : templateCollection T)
    (es : List WalkEntry) : List (templateFile T) :=
  es.flatMap (fun e => (unitOf K tc e).toList)

/-! ## A small instance of the collaborators

Templates are sequences of literal text, fields of the context and calls of
helper definitions; files, parsed documents and directory walks are given by
tables. It serves to evaluate the engine on concrete inputs. -/

/-- The function `filepath.Base`. -/
def Base (path : String) : String :=
  if path = "" then "."
  else
    match (elements path).getLast? with
    | some e => e
    | none => "/"

/-- A piece of a template body: literal text, a field of the context, a call
of a named definition, or the moment of the execution (as the functions `now`
and `uuidv4` of sprig give a value that depends on it). -/
inductive Piece where
  | text (s : String)
  | field (name : String)
  | call (name : String)
  | stamp
deriving DecidableEq, Repr

/-- The moment `n` as text: `n` strokes. -/
def strokes (n : Nat) : String :=
  String.mk (List.replicate n '|')

/-- A compiled template: its name, the `missingkey=error` option, and the
trees of the template set it belongs to, its own body included. -/
structure Tmpl where
  name : String
  strict : Bool
  defs : List (String × List Piece)
deriving DecidableEq, Repr

/-- Execution of a body without calls. -/
def runFlat (strict : Bool) (v : List (String × String)) (now : Nat) :
    List Piece → String × Option Err
  | [] => ("", none)
  | .text s :: rest => (s ++ (runFlat strict v now rest).1, (runFlat strict v now rest).2)
  | .field n :: rest =>
    match v.lookup n with
    | some x => (x ++ (runFlat strict v now rest).1, (runFlat strict v now rest).2)
    | none =>
      if strict then ("", some (.msg ("map has no entry for key " ++ n)))
      else ("<no value>" ++ (runFlat strict v now rest).1, (runFlat strict v now rest).2)
  | .call n :: _ => ("", some (.msg ("template " ++ n ++ " called from a helper")))
  | .stamp :: rest =>
    (strokes now ++ (runFlat strict v now rest).1, (runFlat strict v now rest).2)

/-- Execution of a body: the bytes written and the error, if any. -/
def runPieces (strict : Bool) (defs : List (String × List Piece)) (v : List (String × String))
    (now : Nat) : List Piece → String × Option Err
  | [] => ("", none)
  | .text s :: rest =>
    (s ++ (runPieces strict defs v now rest).1, (runPieces strict defs v now rest).2)
  | .field n :: rest =>
    match v.lookup n with
    | some x => (x ++ (runPieces strict defs v now rest).1, (runPieces strict defs v now rest).2)
    | none =>
      if strict then ("", some (.msg ("map has no entry for key " ++ n)))
      else
        ("<no value>" ++ (runPieces strict defs v now rest).1,
          (runPieces strict defs v now rest).2)
  | .call n :: rest =>
    match defs.lookup n with
    | none => ("", some (.msg ("no such template " ++ n)))
    | some body =>
      match runFlat strict v now body with
      | (o, some e) => (o, some e)
      | (o, none) =>
        (o ++ (runPieces strict defs v now rest).1, (runPieces strict defs v now rest).2)
  | .stamp :: rest =>
    (strokes now ++ (runPieces strict defs v now rest).1, (runPieces strict defs v now rest).2)

/-- A tree that `parse.IsEmptyTree` calls empty: nothing but white space. -/
def emptyBody (body : List Piece) : Bool :=
  body.all (fun x =>
    match x with
    | .text s => s.data.all (fun ch => ch == ' ' || ch == '\n' || ch == '\t')
    | _ => false)

/-- The tables of a concrete world: readable files, directory walks, parsed
template files (the body of each, and the definitions it makes besides),
parsed helper documents, decoded configuration documents, and the names under
which the template engine refuses a merge. -/
structure Demo where
  files : List (String × String)
  walks : List (String × List WalkEntry)
  sources : List (String × List Piece)
  localDefs : List (String × List (String × List Piece))
  helperDocs : List (String × List (String × List Piece))
  yamlDocs : List (String × Decoded (List (String × String)))
  refused : List String

/-- The collaborators of a concrete world. -/
def Demo.collab (d : Demo) : Collab Tmpl (List Piece) (List (String × String)) :=
  { readFile := fun p =>
      match d.files.lookup p with
      | some s => .ok s
      | none => .error (.path .ENOENT)
    parse := fun name text =>
      match d.helperDocs.lookup text with
      | some ds => .ok { name := name, strict := false, defs := (name, []) :: ds }
      | none => .error (.msg "template: unexpected input")
    templates := fun t => t.defs.map (fun nt => { name := nt.1, strict := t.strict, defs := t.defs })
    name := fun t => t.name
    tree := fun t => (t.defs.lookup t.name).getD []
    parseFiles := fun p =>
      match d.sources.lookup p with
      | some body =>
        .ok { name := Base p, strict := false,
              defs := (Base p, body) :: (d.localDefs.lookup p).getD [] }
      | none => .error (.msg ("template: unexpected input in " ++ p))
    option := fun t o => if o = "missingkey=error" then { t with strict := true } else t
    addParseTree := fun t n tr =>
      if n ∈ d.refused then .error (.msg ("template: cannot add " ++ n))
      else if emptyBody tr && (t.defs.lookup n).isSome then .ok t
      else .ok { t with defs := (n, tr) :: t.defs.filter (fun nt => nt.1 != n) }
    lookupTree := fun t n => t.defs.lookup n
    isEmptyTree := emptyBody
    execute := fun t v n => runPieces t.strict t.defs v n ((t.defs.lookup t.name).getD [])
    walk := fun root =>
      (d.walks.lookup root).getD
        [{ path := root, name := Base root, isDir := false,
           err := some (.path .ENOENT) }]
    unmarshal := fun bytes =>
      match d.yamlDocs.lookup bytes with
      | some doc => .ok doc
      | none => .error (.msg "yaml: unmarshal errors") }

/-- A state holding the root, the working directory `/work`, the given
directories and the given regular files, before any template execution. -/
def fsWith (dirs : List (List String)) (files : List (List String × String)) : FS :=
  { cwd := ["work"],
    nodes := fun p =>
      if p = [] ∨ p = ["work"] ∨ p ∈ dirs then some .dir
      else (files.lookup p).map Node.file,
    ticks := 0 }

/-- The scenario of the specification: `a.tpl` is `Hello {{.Name}}`, a second
template in a subdirectory calls a helper, and the configuration has the
contexts `ctx1` and `ctx2`. -/
def demoHello : Demo :=
  { files := [("helper.tpl", "helper-text"), ("config.yaml", "config-text")]
    walks := [("templates",
      [{ path := "templates", name := "templates", isDir := true, err := none },
       { path := "templates/a.tpl", name := "a.tpl", isDir := false, err := none },
       { path := "templates/sub", name := "sub", isDir := true, err := none },
       { path := "templates/sub/b.tpl", name := "b.tpl", isDir := false, err := none }])]
    sources := [("templates/a.tpl", [.text "Hello ", .field "Name"]),
      ("templates/sub/b.tpl", [.call "greet", .text "!"])]
    localDefs := []
    helperDocs := [("helper-text", [("greet", [.text "Hi ", .field "Name"])])]
    yamlDocs := [("config-text",
      .contexts (some [("ctx1", [("Name", "World")]), ("ctx2", [("Name", "Go")])]))]
    refused := [] }

/-- The engine of the scenario, before loading. -/
def helloEngine : MiphaEngine Tmpl (List (String × String)) :=
  NewMipha "templates" "config.yaml" "helper.tpl" "output"

/-! ## `Execute` as a sequence of steps -/

/-- The steps of `Execute`: each is one call of the source (the `Stat` step
includes the `MkdirAll` it triggers, the last step creates the destination
file and executes the template into it). -/
inductive Step (T V : Type) where
  | removeOutput
  | mkdirContext (c : String × V)
  | statDir (c : String × V) (t : templateFile T)
  | createExecute (c : String × V) (t : templateFile T)

/-- The state and the error, if any, a step returns. -/
def Step.run {T Tree V : Type} (K : Collab T Tree V) (m : MiphaEngine T V) :
    Step T V → FS → FS × Option Err
  | .removeOutput, fs => osRemoveAll m.outputPath fs
  | .mkdirContext c, fs => osMkdirAll (Join [m.outputPath, c.1]) fs
  | .statDir c t, fs => ensureDir (Join [Join [m.outputPath, c.1], t.relpath]) fs
  | .createExecute c t, fs =>
    match osCreate (Join [Join [Join [m.outputPath, c.1], t.relpath], t.name]) fs with
    | (fs2, .error err) => (fs2, some err)
    | (fs2, .ok tfile) =>
      ((fs2.write tfile (K.execute t.template c.2 fs2.ticks).1).tick,
        (K.execute t.template c.2 fs2.ticks).2)

/-- The steps for one context. -/
def contextSteps {T V : Type} (m : MiphaEngine T V) (c : String × V) : List (Step T V) :=
  .mkdirContext c :: m.tc.templates.flatMap (fun t => [.statDir c t, .createExecute c t])

/-- The steps of a run, in order: the removal of the output root, then for
every context its directory and, for every template, its directory and its
file. -/
def plan {T V : Type} (m : MiphaEngine T V) : List (Step T V) :=
  .removeOutput :: m.contexts.flatMap (contextSteps m)

/-! ## Concrete worlds -/

instance Stays.decidable (s : String) : Decidable (Stays s) := by
  unfold Stays
  infer_instance

instance IsPiece.decidable (s : String) : Decidable (IsPiece s) := by
  unfold IsPiece
  infer_instance

instance IsElem.decidable (s : String) : Decidable (IsElem s) := by
  unfold IsElem
  infer_instance

instance Descends.decidable (s : String) : Decidable (Descends s) := by
  unfold Descends
  infer_instance

instance WellNamed.decidable {T V : Type} (m : MiphaEngine T V) : Decidable (WellNamed m) := by
  unfold WellNamed
  infer_instance

instance Distinct.decidable {T V : Type} (m : MiphaEngine T V) : Decidable (Distinct m) := by
  unfold Distinct
  infer_instance

/-- The scenario with other contexts in the configuration document. -/
def demoContexts (ctxs : List (String × List (String × String))) : Demo :=
  { demoHello with yamlDocs := [("config-text", .contexts (some ctxs))] }

/-- The scenario with another decoded configuration document. -/
def demoYaml (doc : Decoded (List (String × String))) : Demo :=
  { demoHello with yamlDocs := [("config-text", doc)] }

/-- The scenario with the single template `a.tpl` and the given contexts. -/
def demoSingle (ctxs : List (String × List (String × String))) : Demo :=
  { demoHello with
    walks := [("templates",
      [{ path := "templates", name := "templates", isDir := true, err := none },
       { path := "templates/a.tpl", name := "a.tpl", isDir := false, err := none }])]
    yamlDocs := [("config-text", .contexts (some ctxs))] }

/-- The scenario in which the template path names a regular file. -/
def demoFileRoot : Demo :=
  { demoHello with
    walks := [("templates",
      [{ path := "templates", name := "templates", isDir := false, err := none }])]
    sources := [("templates", [.text "Hello ", .field "Name"])] }

/-- The scenario with a second template file that does not parse. -/
def demoBadTemplate : Demo :=
  { demoHello with
    walks := [("templates",
      [{ path := "templates", name := "templates", isDir := true, err := none },
       { path := "templates/a.tpl", name := "a.tpl", isDir := false, err := none },
       { path := "templates/bad.tpl", name := "bad.tpl", isDir := false, err := none },
       { path := "templates/c.tpl", name := "c.tpl", isDir := false, err := none }])]
    sources := [("templates/a.tpl", [.text "Hello ", .field "Name"]),
      ("templates/c.tpl", [.text "Bye ", .field "Name"])] }

/-- The engine of a world after `Load`, for the given output path. -/
def loaded (d : Demo) (output : String) : MiphaEngine Tmpl (List (String × String)) :=
  ((NewMipha "templates" "config.yaml" "helper.tpl" output :
    MiphaEngine Tmpl (List (String × String))).Load d.collab).1

/-- A filesystem with a file left by an earlier run. -/
def fsStale : FS := fsWith [["work", "output"]] [(["work", "output", "stale"], "old")]

/-- Two contexts whose names denote the same directory. -/
def collidingContexts : List (String × List (String × String)) :=
  [("ctx", [("Name", "World")]), ("./ctx", [("Name", "Go")])]

/-- The claim of layout and content for one walk entry and one context. -/
def LayoutContent {T Tree V : Type} (K : Collab T Tree V) (m : MiphaEngine T V)
    (templates : String) (fs fs' : FS) (e : WalkEntry) (c : String × V) : Prop :=
  ∃ t ∈ m.tc.templates, t.fullpath = e.path ∧ t.name = e.name ∧
    Rel templates (Dir e.path) = .ok t.relpath ∧
    ∃ n, n < fs'.ticks ∧ fs.ticks ≤ n ∧
      fs'.nodes (m.dest fs c.1 t) = some (.file (K.execute t.template c.2 n).1)

instance LayoutContent.decidable {T Tree V : Type} (K : Collab T Tree V) (m : MiphaEngine T V)
    (templates : String) (fs fs' : FS) (e : WalkEntry) (c : String × V) :
    Decidable (LayoutContent K m templates fs fs' e c) := by
  unfold LayoutContent
  infer_instance

/-- The claim of confinement: `Execute` changes no path that is not at or below
the output root, and every destination lies in the directory of its context,
the output root joined with the name of the context. -/
def Confined {T Tree V : Type} (K : Collab T Tree V) (m : MiphaEngine T V) (fs : FS) : Prop :=
  (∀ q, ¬ m.root fs <+: q → (m.Execute K fs).1.nodes q = fs.nodes q) ∧
  ∀ c ∈ m.contexts, ∀ t ∈ m.tc.templates, m.ctxDir fs c.1 <+: m.dest fs c.1 t

/-- The scenario whose second context lacks the variable `Name`. -/
def demoMissingKey : Demo :=
  demoContexts [("ctx1", [("Name", "World")]), ("ctx2", [])]

/-- The scenario with a template that does not parse and a configuration
document without the `configurations` key. -/
def demoBadBoth : Demo :=
  { demoBadTemplate with yamlDocs := [("config-text", .contexts none)] }

/-- The scenario with one template that writes the moment of its execution,
and two contexts. -/
def demoStamp : Demo :=
  { demoSingle [("ctx1", []), ("ctx2", [])] with
    sources := [("templates/a.tpl", [.text "at ", .stamp])] }

/-- The scenario in which the file of the template defines `greet` itself and
the helper document defines `greet` with an empty body. -/
def demoOwnGreet : Demo :=
  { demoSingle [("ctx1", [("Name", "World")])] with
    sources := [("templates/a.tpl", [.call "greet"])]
    localDefs := [("templates/a.tpl", [("greet", [.text "local"])])]
    helperDocs := [("helper-text", [("greet", [])])] }

/-- The scenario with a template engine that refuses to merge `greet`. -/
def demoRefused : Demo :=
  { demoHello with refused := ["greet"] }

/-- A context whose name leaves the output root. -/
def escapingContexts : List (String × List (String × String)) :=
  [("../x", [("Name", "World")])]

/-- A filesystem with a file in the working directory. -/
def fsOld : FS := fsWith [] [(["work", "old"], "x")]

/-- The helper definitions of the scenario. -/
def helloHelpers : List Tmpl :=
  [{ name := "greet", strict := false,
     defs := [("__helper__.tpl", []), ("greet", [.text "Hi ", .field "Name"])] }]

/-- The entries of the walk before the template that does not parse. -/
def badWalkBefore : List WalkEntry :=
  [{ path := "templates", name := "templates", isDir := true, err := none },
   { path := "templates/a.tpl", name := "a.tpl", isDir := false, err := none }]

/-- The removal of the output root has left nothing at or below it. -/
def Cleared {T V : Type} (m : MiphaEngine T V) (fs : FS) : Prop :=
  ∀ q, m.root fs <+: q → (osRemoveAll m.outputPath fs).1.nodes q = none

/-! ## Loops -/

theorem forEach_append {α σ : Type} (body : α → σ → σ × Option Err) (xs ys : List α) (s : σ) :
    forEach body (xs ++ ys) s =
      match forEach body xs s with
      | (s1, some err) => (s1, some err)
      | (s1, none) => forEach body ys s1 := by
  induction xs generalizing s with
  | nil => simp [forEach]
  | cons x xs ih =>
    simp only [List.cons_append, forEach]
    rcases h : body x s with ⟨s1, _ | err⟩
    · simp [ih]
    · simp

/-- A reflexive and transitive relation kept by every pass of the body is kept
by the loop, whatever its outcome. -/
theorem forEach_rel {α σ : Type} (body : α → σ → σ × Option Err) (R : σ → σ → Prop)
    (hrefl : ∀ s, R s s) (htrans : ∀ a b c, R a b → R b c → R a c)
    (xs : List α) (hbody : ∀ x ∈ xs, ∀ s, R s (body x s).1) (s : σ) :
    R s (forEach body xs s).1 := by
  induction xs generalizing s with
  | nil => exact hrefl s
  | cons x xs ih =>
    simp only [forEach]
    have h1 := hbody x (List.mem_cons_self _ _) s
    rcases h : body x s with ⟨s1, _ | err⟩
    · rw [h] at h1
      exact htrans _ _ _ h1 (ih (fun y hy => hbody y (List.mem_cons_of_mem _ hy)) s1)
    · rw [h] at h1
      exact h1

/-- A loop that succeeds has run the body on every element with success. -/
theorem forEach_ok_split {α σ : Type} (body : α → σ → σ × Option Err) (pre : List α) (x : α)
    (post : List α) (s s' : σ) (h : forEach body (pre ++ x :: post) s = (s', none)) :
    ∃ s1 s2, forEach body pre s = (s1, none) ∧ body x s1 = (s2, none) ∧
      forEach body post s2 = (s', none) := by
  rw [forEach_append] at h
  rcases h1 : forEach body pre s with ⟨s1, _ | err⟩
  · rw [h1] at h
    simp only [forEach] at h
    rcases h2 : body x s1 with ⟨s2, _ | err⟩
    · rw [h2] at h
      exact ⟨s1, s2, rfl, h2, h⟩
    · rw [h2] at h
      simp at h
  · rw [h1] at h
    simp at h

/-- A loop that fails has run the body with success on the elements before one
element, on which the body failed with the error and the state returned. -/
theorem forEach_err_split {α σ : Type} (body : α → σ → σ × Option Err) (xs : List α)
    (s s' : σ) (err : Err) (h : forEach body xs s = (s', some err)) :
    ∃ pre x post s1, xs = pre ++ x :: post ∧ forEach body pre s = (s1, none) ∧
      body x s1 = (s', some err) := by
  induction xs generalizing s with
  | nil => simp [forEach] at h
  | cons x xs ih =>
    simp only [forEach] at h
    rcases h2 : body x s with ⟨s2, _ | e2⟩
    · rw [h2] at h
      obtain ⟨pre, y, post, s1, hxs, hpre, hy⟩ := ih s2 h
      refine ⟨x :: pre, y, post, s1, by simp [hxs], ?_, hy⟩
      simp [forEach, h2, hpre]
    · rw [h2] at h
      simp only [Prod.mk.injEq, Option.some.injEq] at h
      obtain ⟨rfl, rfl⟩ := h
      exact ⟨[], x, xs, s, rfl, rfl, h2⟩

/-! ## The filesystem operations -/

theorem Node.sameKind_refl (n : Node) : n.sameKind n = true := by
  cases n <;> rfl

theorem Node.sameKind_trans {a b c : Node} (h1 : a.sameKind b = true)
    (h2 : b.sameKind c = true) : a.sameKind c = true := by
  cases a <;> cases b <;> cases c <;> simp_all [Node.sameKind]

theorem Node.sameKind_dir {n : Node} (h : Node.dir.sameKind n = true) : n = .dir := by
  cases n <;> simp_all [Node.sameKind]

theorem Node.sameKind_file {n : Node} {b : String} (h : (Node.file b).sameKind n = true) :
    ∃ b1, n = .file b1 := by
  cases n <;> simp_all [Node.sameKind]

theorem Grows.refl (Wr : Nat → List String → String → Prop) (Tg : List String → Prop)
    (fs : FS) : Grows Wr Tg fs fs :=
  ⟨rfl, fun _ n h => ⟨n, h, Node.sameKind_refl n⟩, fun _ _ h => Or.inl h, fun _ h => Or.inl h,
    Nat.le_refl _⟩

theorem Grows.trans {Wr : Nat → List String → String → Prop} {Tg : List String → Prop}
    {a b c : FS} (h1 : Grows Wr Tg a b) (h2 : Grows Wr Tg b c) : Grows Wr Tg a c := by
  obtain ⟨c1, k1, w1, d1, t1⟩ := h1
  obtain ⟨c2, k2, w2, d2, t2⟩ := h2
  refine ⟨c2.trans c1, ?_, ?_, ?_, t1.trans t2⟩
  · intro p n hn
    obtain ⟨n1, hn1, s1⟩ := k1 p n hn
    obtain ⟨n2, hn2, s2⟩ := k2 p n1 hn1
    exact ⟨n2, hn2, Node.sameKind_trans s1 s2⟩
  · intro p b hb
    rcases w2 p b hb with h | ⟨n, hn1, hn2, hw⟩
    · rcases w1 p b h with h3 | ⟨n, hn1, hn2, hw⟩
      · exact Or.inl h3
      · exact Or.inr ⟨n, hn1, lt_of_lt_of_le hn2 t2, hw⟩
    · exact Or.inr ⟨n, t1.trans hn1, hn2, hw⟩
  · intro p hp
    rcases d2 p hp with h | ⟨hnone, hg⟩
    · exact d1 p h
    · right
      refine ⟨?_, hg⟩
      cases ha : a.nodes p with
      | none => rfl
      | some n =>
        obtain ⟨n1, hn1, _⟩ := k1 p n ha
        rw [hnone] at hn1
        cases hn1

theorem Grows.mono {Wr Wr1 : Nat → List String → String → Prop} {Tg Tg1 : List String → Prop}
    {a b : FS} (h : Grows Wr Tg a b) (hw : ∀ n p x, Wr n p x → Wr1 n p x)
    (ht : ∀ g, Tg g → Tg1 g) : Grows Wr1 Tg1 a b := by
  obtain ⟨c1, k1, w1, d1, t1⟩ := h
  refine ⟨c1, k1, ?_, ?_, t1⟩
  · intro p b hb
    rcases w1 p b hb with h | ⟨n, hn1, hn2, hx⟩
    · exact Or.inl h
    · exact Or.inr ⟨n, hn1, hn2, hw n p b hx⟩
  · intro p hp
    rcases d1 p hp with h | ⟨hnone, g, hg, hpg⟩
    · exact Or.inl h
    · exact Or.inr ⟨hnone, g, ht g hg, hpg⟩

/-- A node that exists in the first state exists in the second with its kind. -/
theorem Grows.dir_persists {Wr : Nat → List String → String → Prop} {Tg : List String → Prop}
    {a b : FS} (h : Grows Wr Tg a b) {p : List String} (hp : a.nodes p = some .dir) :
    b.nodes p = some .dir := by
  obtain ⟨n1, hn1, s1⟩ := h.2.1 p _ hp
  rw [hn1, Node.sameKind_dir s1]

theorem Grows.file_persists {Wr : Nat → List String → String → Prop} {Tg : List String → Prop}
    {a b : FS} (h : Grows Wr Tg a b) {p : List String} {x : String}
    (hp : a.nodes p = some (.file x)) :
    ∃ y, b.nodes p = some (.file y) ∧
      (y = x ∨ ∃ n, a.ticks ≤ n ∧ n < b.ticks ∧ Wr n p y) := by
  obtain ⟨n1, hn1, s1⟩ := h.2.1 p _ hp
  obtain ⟨y, rfl⟩ := Node.sameKind_file s1
  refine ⟨y, hn1, ?_⟩
  rcases h.2.2.1 p y hn1 with h2 | h2
  · left
    rw [hp] at h2
    injection h2 with h3
    injection h3 with h4
    exact h4.symm
  · exact Or.inr h2

@[simp] theorem FS.set_ticks (fs : FS) (p : List String) (n : Option Node) :
    (fs.set p n).ticks = fs.ticks := rfl

@[simp] theorem FS.tick_cwd (fs : FS) : fs.tick.cwd = fs.cwd := rfl

@[simp] theorem FS.tick_nodes (fs : FS) (q : List String) : fs.tick.nodes q = fs.nodes q := rfl

@[simp] theorem FS.tick_ticks (fs : FS) : fs.tick.ticks = fs.ticks + 1 := rfl

@[simp] theorem FS.set_cwd (fs : FS) (p : List String) (n : Option Node) :
    (fs.set p n).cwd = fs.cwd := rfl

@[simp] theorem FS.set_nodes (fs : FS) (p q : List String) (n : Option Node) :
    (fs.set p n).nodes q = if q = p then n else fs.nodes q := rfl

@[simp] theorem FS.set_resolve (fs : FS) (p : List String) (n : Option Node) (s : String) :
    (fs.set p n).resolve s = fs.resolve s := rfl

theorem prefix_step {pre p rest : List String} {c : String} (h1 : pre <+: p)
    (h2 : p <+: pre ++ c :: rest) (h3 : p ≠ pre) : pre ++ [c] <+: p := by
  obtain ⟨s, rfl⟩ := h1
  rw [List.prefix_append_right_inj] at h2
  cases s with
  | nil => simp at h3
  | cons a s =>
    rw [List.cons_prefix_cons] at h2
    obtain ⟨rfl, _⟩ := h2
    rw [List.prefix_append_right_inj]
    simp

theorem mkdirFrom_cwd (pre rest : List String) (fs : FS) :
    (FS.mkdirFrom pre rest fs).1.cwd = fs.cwd := by
  induction rest generalizing pre fs with
  | nil => rfl
  | cons c rest ih =>
    simp only [FS.mkdirFrom]
    rcases h : fs.nodes (pre ++ [c]) with _ | n
    · simp [ih]
    · cases n <;> simp [ih]

/-- Every node after `mkdirFrom` is the node before, or a new directory on the
way to the target. -/
theorem mkdirFrom_nodes (pre rest : List String) (fs : FS) (p : List String) :
    (FS.mkdirFrom pre rest fs).1.nodes p = fs.nodes p ∨
      (fs.nodes p = none ∧ (FS.mkdirFrom pre rest fs).1.nodes p = some .dir ∧
        p <+: pre ++ rest) := by
  induction rest generalizing pre fs with
  | nil => exact Or.inl rfl
  | cons c rest ih =>
    simp only [FS.mkdirFrom]
    rcases h : fs.nodes (pre ++ [c]) with _ | n
    · simp only
      have hpre : (pre ++ [c]) ++ rest = pre ++ c :: rest := by simp
      rcases ih (pre ++ [c]) (fs.set (pre ++ [c]) (some .dir)) with h1 | ⟨h1, h2, h3⟩
      · by_cases hp : p = pre ++ [c]
        · right
          subst hp
          simp only [FS.set_nodes, if_true] at h1
          refine ⟨h, h1, ?_⟩
          rw [← hpre]
          exact List.prefix_append _ _
        · left
          simpa [hp] using h1
      · by_cases hp : p = pre ++ [c]
        · subst hp
          simp at h1
        · right
          simp only [FS.set_nodes, hp, if_false] at h1
          exact ⟨h1, h2, hpre ▸ h3⟩
    · cases n with
      | dir =>
        simp only
        have hpre : (pre ++ [c]) ++ rest = pre ++ c :: rest := by simp
        rcases ih (pre ++ [c]) fs with h1 | ⟨h1, h2, h3⟩
        · exact Or.inl h1
        · exact Or.inr ⟨h1, h2, hpre ▸ h3⟩
      | file b => exact Or.inl rfl

/-- After a successful `mkdirFrom` every path from the start to the target is a
directory. -/
theorem mkdirFrom_ok (pre rest : List String) (fs : FS)
    (h : (FS.mkdirFrom pre rest fs).2 = none) (p : List String) (h1 : pre <+: p)
    (h2 : p <+: pre ++ rest) (h3 : p ≠ pre) :
    (FS.mkdirFrom pre rest fs).1.nodes p = some .dir := by
  induction rest generalizing pre fs with
  | nil =>
    simp only [List.append_nil] at h2
    exact absurd (h2.eq_of_length (le_antisymm h2.length_le h1.length_le)) h3
  | cons c rest ih =>
    have hstep := prefix_step h1 h2 h3
    have hpre : (pre ++ [c]) ++ rest = pre ++ c :: rest := by simp
    simp only [FS.mkdirFrom] at h ⊢
    rcases hn : fs.nodes (pre ++ [c]) with _ | n
    · rw [hn] at h
      simp only at h ⊢
      by_cases hp : p = pre ++ [c]
      · subst hp
        rcases mkdirFrom_nodes (pre ++ [c]) rest (fs.set (pre ++ [c]) (some .dir)) (pre ++ [c])
          with h4 | ⟨h4, _, _⟩
        · simpa using h4
        · simp at h4
      · exact ih (pre ++ [c]) _ h hstep (hpre ▸ h2) hp
    · cases n with
      | dir =>
        rw [hn] at h
        simp only at h ⊢
        by_cases hp : p = pre ++ [c]
        · subst hp
          rcases mkdirFrom_nodes (pre ++ [c]) rest fs (pre ++ [c]) with h4 | ⟨h4, _, _⟩
          · rw [h4, hn]
          · rw [hn] at h4
            cases h4
        · exact ih (pre ++ [c]) _ h hstep (hpre ▸ h2) hp
      | file b =>
        rw [hn] at h
        simp at h

theorem mkdirFrom_ticks (pre rest : List String) (fs : FS) :
    (FS.mkdirFrom pre rest fs).1.ticks = fs.ticks := by
  induction rest generalizing pre fs with
  | nil => rfl
  | cons c rest ih =>
    simp only [FS.mkdirFrom]
    rcases h : fs.nodes (pre ++ [c]) with _ | n
    · simp [ih]
    · cases n <;> simp [ih]

theorem FS.resolve_congr {fs fs1 : FS} (h : fs1.cwd = fs.cwd) (s : String) :
    fs1.resolve s = fs.resolve s := by
  simp [FS.resolve, h]

/-- A state whose nodes are the old ones or new directories on the way to a
target extends the old state. -/
theorem grows_of_nodes {Wr : Nat → List String → String → Prop} {Tg : List String → Prop}
    {fs fs1 : FS} (hc : fs1.cwd = fs.cwd) (ht : fs1.ticks = fs.ticks)
    (h : ∀ p, fs1.nodes p = fs.nodes p ∨
      (fs.nodes p = none ∧ fs1.nodes p = some .dir ∧ ∃ g, Tg g ∧ p <+: g)) :
    Grows Wr Tg fs fs1 := by
  refine ⟨hc, ?_, ?_, ?_, ht.ge⟩
  · intro p n hn
    rcases h p with h1 | ⟨h1, _, _⟩
    · exact ⟨n, by rw [h1, hn], Node.sameKind_refl n⟩
    · rw [hn] at h1
      cases h1
  · intro p b hb
    rcases h p with h1 | ⟨_, h1, _⟩
    · exact Or.inl (by rw [← h1, hb])
    · rw [hb] at h1
      cases h1
  · intro p hp
    rcases h p with h1 | ⟨h1, _, h2⟩
    · exact Or.inl (by rw [← h1, hp])
    · exact Or.inr ⟨h1, h2⟩

theorem osMkdirAll_cwd (path : String) (fs : FS) : (osMkdirAll path fs).1.cwd = fs.cwd := by
  unfold osMkdirAll
  split
  · rfl
  · split
    · split
      · rename_i h
        have := mkdirFrom_cwd [] (fs.resolve path) fs
        rw [h] at this
        exact this
      · rename_i h
        have := mkdirFrom_cwd [] (fs.resolve path) fs
        rw [h] at this
        exact this
    · rfl
    · rfl

theorem osMkdirAll_ticks (path : String) (fs : FS) :
    (osMkdirAll path fs).1.ticks = fs.ticks := by
  unfold osMkdirAll
  split
  · rfl
  · split
    · split
      · rename_i h
        have := mkdirFrom_ticks [] (fs.resolve path) fs
        rw [h] at this
        exact this
      · rename_i h
        have := mkdirFrom_ticks [] (fs.resolve path) fs
        rw [h] at this
        exact this
    · rfl
    · rfl

theorem osMkdirAll_nodes (path : String) (fs : FS) (p : List String) :
    (osMkdirAll path fs).1.nodes p = fs.nodes p ∨
      (fs.nodes p = none ∧ (osMkdirAll path fs).1.nodes p = some .dir ∧
        p <+: fs.resolve path) := by
  unfold osMkdirAll
  split
  · exact Or.inl rfl
  · split
    · have h1 := mkdirFrom_nodes [] (fs.resolve path) fs p
      simp only [List.nil_append] at h1
      split
      · rename_i h
        rw [h] at h1
        exact h1
      · rename_i h
        rw [h] at h1
        exact h1
    · exact Or.inl rfl
    · exact Or.inl rfl

/-- The state after `os.MkdirAll`, whatever its outcome, extends the state
before. -/
theorem osMkdirAll_grows {Wr : Nat → List String → String → Prop} {Tg : List String → Prop}
    (path : String) (fs : FS) (hT : Tg (fs.resolve path)) :
    Grows Wr Tg fs (osMkdirAll path fs).1 := by
  refine grows_of_nodes (osMkdirAll_cwd path fs) (osMkdirAll_ticks path fs) (fun p => ?_)
  rcases osMkdirAll_nodes path fs p with h | ⟨h1, h2, h3⟩
  · exact Or.inl h
  · exact Or.inr ⟨h1, h2, _, hT, h3⟩

/-- After a successful `os.MkdirAll` the directory and all its ancestors are
directories. -/
theorem osMkdirAll_ok {path : String} {fs fs1 : FS} (h : osMkdirAll path fs = (fs1, none))
    (p : List String) (hp : p <+: fs.resolve path) : fs1.nodes p = some .dir := by
  unfold osMkdirAll at h
  split at h
  · simp at h
  · split at h
    · rename_i hroot
      split at h
      · rename_i fs2 hm
        simp only [Prod.mk.injEq, and_true] at h
        subst h
        by_cases hp0 : p = []
        · subst hp0
          rcases mkdirFrom_nodes [] (fs.resolve path) fs [] with h4 | ⟨h4, _, _⟩
          · rw [hm] at h4
            rw [h4, hroot]
          · rw [hroot] at h4
            cases h4
        · have := mkdirFrom_ok [] (fs.resolve path) fs (by rw [hm]) p List.nil_prefix
            (by simpa using hp) hp0
          rw [hm] at this
          exact this
      · simp at h
    · simp at h
    · simp at h

/-- A lookup that succeeds has found the node, below directories only. -/
theorem walkFrom_ok (fs : FS) (pre rest : List String) (n : Node)
    (h : fs.walkFrom pre rest = .ok n) :
    fs.nodes (pre ++ rest) = some n ∧
      ∀ p, pre <+: p → p <+: pre ++ rest → p ≠ pre ++ rest → fs.nodes p = some .dir := by
  induction rest generalizing pre with
  | nil =>
    simp only [FS.walkFrom] at h
    rcases hn : fs.nodes pre with _ | n1
    · rw [hn] at h
      cases h
    · rw [hn] at h
      injection h with h
      subst h
      refine ⟨by simpa using hn, ?_⟩
      intro p h1 h2 h3
      simp only [List.append_nil] at h2 h3
      exact absurd (h2.eq_of_length (le_antisymm h2.length_le h1.length_le)) h3
  | cons c rest ih =>
    simp only [FS.walkFrom] at h
    rcases hn : fs.nodes pre with _ | n1
    · rw [hn] at h
      cases h
    · cases n1 with
      | file b =>
        rw [hn] at h
        cases h
      | dir =>
        rw [hn] at h
        simp only at h
        have hpre : (pre ++ [c]) ++ rest = pre ++ c :: rest := by simp
        obtain ⟨h1, h2⟩ := ih (pre ++ [c]) h
        refine ⟨hpre ▸ h1, ?_⟩
        intro p hp1 hp2 hp3
        by_cases hp : p = pre
        · rw [hp, hn]
        · exact h2 p (prefix_step hp1 hp2 hp) (hpre ▸ hp2) (hpre ▸ hp3)

theorem lookup_ok_dir {fs : FS} {q : List String} (h : fs.lookup q = .ok .dir)
    (p : List String) (hp : p <+: q) : fs.nodes p = some .dir := by
  obtain ⟨h1, h2⟩ := walkFrom_ok fs [] q .dir h
  by_cases hpq : p = q
  · subst hpq
    simpa using h1
  · exact h2 p List.nil_prefix (by simpa using hp) (by simpa using hpq)

/-- What a successful `os.Create` has done. -/
theorem osCreate_ok {path : String} {fs fs1 : FS} {hd : List String}
    (h : osCreate path fs = (fs1, .ok hd)) :
    hd = fs.resolve path ∧ fs1 = fs.set hd (some (.file "")) ∧ fs.nodes hd ≠ some .dir ∧
      ∀ p, p <+: hd.dropLast → fs.nodes p = some .dir := by
  unfold osCreate at h
  split at h
  · simp at h
  · split at h
    · simp at h
    · split at h
      · simp at h
      · simp at h
      · rename_i hl
        split at h
        · simp at h
        · rename_i hnd
          simp only [Prod.mk.injEq, Except.ok.injEq] at h
          obtain ⟨rfl, rfl⟩ := h
          refine ⟨rfl, rfl, ?_, fun p hp => lookup_ok_dir hl p hp⟩
          intro hx
          exact hnd hx

theorem osCreate_err {path : String} {fs fs1 : FS} {e : Err}
    (h : osCreate path fs = (fs1, .error e)) : fs1 = fs := by
  unfold osCreate at h
  split at h
  · simp only [Prod.mk.injEq] at h
    exact h.1.symm
  · split at h
    · simp only [Prod.mk.injEq] at h
      exact h.1.symm
    · split at h
      · simp only [Prod.mk.injEq] at h
        exact h.1.symm
      · simp only [Prod.mk.injEq] at h
        exact h.1.symm
      · split at h
        · simp only [Prod.mk.injEq] at h
          exact h.1.symm
        · simp at h

theorem write_after_create (fs : FS) (hd : List String) (b : String) :
    ((fs.set hd (some (.file ""))).write hd b).tick.cwd = fs.cwd ∧
      ((fs.set hd (some (.file ""))).write hd b).tick.ticks = fs.ticks + 1 ∧
      ∀ q, ((fs.set hd (some (.file ""))).write hd b).tick.nodes q =
        if q = hd then some (.file b) else fs.nodes q := by
  have hb : ("" : String) ++ b = b := by
    apply String.ext
    simp
  simp only [FS.write, FS.set_nodes, if_true, FS.set_cwd, FS.tick_cwd, FS.tick_nodes,
    FS.tick_ticks, FS.set_ticks, true_and, hb]
  intro q
  by_cases hq : q = hd <;> simp [hq]

theorem ensureDir_cwd (tdir : String) (fs : FS) : (ensureDir tdir fs).1.cwd = fs.cwd := by
  unfold ensureDir
  split
  · split
    · exact osMkdirAll_cwd tdir fs
    · rfl
  · rfl

theorem ensureDir_ticks (tdir : String) (fs : FS) :
    (ensureDir tdir fs).1.ticks = fs.ticks := by
  unfold ensureDir
  split
  · split
    · exact osMkdirAll_ticks tdir fs
    · rfl
  · rfl

theorem ensureDir_grows {Wr : Nat → List String → String → Prop} {Tg : List String → Prop}
    (tdir : String) (fs : FS) (hT : Tg (fs.resolve tdir)) :
    Grows Wr Tg fs (ensureDir tdir fs).1 := by
  unfold ensureDir
  split
  · split
    · exact osMkdirAll_grows tdir fs hT
    · exact Grows.refl Wr Tg fs
  · exact Grows.refl Wr Tg fs

/-- Writing a file over a path that is not a directory, at the moment of the
state, extends the state. -/
theorem grows_write {Wr : Nat → List String → String → Prop} {Tg : List String → Prop}
    {fs fs1 : FS} {hd : List String} {b : String} (hc : fs1.cwd = fs.cwd)
    (ht : fs1.ticks = fs.ticks + 1)
    (hn : ∀ q, fs1.nodes q = if q = hd then some (.file b) else fs.nodes q)
    (hnd : fs.nodes hd ≠ some .dir) (hW : Wr fs.ticks hd b) : Grows Wr Tg fs fs1 := by
  refine ⟨hc, ?_, ?_, ?_, by omega⟩
  · intro p n hp
    by_cases hq : p = hd
    · subst hq
      refine ⟨.file b, by simp [hn], ?_⟩
      cases n with
      | dir => exact absurd hp hnd
      | file x => rfl
    · exact ⟨n, by simp [hn, hq, hp], Node.sameKind_refl n⟩
  · intro p x hp
    by_cases hq : p = hd
    · subst hq
      simp only [hn, if_true, Option.some.injEq, Node.file.injEq] at hp
      subst hp
      exact Or.inr ⟨fs.ticks, Nat.le_refl _, by omega, hW⟩
    · simp only [hn, hq, if_false] at hp
      exact Or.inl hp
  · intro p hp
    by_cases hq : p = hd
    · subst hq
      simp [hn] at hp
    · simp only [hn, hq, if_false] at hp
      exact Or.inl hp

/-- The state after one pass of the inner loop, whatever its outcome, extends
the state before. -/
theorem renderTemplate_grows {T Tree V : Type} (K : Collab T Tree V)
    {Wr : Nat → List String → String → Prop} {Tg : List String → Prop}
    (cod : String) (v : V) (t : templateFile T) (fs : FS)
    (hT : Tg (fs.resolve (Join [cod, t.relpath])))
    (hW : Wr fs.ticks (fs.resolve (Join [Join [cod, t.relpath], t.name]))
      (K.execute t.template v fs.ticks).1) :
    Grows Wr Tg fs (renderTemplate K cod v t fs).1 := by
  have h1 : Grows Wr Tg fs (ensureDir (Join [cod, t.relpath]) fs).1 := ensureDir_grows _ fs hT
  have ht1 := ensureDir_ticks (Join [cod, t.relpath]) fs
  unfold renderTemplate
  rcases he : ensureDir (Join [cod, t.relpath]) fs with ⟨fs1, _ | err⟩
  · rw [he] at h1 ht1
    simp only at ht1 ⊢
    rcases hcr : osCreate (Join [Join [cod, t.relpath], t.name]) fs1 with ⟨fs2, err | hd⟩
    · simp only
      rw [osCreate_err hcr]
      exact h1
    · simp only
      obtain ⟨rfl, rfl, hnd, _⟩ := osCreate_ok hcr
      obtain ⟨hc, htk, hn⟩ := write_after_create fs1
        (fs1.resolve (Join [Join [cod, t.relpath], t.name])) (K.execute t.template v fs1.ticks).1
      simp only [FS.set_ticks]
      refine h1.trans (grows_write hc htk hn hnd ?_)
      rw [FS.resolve_congr h1.1, ht1]
      exact hW
  · rw [he] at h1
    exact h1

/-- After a successful pass of the inner loop the destination holds the bytes
rendered at the moment of the pass, which is over, and every path down to its
directory is a directory. -/
theorem renderTemplate_ok {T Tree V : Type} (K : Collab T Tree V)
    {cod : String} {v : V} {t : templateFile T} {fs fs' : FS}
    (h : renderTemplate K cod v t fs = (fs', none)) :
    fs'.nodes (fs.resolve (Join [Join [cod, t.relpath], t.name])) =
        some (.file (K.execute t.template v fs.ticks).1) ∧
      fs'.ticks = fs.ticks + 1 ∧
      ∀ p, p <+: (fs.resolve (Join [Join [cod, t.relpath], t.name])).dropLast →
        fs'.nodes p = some .dir := by
  have hc1 := ensureDir_cwd (Join [cod, t.relpath]) fs
  have ht1 := ensureDir_ticks (Join [cod, t.relpath]) fs
  unfold renderTemplate at h
  rcases he : ensureDir (Join [cod, t.relpath]) fs with ⟨fs1, _ | err⟩
  · rw [he] at h hc1 ht1
    simp only at h hc1 ht1
    rcases hcr : osCreate (Join [Join [cod, t.relpath], t.name]) fs1 with ⟨fs2, err | hd⟩
    · rw [hcr] at h
      simp at h
    · rw [hcr] at h
      simp only [Prod.mk.injEq] at h
      obtain ⟨rfl, rfl, hnd, hdirs⟩ := osCreate_ok hcr
      obtain ⟨_, htk, hn⟩ := write_after_create fs1
        (fs1.resolve (Join [Join [cod, t.relpath], t.name])) (K.execute t.template v fs1.ticks).1
      simp only [FS.set_ticks] at h
      rw [← h.1, ← FS.resolve_congr hc1, ← ht1]
      refine ⟨by rw [hn]; simp, htk, ?_⟩
      intro p hp
      have hne : p ≠ fs1.resolve (Join [Join [cod, t.relpath], t.name]) := by
        intro hpe
        rw [hpe] at hp
        have h1 := hp.length_le
        have h2 := hdirs _ (List.prefix_refl _)
        by_cases hnil : fs1.resolve (Join [Join [cod, t.relpath], t.name]) = []
        · rw [hnil] at h2 hnd
          exact hnd (by simpa using h2)
        · have := List.length_dropLast (fs1.resolve (Join [Join [cod, t.relpath], t.name]))
          have hpos := List.length_pos.mpr hnil
          omega
      rw [hn p, if_neg hne]
      exact hdirs p hp
  · rw [he] at h
    simp at h

/-! ## The loops of `Execute` -/

/-- The inner loop, whatever its outcome, extends the state by writes and
directories of the engine. -/
theorem templates_grows {T Tree V : Type} (K : Collab T Tree V) (m : MiphaEngine T V)
    (fs0 : FS) (cs : List (String × V)) (c : String × V) (hc : c ∈ cs)
    (ts : List (templateFile T)) (hts : ∀ t ∈ ts, t ∈ m.tc.templates)
    (s : FS) (hs : s.cwd = fs0.cwd) :
    Grows (m.writes K fs0 cs) (m.targets fs0 cs) s
      (forEach (renderTemplate K (Join [m.outputPath, c.1]) c.2) ts s).1 := by
  refine forEach_rel (renderTemplate K (Join [m.outputPath, c.1]) c.2)
    (fun a b => a.cwd = fs0.cwd → Grows (m.writes K fs0 cs) (m.targets fs0 cs) a b)
    (fun a _ => Grows.refl _ _ a)
    (fun a b d h1 h2 ha => (h1 ha).trans (h2 ((h1 ha).1.trans ha))) ts ?_ s hs
  intro t ht a ha
  apply renderTemplate_grows
  · rw [FS.resolve_congr ha]
    exact ⟨c, hc, Or.inr ⟨t, hts t ht, rfl⟩⟩
  · rw [FS.resolve_congr ha]
    exact ⟨c, hc, t, hts t ht, rfl, rfl⟩

/-- One pass of the outer loop, whatever its outcome, extends the state. -/
theorem renderContext_grows {T Tree V : Type} (K : Collab T Tree V) (m : MiphaEngine T V)
    (fs0 : FS) (cs : List (String × V)) (c : String × V) (hc : c ∈ cs)
    (s : FS) (hs : s.cwd = fs0.cwd) :
    Grows (m.writes K fs0 cs) (m.targets fs0 cs) s (renderContext K m c s).1 := by
  have h1 : Grows (m.writes K fs0 cs) (m.targets fs0 cs) s
      (osMkdirAll (Join [m.outputPath, c.1]) s).1 := by
    apply osMkdirAll_grows
    rw [FS.resolve_congr hs]
    exact ⟨c, hc, Or.inl rfl⟩
  unfold renderContext
  rcases hm : osMkdirAll (Join [m.outputPath, c.1]) s with ⟨s1, _ | err⟩
  · rw [hm] at h1
    simp only
    exact h1.trans (templates_grows K m fs0 cs c hc m.tc.templates (fun _ h => h) s1
      (h1.1.trans hs))
  · rw [hm] at h1
    exact h1

/-- The outer loop, whatever its outcome, extends the state. -/
theorem contexts_grows {T Tree V : Type} (K : Collab T Tree V) (m : MiphaEngine T V)
    (fs0 : FS) (cs xs : List (String × V)) (hxs : ∀ c ∈ xs, c ∈ cs)
    (s : FS) (hs : s.cwd = fs0.cwd) :
    Grows (m.writes K fs0 cs) (m.targets fs0 cs) s (forEach (renderContext K m) xs s).1 := by
  refine forEach_rel (renderContext K m)
    (fun a b => a.cwd = fs0.cwd → Grows (m.writes K fs0 cs) (m.targets fs0 cs) a b)
    (fun a _ => Grows.refl _ _ a)
    (fun a b d h1 h2 ha => (h1 ha).trans (h2 ((h1 ha).1.trans ha))) xs ?_ s hs
  intro c hc a ha
  exact renderContext_grows K m fs0 cs c (hxs c hc) a ha

/-- After a successful pass of the outer loop, the directory of the context
and its ancestors are directories, and every template has been written: its
destination is a file below directories, holding bytes written to that path
during the pass. -/
theorem renderContext_ok {T Tree V : Type} (K : Collab T Tree V) (m : MiphaEngine T V)
    (fs0 : FS) (cs : List (String × V)) (c : String × V) (hc : c ∈ cs)
    (s s' : FS) (hs : s.cwd = fs0.cwd) (h : renderContext K m c s = (s', none)) :
    (∀ p, p <+: m.ctxDir fs0 c.1 → s'.nodes p = some .dir) ∧
    ∀ t ∈ m.tc.templates,
      (∃ y, s'.nodes (m.dest fs0 c.1 t) = some (.file y) ∧
        ∃ n, s.ticks ≤ n ∧ n < s'.ticks ∧ m.writes K fs0 cs n (m.dest fs0 c.1 t) y) ∧
      ∀ p, p <+: (m.dest fs0 c.1 t).dropLast → s'.nodes p = some .dir := by
  unfold renderContext at h
  rcases hm : osMkdirAll (Join [m.outputPath, c.1]) s with ⟨s1, _ | err⟩
  · rw [hm] at h
    simp only at h
    have hs1 : s1.cwd = fs0.cwd := by
      have := osMkdirAll_cwd (Join [m.outputPath, c.1]) s
      rw [hm] at this
      exact this.trans hs
    have ht1 : s1.ticks = s.ticks := by
      have := osMkdirAll_ticks (Join [m.outputPath, c.1]) s
      rw [hm] at this
      exact this
    have hloop := templates_grows K m fs0 cs c hc m.tc.templates (fun _ h => h) s1 hs1
    rw [h] at hloop
    constructor
    · intro p hp
      apply hloop.dir_persists
      apply osMkdirAll_ok hm
      rw [FS.resolve_congr hs]
      exact hp
    · intro t ht
      obtain ⟨pre, post, hsplit⟩ := List.append_of_mem ht
      rw [hsplit] at h
      obtain ⟨sa, sb, hpre, hbody, hpost⟩ := forEach_ok_split _ pre t post s1 s' h
      have hga := templates_grows K m fs0 cs c hc pre
        (fun x hx => hsplit ▸ List.mem_append_left _ hx) s1 hs1
      rw [hpre] at hga
      have hsa : sa.cwd = fs0.cwd := hga.1.trans hs1
      have hsb : sb.cwd = fs0.cwd := by
        have : Grows (fun _ _ _ => True) (fun _ => True) sa
            (renderTemplate K (Join [m.outputPath, c.1]) c.2 t sa).1 :=
          renderTemplate_grows K (Join [m.outputPath, c.1]) c.2 t sa trivial trivial
        rw [hbody] at this
        exact this.1.trans hsa
      have hrest := templates_grows K m fs0 cs c hc post
        (fun x hx => hsplit ▸ List.mem_append_right _ (List.mem_cons_of_mem _ hx)) sb hsb
      rw [hpost] at hrest
      obtain ⟨hfile, htk, hdirs⟩ := renderTemplate_ok K hbody
      rw [FS.resolve_congr hsa] at hfile hdirs
      have hta : s.ticks ≤ sa.ticks := ht1 ▸ hga.2.2.2.2
      have htb : sb.ticks ≤ s'.ticks := hrest.2.2.2.2
      constructor
      · obtain ⟨y, hy, hy2⟩ := hrest.file_persists hfile
        refine ⟨y, hy, ?_⟩
        rcases hy2 with rfl | ⟨n, hn1, hn2, hw⟩
        · exact ⟨sa.ticks, hta, by omega, c, hc, t, ht, rfl, rfl⟩
        · exact ⟨n, by omega, hn2, hw⟩
      · intro p hp
        exact hrest.dir_persists (hdirs p hp)
  · rw [hm] at h
    simp at h

/-- After a successful outer loop every context has been rendered. -/
theorem contexts_ok {T Tree V : Type} (K : Collab T Tree V) (m : MiphaEngine T V)
    (fs0 : FS) (cs : List (String × V)) (s s' : FS) (hs : s.cwd = fs0.cwd)
    (h : forEach (renderContext K m) cs s = (s', none)) (c : String × V) (hc : c ∈ cs) :
    (∀ p, p <+: m.ctxDir fs0 c.1 → s'.nodes p = some .dir) ∧
    ∀ t ∈ m.tc.templates,
      (∃ y, s'.nodes (m.dest fs0 c.1 t) = some (.file y) ∧
        ∃ n, s.ticks ≤ n ∧ n < s'.ticks ∧ m.writes K fs0 cs n (m.dest fs0 c.1 t) y) ∧
      ∀ p, p <+: (m.dest fs0 c.1 t).dropLast → s'.nodes p = some .dir := by
  obtain ⟨pre, post, hsplit⟩ := List.append_of_mem hc
  have h' := h
  rw [hsplit] at h'
  obtain ⟨sa, sb, hpre, hbody, hpost⟩ := forEach_ok_split _ pre c post s s' h'
  have hga := contexts_grows K m fs0 cs pre
    (fun x hx => hsplit ▸ List.mem_append_left _ hx) s hs
  rw [hpre] at hga
  have hsa : sa.cwd = fs0.cwd := hga.1.trans hs
  have hsb : sb.cwd = fs0.cwd := by
    have := renderContext_grows K m fs0 cs c hc sa hsa
    rw [hbody] at this
    exact this.1.trans hsa
  have hrest := contexts_grows K m fs0 cs post
    (fun x hx => hsplit ▸ List.mem_append_right _ (List.mem_cons_of_mem _ hx)) sb hsb
  rw [hpost] at hrest
  have hta : s.ticks ≤ sa.ticks := hga.2.2.2.2
  have htb : sb.ticks ≤ s'.ticks := hrest.2.2.2.2
  obtain ⟨hctx, htpl⟩ := renderContext_ok K m fs0 cs c hc sa sb hsa hbody
  refine ⟨fun p hp => hrest.dir_persists (hctx p hp), ?_⟩
  intro t ht
  obtain ⟨⟨y, hy, n, hn1, hn2, hw⟩, hdirs⟩ := htpl t ht
  refine ⟨?_, fun p hp => hrest.dir_persists (hdirs p hp)⟩
  obtain ⟨z, hz, hz2⟩ := hrest.file_persists hy
  refine ⟨z, hz, ?_⟩
  rcases hz2 with rfl | ⟨n', hn1', hn2', hw'⟩
  · exact ⟨n, by omega, by omega, hw⟩
  · exact ⟨n', by omega, hn2', hw'⟩

/-! ## `Execute` -/

theorem kwalk_ok (fs : FS) (held : Bool) (cur es r : List String)
    (h : fs.kwalk held cur es = .ok r) : r = cleanFrom true cur es := by
  induction es generalizing held cur with
  | nil =>
    simp only [FS.kwalk, Except.ok.injEq] at h
    simp [cleanFrom, h]
  | cons e es ih =>
    simp only [FS.kwalk] at h
    have hc : cleanFrom true cur (e :: es) = cleanFrom true (cleanStep true cur e) es := by
      simp [cleanFrom]
    rw [hc]
    split at h
    · exact ih _ _ h
    · split at h
      · exact ih _ _ h
      · cases h
      · cases h

theorem osRemoveAll_cwd (path : String) (fs : FS) : (osRemoveAll path fs).1.cwd = fs.cwd := by
  unfold osRemoveAll
  split
  · rfl
  · split
    · rfl
    · split
      · rfl
      · rfl
      · split
        · rfl
        · split
          · rfl
          · split <;> rfl

theorem osRemoveAll_ticks (path : String) (fs : FS) :
    (osRemoveAll path fs).1.ticks = fs.ticks := by
  unfold osRemoveAll
  split
  · rfl
  · split
    · rfl
    · split
      · rfl
      · rfl
      · split
        · rfl
        · split
          · rfl
          · split <;> rfl

/-- Whatever its outcome, `os.RemoveAll` leaves a node as it was or removes it,
and what it removes is at or below the place its argument denotes. -/
theorem osRemoveAll_nodes (path : String) (fs : FS) (q : List String) :
    (osRemoveAll path fs).1.nodes q = fs.nodes q ∨
      (fs.resolve path <+: q ∧ (osRemoveAll path fs).1.nodes q = none) := by
  unfold osRemoveAll
  split
  · exact Or.inl rfl
  · split
    · exact Or.inl rfl
    · split
      · exact Or.inl rfl
      · exact Or.inl rfl
      · rename_i r hk
        have hr : r = fs.resolve path := kwalk_ok fs _ _ _ r hk
        subst hr
        have hbelow : (fs.clearBelow (fs.resolve path)).nodes q = fs.nodes q ∨
            (fs.resolve path <+: q ∧ (fs.clearBelow (fs.resolve path)).nodes q = none) := by
          simp only [FS.clearBelow]
          by_cases hq : fs.resolve path <+: q ∧ q ≠ fs.resolve path
          · exact Or.inr ⟨hq.1, by simp [hq]⟩
          · exact Or.inl (by rw [if_neg hq])
        split
        · exact hbelow
        · split
          · exact hbelow
          · split
            · exact hbelow
            · simp only [FS.clear]
              by_cases hq : fs.resolve path <+: q
              · exact Or.inr ⟨hq, by simp [hq]⟩
              · exact Or.inl (by rw [if_neg hq])

/-- Whatever its outcome, `os.RemoveAll` leaves every path that is not at or
below its argument as it was. -/
theorem osRemoveAll_outside (path : String) (fs : FS) (q : List String)
    (hq : ¬ fs.resolve path <+: q) : (osRemoveAll path fs).1.nodes q = fs.nodes q := by
  rcases osRemoveAll_nodes path fs q with h | ⟨h, _⟩
  · exact h
  · exact absurd h hq

/-- Whatever the outcome of `Execute`, a path that is not at or below the
output root is as it was, or is a destination that is now a file, or was
missing and is now a directory on the way to a directory of the engine. -/
theorem Execute_outside {T Tree V : Type} (K : Collab T Tree V) (m : MiphaEngine T V)
    (fs : FS) (q : List String) (hq : ¬ m.root fs <+: q) :
    (m.Execute K fs).1.nodes q = fs.nodes q ∨
    (∃ b, (m.Execute K fs).1.nodes q = some (.file b) ∧ ∃ n, m.writes K fs m.contexts n q b) ∨
    (fs.nodes q = none ∧ (m.Execute K fs).1.nodes q = some .dir ∧
      ∃ g, m.targets fs m.contexts g ∧ q <+: g) := by
  have h0 := osRemoveAll_outside m.outputPath fs q hq
  have hc0 := osRemoveAll_cwd m.outputPath fs
  unfold MiphaEngine.Execute
  rcases hr : osRemoveAll m.outputPath fs with ⟨fs0, _ | err⟩
  · rw [hr] at h0 hc0
    simp only at h0 hc0 ⊢
    have hg := contexts_grows K m fs m.contexts m.contexts (fun _ h => h) fs0 hc0
    unfold MiphaEngine.contexts at hg
    obtain ⟨_, hk, hw, hd, _⟩ := hg
    rcases hn : (forEach (renderContext K m) (m.rc.Contexts.getD []) fs0).1.nodes q with _ | n
    · left
      rcases hfs : fs.nodes q with _ | n0
      · rfl
      · rw [← h0] at hfs
        obtain ⟨n1, hn1, _⟩ := hk q n0 hfs
        rw [hn] at hn1
        cases hn1
    · cases n with
      | dir =>
        rcases hd q hn with h1 | ⟨h1, h2⟩
        · left
          rw [← h0, h1]
        · right
          right
          exact ⟨h0 ▸ h1, rfl, h2⟩
      | file b =>
        rcases hw q b hn with h1 | ⟨k, _, _, h1⟩
        · left
          rw [← h0, h1]
        · right
          left
          exact ⟨b, rfl, k, h1⟩
  · rw [hr] at h0
    exact Or.inl h0

/-- After a successful `Execute` whose removal has cleared the output root, a
file at or below the output root is a destination holding bytes written to it
during the run, and a directory there lies on the way to a directory of the
engine. -/
theorem Execute_inside {T Tree V : Type} (K : Collab T Tree V) (m : MiphaEngine T V)
    (fs fs' : FS) (hclr : Cleared m fs) (h : m.Execute K fs = (fs', none))
    (q : List String) (hq : m.root fs <+: q) :
    (∀ b, fs'.nodes q = some (.file b) →
      ∃ n, fs.ticks ≤ n ∧ n < fs'.ticks ∧ m.writes K fs m.contexts n q b) ∧
    (fs'.nodes q = some .dir → ∃ g, m.targets fs m.contexts g ∧ q <+: g) := by
  have hc0 := osRemoveAll_cwd m.outputPath fs
  have ht0 := osRemoveAll_ticks m.outputPath fs
  have h0 := hclr q hq
  unfold MiphaEngine.Execute at h
  rcases hr : osRemoveAll m.outputPath fs with ⟨fs0, _ | err⟩
  · rw [hr] at h hc0 h0 ht0
    simp only at h hc0 h0 ht0
    have hg := contexts_grows K m fs m.contexts m.contexts (fun _ h => h) fs0 hc0
    unfold MiphaEngine.contexts at hg
    rw [h] at hg
    obtain ⟨_, _, hw, hd, _⟩ := hg
    constructor
    · intro b hb
      rcases hw q b hb with h1 | ⟨n, hn1, hn2, h1⟩
      · rw [h0] at h1
        cases h1
      · exact ⟨n, ht0 ▸ hn1, hn2, h1⟩
    · intro hdir
      rcases hd q hdir with h1 | ⟨_, h2⟩
      · rw [h0] at h1
        cases h1
      · exact h2
  · rw [hr] at h
    simp at h

/-- After a successful `Execute`, the directory of every context and its
ancestors are directories, and the destination of every pair of a context and
a template is a file below directories, holding bytes written to that path
during the run. -/
theorem Execute_written {T Tree V : Type} (K : Collab T Tree V) (m : MiphaEngine T V)
    (fs fs' : FS) (h : m.Execute K fs = (fs', none)) (c : String × V) (hc : c ∈ m.contexts) :
    (∀ p, p <+: m.ctxDir fs c.1 → fs'.nodes p = some .dir) ∧
    ∀ t ∈ m.tc.templates,
      (∃ y, fs'.nodes (m.dest fs c.1 t) = some (.file y) ∧
        ∃ n, fs.ticks ≤ n ∧ n < fs'.ticks ∧ m.writes K fs m.contexts n (m.dest fs c.1 t) y) ∧
      ∀ p, p <+: (m.dest fs c.1 t).dropLast → fs'.nodes p = some .dir := by
  have hc0 := osRemoveAll_cwd m.outputPath fs
  have ht0 := osRemoveAll_ticks m.outputPath fs
  unfold MiphaEngine.Execute at h
  rcases hr : osRemoveAll m.outputPath fs with ⟨fs0, _ | err⟩
  · rw [hr] at h hc0 ht0
    simp only at h hc0 ht0
    have := contexts_ok K m fs m.contexts fs0 fs' hc0 h c hc
    rw [ht0] at this
    exact this
  · rw [hr] at h
    simp at h

/-! ## Path strings -/

theorem splitSlash_ne_nil (l : List Char) : splitSlash l ≠ [] := by
  cases l with
  | nil => simp [splitSlash]
  | cons c cs =>
    simp only [splitSlash]
    split
    · simp
    · split <;> simp

theorem splitSlash_append (a b : List Char) :
    splitSlash (a ++ '/' :: b) = splitSlash a ++ splitSlash b := by
  induction a with
  | nil => simp [splitSlash]
  | cons c a ih =>
    simp only [List.cons_append, splitSlash]
    by_cases hc : c = '/'
    · simp [hc, ih]
    · simp only [hc, if_false]
      have ih1 : splitSlash (a.append ('/' :: b)) = splitSlash a ++ splitSlash b := ih
      rw [ih1]
      rcases hs : splitSlash a with _ | ⟨h, t⟩
      · exact absurd hs (splitSlash_ne_nil a)
      · simp

theorem splitSlash_of_not_mem (l : List Char) (h : '/' ∉ l) : splitSlash l = [l] := by
  induction l with
  | nil => rfl
  | cons c cs ih =>
    simp only [List.mem_cons, not_or] at h
    simp only [splitSlash]
    rw [if_neg (fun hc => h.1 hc.symm), ih h.2]

theorem splitSlash_not_mem (l : List Char) : ∀ e ∈ splitSlash l, '/' ∉ e := by
  induction l with
  | nil => simp [splitSlash]
  | cons c cs ih =>
    simp only [splitSlash]
    by_cases hc : c = '/'
    · simp only [hc, if_true, List.mem_cons]
      rintro e (rfl | he)
      · simp
      · exact ih e he
    · simp only [hc, if_false]
      rcases hs : splitSlash cs with _ | ⟨h, t⟩
      · simp [Ne.symm hc]
      · rw [hs] at ih
        simp only [List.mem_cons]
        rintro e (rfl | he)
        · simp only [List.mem_cons, not_or]
          exact ⟨Ne.symm hc, ih h (List.mem_cons_self _ _)⟩
        · exact ih e (List.mem_cons_of_mem _ he)

theorem elements_isPiece (s : String) : ∀ e ∈ elements s, IsPiece e := by
  intro e he
  simp only [elements, List.mem_map, List.mem_filter] at he
  obtain ⟨l, ⟨hl, hne⟩, rfl⟩ := he
  refine ⟨?_, splitSlash_not_mem _ l hl⟩
  intro h
  have h1 : l = [] := h
  subst h1
  cases hne

theorem elements_append_slash (a b : String) :
    elements (a ++ "/" ++ b) = elements a ++ elements b := by
  have h : (a ++ "/" ++ b).data = a.data ++ '/' :: b.data := by
    simp [String.data_append]
  simp [elements, h, splitSlash_append]

theorem elements_of_isPiece (s : String) (h : IsPiece s) : elements s = [s] := by
  simp only [elements, splitSlash_of_not_mem _ h.2]
  have : (!s.data.isEmpty) = true := by
    cases hd : s.data with
    | nil => exact absurd hd h.1
    | cons c cs => rfl
  simp [List.filter, this]

theorem elements_empty : elements "" = [] := by
  decide

theorem elements_joinSlash (es : List String) (h : ∀ e ∈ es, IsPiece e) :
    elements (joinSlash es) = es := by
  induction es with
  | nil => exact elements_empty
  | cons a rest ih =>
    cases rest with
    | nil => exact elements_of_isPiece a (h a (List.mem_cons_self _ _))
    | cons b rest =>
      simp only [joinSlash]
      rw [elements_append_slash, elements_of_isPiece a (h a (List.mem_cons_self _ _)),
        ih (fun e he => h e (List.mem_cons_of_mem _ he))]
      rfl

theorem isRooted_of_isPiece (s : String) (h : IsPiece s) : isRooted s = false := by
  unfold isRooted
  rcases hd : s.data with _ | ⟨c, cs⟩
  · rfl
  · have h2 := h.2
    rw [hd] at h2
    simp only [List.mem_cons, not_or] at h2
    simp only [beq_eq_false_iff_ne, ne_eq]
    exact fun hc => h2.1 hc.symm

theorem joinSlash_data_cons (a : String) (rest : List String) :
    ∃ l, (joinSlash (a :: rest)).data = a.data ++ l := by
  cases rest with
  | nil => exact ⟨[], by simp [joinSlash]⟩
  | cons b rest => exact ⟨'/' :: (joinSlash (b :: rest)).data, by simp [joinSlash, String.data_append]⟩

theorem isRooted_render (r : Bool) (es : List String) (h : ∀ e ∈ es, IsPiece e) :
    isRooted (render r es) = r := by
  unfold render
  cases r with
  | true =>
    simp only [if_true]
    unfold isRooted
    simp [String.data_append]
  | false =>
    simp only [Bool.false_eq_true, if_false]
    cases es with
    | nil => decide
    | cons a rest =>
      simp only [List.isEmpty_cons, Bool.false_eq_true, if_false]
      obtain ⟨l, hl⟩ := joinSlash_data_cons a rest
      have ha := h a (List.mem_cons_self _ _)
      unfold isRooted
      rw [hl]
      rcases hd : a.data with _ | ⟨c, cs⟩
      · exact absurd hd ha.1
      · have h2 := ha.2
        rw [hd] at h2
        simp only [List.mem_cons, not_or] at h2
        simp only [List.cons_append, beq_eq_false_iff_ne, ne_eq]
        exact fun hc => h2.1 hc.symm

theorem elements_slash_append (x : String) : elements ("/" ++ x) = elements x := by
  have h : "/" ++ x = "" ++ "/" ++ x := by
    apply String.ext
    simp [String.data_append]
  rw [h, elements_append_slash, elements_empty, List.nil_append]

theorem elements_render (r : Bool) (es : List String) (h : ∀ e ∈ es, IsPiece e) :
    elements (render r es) = if r = false ∧ es = [] then ["."] else es := by
  unfold render
  cases r with
  | true =>
    simp only [if_true, Bool.true_eq_false, false_and, if_false]
    rw [elements_slash_append, elements_joinSlash es h]
  | false =>
    cases es with
    | nil => decide
    | cons a rest =>
      simp only [Bool.false_eq_true, if_false, List.isEmpty_cons, true_and]
      rw [elements_joinSlash _ h]
      simp

theorem isPiece_dotdot : IsPiece ".." := by
  constructor <;> decide

theorem cleanFrom_append (r : Bool) (st xs ys : List String) :
    cleanFrom r st (xs ++ ys) = cleanFrom r (cleanFrom r st xs) ys := by
  simp [cleanFrom, List.foldl_append]

theorem cleanStep_mem (r : Bool) (st : List String) (e x : String)
    (hx : x ∈ cleanStep r st e) : x ∈ st ∨ (x = e ∧ e ≠ ".") := by
  unfold cleanStep at hx
  split at hx
  · exact Or.inl hx
  · rename_i hdot
    split at hx
    · rename_i hdd
      split at hx
      · split at hx
        · simp at hx
        · simp only [List.mem_singleton] at hx
          exact Or.inr ⟨hx.trans hdd.symm, hdot⟩
      · split at hx
        · simp only [List.mem_append, List.mem_singleton] at hx
          rcases hx with hx | hx
          · exact Or.inl hx
          · exact Or.inr ⟨hx.trans hdd.symm, hdot⟩
        · exact Or.inl (List.mem_of_mem_dropLast hx)
    · simp only [List.mem_append, List.mem_singleton] at hx
      rcases hx with hx | hx
      · exact Or.inl hx
      · exact Or.inr ⟨hx, hdot⟩

theorem cleanFrom_mem (r : Bool) (st es : List String) (x : String)
    (hx : x ∈ cleanFrom r st es) : x ∈ st ∨ (x ∈ es ∧ x ≠ ".") := by
  induction es generalizing st with
  | nil => exact Or.inl hx
  | cons e es ih =>
    simp only [cleanFrom, List.foldl_cons] at hx
    rcases ih (cleanStep r st e) hx with h | ⟨h1, h2⟩
    · rcases cleanStep_mem r st e x h with h3 | ⟨rfl, h4⟩
      · exact Or.inl h3
      · exact Or.inr ⟨List.mem_cons_self _ _, h4⟩
    · exact Or.inr ⟨List.mem_cons_of_mem _ h1, h2⟩

theorem cleanStep_plain (r : Bool) (st : List String) (e : String) (h1 : e ≠ ".")
    (h2 : e ≠ "..") : cleanStep r st e = st ++ [e] := by
  simp [cleanStep, h1, h2]

/-- Cleaning a relative path first and resolving it afterwards is resolving
it; the same for a rooted path at the root. -/
theorem cleanFrom_cleanFrom (r : Bool) (st X : List String) :
    cleanFrom true (if r then [] else st) (cleanFrom r [] X) =
      cleanFrom true (if r then [] else st) X := by
  induction X using List.reverseRecOn with
  | nil => rfl
  | append_singleton X e ih =>
    rw [cleanFrom_append r, cleanFrom_append true]
    have hstep : ∀ (s : List String), cleanFrom r s [e] = cleanStep r s e := fun _ => rfl
    have hstep1 : ∀ (s : List String), cleanFrom true s [e] = cleanStep true s e := fun _ => rfl
    rw [hstep, hstep1, ← ih]
    have hnodot : ∀ x ∈ cleanFrom r [] X, x ≠ "." := by
      intro x hx
      rcases cleanFrom_mem r [] X x hx with h | h
      · simp at h
      · exact h.2
    generalize cleanFrom r [] X = N at hnodot
    by_cases hdot : e = "."
    · simp [cleanStep, hdot]
    · by_cases hdd : e = ".."
      · subst hdd
        rcases List.eq_nil_or_concat N with rfl | ⟨L, x, rfl⟩
        · cases r <;> simp [cleanStep, cleanFrom]
        · rw [List.concat_eq_append] at hnodot ⊢
          by_cases hx : x = ".."
          · subst hx
            have : cleanStep r (L ++ [".."]) ".." = (L ++ [".."]) ++ [".."] := by
              simp [cleanStep]
            rw [this, cleanFrom_append true _ (L ++ [".."]) [".."]]
            rfl
          · have hxd : x ≠ "." := hnodot x (by simp)
            have : cleanStep r (L ++ [x]) ".." = L := by
              simp [cleanStep, hx]
            rw [this, cleanFrom_append true _ L [x]]
            have h2 : cleanFrom true (cleanFrom true (if r = true then [] else st) L) [x] =
                cleanFrom true (if r = true then [] else st) L ++ [x] :=
              cleanStep_plain true _ x hxd hx
            rw [h2]
            simp [cleanStep, hx]
      · rw [cleanStep_plain r _ e hdot hdd, cleanFrom_append true, cleanStep_plain true _ e hdot hdd]
        exact cleanStep_plain true _ e hdot hdd

theorem cleanFrom_pieces (r : Bool) (X : List String) (h : ∀ e ∈ X, IsPiece e) :
    ∀ e ∈ cleanFrom r [] X, IsPiece e := by
  intro e he
  rcases cleanFrom_mem r [] X e he with h1 | h1
  · simp at h1
  · exact h e h1.1

/-- Resolving a cleaned path is resolving the path. -/
theorem resolve_Clean (fs : FS) (s : String) : fs.resolve (Clean s) = fs.resolve s := by
  have hp := cleanFrom_pieces (isRooted s) (elements s) (elements_isPiece s)
  unfold FS.resolve Clean
  rw [isRooted_render _ _ hp, elements_render _ _ hp]
  have h := cleanFrom_cleanFrom (isRooted s) fs.cwd (elements s)
  by_cases hc : isRooted s = false ∧ cleanFrom (isRooted s) [] (elements s) = []
  · rw [if_pos hc]
    rw [hc.2] at h
    rw [← h]
    simp only [hc.1, Bool.false_eq_true, if_false]
    rfl
  · rw [if_neg hc]
    exact h

theorem Clean_ne_empty (s : String) : Clean s ≠ "" := by
  have hp := cleanFrom_pieces (isRooted s) (elements s) (elements_isPiece s)
  unfold Clean render
  generalize cleanFrom (isRooted s) [] (elements s) = N at hp
  intro h
  have hd := congrArg String.data h
  split at hd
  · simp [String.data_append] at hd
  · cases N with
    | nil => simp at hd
    | cons a rest =>
      simp only [List.isEmpty_cons, Bool.false_eq_true, if_false] at hd
      obtain ⟨l, hl⟩ := joinSlash_data_cons a rest
      rw [hl] at hd
      have := (hp a (List.mem_cons_self _ _)).1
      simp only [List.append_eq_nil] at hd
      exact this hd.1

/-- The path denoted by the join of two elements is the second processed from
the path denoted by the first. -/
theorem resolve_Join (fs : FS) (a b : String) (h : a ≠ "" ∨ isRooted b = false) :
    fs.resolve (Join [a, b]) = cleanFrom true (fs.resolve a) (elements b) := by
  by_cases ha : a = ""
  · subst ha
    have hb : isRooted b = false := by
      rcases h with h | h
      · exact absurd rfl h
      · exact h
    by_cases hbe : b = ""
    · subst hbe
      rfl
    · have hj : Join ["", b] = Clean b := by
        simp [Join, hbe, joinSlash]
      rw [hj, resolve_Clean]
      have he : isRooted "" = false := rfl
      unfold FS.resolve
      rw [hb, he, elements_empty]
      rfl
  · have hj : Join [a, b] = Clean (a ++ "/" ++ b) := by
      simp [Join, ha, joinSlash]
    have hr : isRooted (a ++ "/" ++ b) = isRooted a := by
      unfold isRooted
      rcases hd : a.data with _ | ⟨c, cs⟩
      · exact absurd (String.ext (by simpa using hd)) ha
      · simp [String.data_append, hd]
    rw [hj, resolve_Clean]
    unfold FS.resolve
    rw [hr, elements_append_slash, cleanFrom_append]

/-! ## Facts established by a successful run -/

/-- After the `Stat` step has succeeded, every proper ancestor of the directory
is a directory and the directory itself exists. -/
theorem ensureDir_ok {tdir : String} {fs fs1 : FS} (h : ensureDir tdir fs = (fs1, none)) :
    (∀ p, p <+: fs.resolve tdir → p ≠ fs.resolve tdir → fs1.nodes p = some .dir) ∧
      ∃ n, fs1.nodes (fs.resolve tdir) = some n := by
  unfold ensureDir at h
  split at h
  · split at h
    · exact ⟨fun p hp _ => osMkdirAll_ok h p hp, .dir, osMkdirAll_ok h _ (List.prefix_refl _)⟩
    · simp at h
  · rename_i n hstat
    simp only [Prod.mk.injEq, and_true] at h
    subst h
    unfold osStat at hstat
    split at hstat
    · simp at hstat
    · split at hstat
      · rename_i n1 hl
        obtain ⟨h1, h2⟩ := walkFrom_ok fs [] (fs.resolve tdir) n1 hl
        simp only [List.nil_append] at h1 h2
        exact ⟨fun p hp hne => h2 p List.nil_prefix hp hne, n1, h1⟩
      · simp at hstat

/-- After a successful pass of the inner loop, every proper ancestor of the
template's directory is a directory and the directory itself exists. -/
theorem renderTemplate_dir {T Tree V : Type} (K : Collab T Tree V)
    {cod : String} {v : V} {t : templateFile T} {fs fs' : FS}
    (h : renderTemplate K cod v t fs = (fs', none)) :
    (∀ p, p <+: fs.resolve (Join [cod, t.relpath]) → p ≠ fs.resolve (Join [cod, t.relpath]) →
        fs'.nodes p = some .dir) ∧
      ∃ n, fs'.nodes (fs.resolve (Join [cod, t.relpath])) = some n := by
  unfold renderTemplate at h
  rcases he : ensureDir (Join [cod, t.relpath]) fs with ⟨fs1, _ | err⟩
  · rw [he] at h
    simp only at h
    obtain ⟨hd1, n, hn1⟩ := ensureDir_ok he
    rcases hcr : osCreate (Join [Join [cod, t.relpath], t.name]) fs1 with ⟨fs2, err | hd⟩
    · rw [hcr] at h
      simp at h
    · rw [hcr] at h
      simp only [Prod.mk.injEq] at h
      obtain ⟨rfl, rfl, hnd, _⟩ := osCreate_ok hcr
      obtain ⟨_, _, hn⟩ := write_after_create fs1
        (fs1.resolve (Join [Join [cod, t.relpath], t.name])) (K.execute t.template v fs1.ticks).1
      simp only [FS.set_ticks] at h
      rw [← h.1]
      constructor
      · intro p hp hne
        have hp1 := hd1 p hp hne
        have : p ≠ fs1.resolve (Join [Join [cod, t.relpath], t.name]) := by
          intro hpe
          rw [hpe] at hp1
          exact hnd hp1
        rw [hn p, if_neg this]
        exact hp1
      · rw [hn]
        split
        · exact ⟨_, rfl⟩
        · exact ⟨n, hn1⟩
  · rw [he] at h
    simp at h

/-- A fact that a successful pass of the inner loop establishes and that a
growing filesystem keeps holds after a successful outer loop for every pair of
a context and a template. -/
theorem contexts_establish {T Tree V : Type} (K : Collab T Tree V) (m : MiphaEngine T V)
    (fs0 : FS) (cs : List (String × V)) (Q : String × V → templateFile T → FS → Prop)
    (hest : ∀ c t s s', s.cwd = fs0.cwd →
      renderTemplate K (Join [m.outputPath, c.1]) c.2 t s = (s', none) → Q c t s')
    (hpres : ∀ c t a b, Grows (m.writes K fs0 cs) (m.targets fs0 cs) a b → Q c t a → Q c t b)
    (s s' : FS) (hs : s.cwd = fs0.cwd)
    (h : forEach (renderContext K m) cs s = (s', none)) (c : String × V) (hc : c ∈ cs)
    (t : templateFile T) (ht : t ∈ m.tc.templates) : Q c t s' := by
  obtain ⟨pre, post, hsplit⟩ := List.append_of_mem hc
  have h' := h
  rw [hsplit] at h'
  obtain ⟨sa, sb, hpre, hbody, hpost⟩ := forEach_ok_split _ pre c post s s' h'
  have hsa : sa.cwd = fs0.cwd := by
    have := contexts_grows K m fs0 cs pre
      (fun x hx => hsplit ▸ List.mem_append_left _ hx) s hs
    rw [hpre] at this
    exact this.1.trans hs
  have hsb : sb.cwd = fs0.cwd := by
    have := renderContext_grows K m fs0 cs c hc sa hsa
    rw [hbody] at this
    exact this.1.trans hsa
  have hrest := contexts_grows K m fs0 cs post
    (fun x hx => hsplit ▸ List.mem_append_right _ (List.mem_cons_of_mem _ hx)) sb hsb
  rw [hpost] at hrest
  refine hpres c t sb s' hrest ?_
  unfold renderContext at hbody
  rcases hm : osMkdirAll (Join [m.outputPath, c.1]) sa with ⟨s1, _ | err⟩
  · rw [hm] at hbody
    simp only at hbody
    have hs1 : s1.cwd = fs0.cwd := by
      have := osMkdirAll_cwd (Join [m.outputPath, c.1]) sa
      rw [hm] at this
      exact this.trans hsa
    obtain ⟨tpre, tpost, htsplit⟩ := List.append_of_mem ht
    rw [htsplit] at hbody
    obtain ⟨ta, tb, htpre, htbody, htpost⟩ := forEach_ok_split _ tpre t tpost s1 sb hbody
    have hta : ta.cwd = fs0.cwd := by
      have := templates_grows K m fs0 cs c hc tpre
        (fun x hx => htsplit ▸ List.mem_append_left _ hx) s1 hs1
      rw [htpre] at this
      exact this.1.trans hs1
    have htb : tb.cwd = fs0.cwd := by
      have : Grows (fun _ _ _ => True) (fun _ => True) ta
          (renderTemplate K (Join [m.outputPath, c.1]) c.2 t ta).1 :=
        renderTemplate_grows K (Join [m.outputPath, c.1]) c.2 t ta trivial trivial
      rw [htbody] at this
      exact this.1.trans hta
    have htrest := templates_grows K m fs0 cs c hc tpost
      (fun x hx => htsplit ▸ List.mem_append_right _ (List.mem_cons_of_mem _ hx)) tb htb
    rw [htpost] at htrest
    exact hpres c t tb sb htrest (hest c t ta tb hta htbody)
  · rw [hm] at hbody
    simp at hbody

/-- After a successful `Execute`, every proper ancestor of the directory of a
template below a context is a directory, and the directory itself exists. -/
theorem Execute_tplDir {T Tree V : Type} (K : Collab T Tree V) (m : MiphaEngine T V)
    (fs fs' : FS) (h : m.Execute K fs = (fs', none)) (c : String × V) (hc : c ∈ m.contexts)
    (t : templateFile T) (ht : t ∈ m.tc.templates) :
    (∀ p, p <+: m.tplDir fs c.1 t → p ≠ m.tplDir fs c.1 t → fs'.nodes p = some .dir) ∧
      ∃ n, fs'.nodes (m.tplDir fs c.1 t) = some n := by
  have hc0 := osRemoveAll_cwd m.outputPath fs
  unfold MiphaEngine.Execute at h
  rcases hr : osRemoveAll m.outputPath fs with ⟨fs0, _ | err⟩
  · rw [hr] at h hc0
    simp only at h hc0
    refine contexts_establish K m fs m.contexts
      (fun c t s => (∀ p, p <+: m.tplDir fs c.1 t → p ≠ m.tplDir fs c.1 t →
        s.nodes p = some .dir) ∧ ∃ n, s.nodes (m.tplDir fs c.1 t) = some n)
      ?_ ?_ fs0 fs' hc0 h c hc t ht
    · intro c t s s' hs hrt
      have := renderTemplate_dir K hrt
      rw [FS.resolve_congr hs] at this
      exact this
    · intro c t a b hg hq
      refine ⟨fun p hp hne => hg.dir_persists (hq.1 p hp hne), ?_⟩
      obtain ⟨n, hn⟩ := hq.2
      obtain ⟨n1, hn1, _⟩ := hg.2.1 _ n hn
      exact ⟨n1, hn1⟩
  · rw [hr] at h
    simp at h

/-- A successful `Execute` extends the state left by the removal of the output
root. -/
theorem Execute_grows {T Tree V : Type} (K : Collab T Tree V) (m : MiphaEngine T V)
    (fs fs' : FS) (h : m.Execute K fs = (fs', none)) :
    osRemoveAll m.outputPath fs = ((osRemoveAll m.outputPath fs).1, none) ∧
    Grows (m.writes K fs m.contexts) (m.targets fs m.contexts)
      (osRemoveAll m.outputPath fs).1 fs' := by
  have hc0 := osRemoveAll_cwd m.outputPath fs
  unfold MiphaEngine.Execute at h
  rcases hr : osRemoveAll m.outputPath fs with ⟨fs0, _ | err⟩
  · rw [hr] at h hc0
    simp only at h hc0
    have hg := contexts_grows K m fs m.contexts m.contexts (fun _ h => h) fs0 hc0
    unfold MiphaEngine.contexts at hg
    rw [h] at hg
    exact ⟨rfl, hg⟩
  · rw [hr] at h
    simp at h

/-- The filesystem after a successful run without collisions is determined,
path by path, by the state left by the removal of the output root. -/
theorem Execute_settled {T Tree V : Type} (K : Collab T Tree V) (m : MiphaEngine T V)
    (fs fs' : FS) (h : m.Execute K fs = (fs', none)) (hU : NoCollision m fs)
    (p : List String) :
    Settled K m fs m.contexts p ((osRemoveAll m.outputPath fs).1.nodes p) (fs'.nodes p) := by
  obtain ⟨_, _, hk, hw, hd, _⟩ := Execute_grows K m fs fs' h
  by_cases hex : ∃ c ∈ m.contexts, ∃ t ∈ m.tc.templates, m.dest fs c.1 t = p
  · left
    obtain ⟨c, hc, t, ht, hp⟩ := hex
    refine ⟨c, hc, t, ht, hp, ?_⟩
    obtain ⟨⟨y, hy, n, _, _, c', hc', t', ht', hdest, hbytes⟩, _⟩ :=
      (Execute_written K m fs fs' h c hc).2 t ht
    obtain ⟨rfl, rfl⟩ := hU c' hc' t' ht' c hc t ht hdest
    exact ⟨n, by rw [← hp, hy, hbytes]⟩
  · right
    refine ⟨hex, ?_⟩
    rcases hx : (osRemoveAll m.outputPath fs).1.nodes p with _ | n
    · right
      refine ⟨rfl, ?_⟩
      rcases hy : fs'.nodes p with _ | n'
      · right
        refine ⟨?_, rfl⟩
        rintro ⟨g, ⟨c, hc, hg⟩, hpg⟩
        rcases hg with hg | ⟨t, ht, hg⟩
        · have := (Execute_written K m fs fs' h c hc).1 p (hg ▸ hpg)
          rw [hy] at this
          cases this
        · obtain ⟨h1, n, h2⟩ := Execute_tplDir K m fs fs' h c hc t ht
          by_cases hpe : p = m.tplDir fs c.1 t
          · rw [← hpe, hy] at h2
            cases h2
          · have := h1 p (hg ▸ hpg) hpe
            rw [hy] at this
            cases this
      · cases n' with
        | dir =>
          left
          refine ⟨?_, rfl⟩
          rcases hd p hy with h1 | ⟨_, h2⟩
          · rw [hx] at h1
            cases h1
          · exact h2
        | file b =>
          exfalso
          rcases hw p b hy with h1 | ⟨_, _, _, c, hc, t, ht, hdest, _⟩
          · rw [hx] at h1
            cases h1
          · exact hex ⟨c, hc, t, ht, hdest⟩
    · left
      refine ⟨n, rfl, ?_⟩
      obtain ⟨n1, hn1, hs⟩ := hk p n hx
      rw [hn1]
      cases n with
      | dir => rw [Node.sameKind_dir hs]
      | file b =>
        obtain ⟨b1, rfl⟩ := Node.sameKind_file hs
        rcases hw p b1 hn1 with h1 | ⟨_, _, _, c, hc, t, ht, hdest, _⟩
        · rw [hx] at h1
          exact h1.symm
        · exact absurd ⟨c, hc, t, ht, hdest⟩ hex

/-- Without collisions and with repeatable executions, what was found at a
path determines what is there after the run. -/
theorem Settled.unique {T Tree V : Type} {K : Collab T Tree V} {m : MiphaEngine T V}
    {fs : FS} {cs : List (String × V)} {p : List String} {x y y' : Option Node}
    (hU : ∀ c ∈ cs, ∀ t ∈ m.tc.templates, ∀ c' ∈ cs, ∀ t' ∈ m.tc.templates,
      m.dest fs c.1 t = m.dest fs c'.1 t' → c = c' ∧ t = t')
    (hR : ∀ t ∈ m.tc.templates, ∀ c ∈ cs, ∀ n n',
      (K.execute t.template c.2 n).1 = (K.execute t.template c.2 n').1)
    (h1 : Settled K m fs cs p x y) (h2 : Settled K m fs cs p x y') : y = y' := by
  rcases h1 with ⟨c, hc, t, ht, hp, n, hy⟩ | ⟨hn, h1⟩
  · rcases h2 with ⟨c', hc', t', ht', hp', n', hy'⟩ | ⟨hn', _⟩
    · obtain ⟨rfl, rfl⟩ := hU c hc t ht c' hc' t' ht' (hp.trans hp'.symm)
      rw [hy, hy', hR t ht c hc n n']
    · exact absurd ⟨c, hc, t, ht, hp⟩ hn'
  · rcases h2 with ⟨c', hc', t', ht', hp', _⟩ | ⟨_, h2⟩
    · exact absurd ⟨c', hc', t', ht', hp'⟩ hn
    · rcases h1 with ⟨n, hx, hy⟩ | ⟨hx, h1⟩
      · rcases h2 with ⟨n', hx', hy'⟩ | ⟨hx', _⟩
        · rw [hy, hy', ← hx, ← hx']
        · rw [hx] at hx'
          cases hx'
      · rcases h2 with ⟨n', hx', _⟩ | ⟨_, h2⟩
        · rw [hx] at hx'
          cases hx'
        · rcases h1 with ⟨hg, hy⟩ | ⟨hg, hy⟩
          · rcases h2 with ⟨_, hy'⟩ | ⟨hg', _⟩
            · rw [hy, hy']
            · exact absurd hg hg'
          · rcases h2 with ⟨hg', _⟩ | ⟨_, hy'⟩
            · exact absurd hg' hg
            · rw [hy, hy']

/-- Only the set of contexts matters, not their order. -/
theorem Settled.congr {T Tree V : Type} {K : Collab T Tree V} {m : MiphaEngine T V}
    {fs fs1 : FS} {cs cs' : List (String × V)} {p : List String} {x y : Option Node}
    (hcwd : fs1.cwd = fs.cwd) (hmem : ∀ c, c ∈ cs' ↔ c ∈ cs)
    (h : Settled K m fs1 cs' p x y) : Settled K m fs cs p x y := by
  simpa only [Settled, MiphaEngine.dest, MiphaEngine.targets, MiphaEngine.ctxDir,
    MiphaEngine.tplDir, FS.resolve_congr hcwd, hmem] using h

theorem Execute_cwd {T Tree V : Type} (K : Collab T Tree V) (m : MiphaEngine T V)
    (fs fs' : FS) (h : m.Execute K fs = (fs', none)) : fs'.cwd = fs.cwd :=
  (Execute_grows K m fs fs' h).2.1.trans (osRemoveAll_cwd m.outputPath fs)

/-- Two successful runs of an engine without collisions and with repeatable
executions from the same state, visiting the contexts in two orders, leave the
same filesystem. -/
theorem Execute_order {T Tree V : Type} (K : Collab T Tree V) (m : MiphaEngine T V)
    (fs fs1 fs2 : FS) (cs2 : List (String × V)) (hperm : cs2.Perm m.contexts)
    (hU : NoCollision m fs) (hR : Repeatable K m) (h1 : m.Execute K fs = (fs1, none))
    (h2 : (m.reorder cs2).Execute K fs = (fs2, none)) (p : List String) :
    fs1.nodes p = fs2.nodes p := by
  have hU2 : NoCollision (m.reorder cs2) fs := by
    intro c hc t ht c' hc' t' ht' hd
    exact hU c (hperm.mem_iff.mp hc) t ht c' (hperm.mem_iff.mp hc') t' ht' hd
  have s1 := Execute_settled K m fs fs1 h1 hU p
  have s2 := Execute_settled K (m.reorder cs2) fs fs2 h2 hU2 p
  have s2' : Settled K m fs cs2 p ((osRemoveAll m.outputPath fs).1.nodes p) (fs2.nodes p) := s2
  exact Settled.unique hU hR s1 (Settled.congr rfl (fun c => hperm.mem_iff) s2')

/-- A second successful run of an engine without collisions and with
repeatable executions, in any order of the contexts, leaves the filesystem as
the first run left it, when the removal of the first run has cleared the
output root. -/
theorem Execute_twice {T Tree V : Type} (K : Collab T Tree V) (m : MiphaEngine T V)
    (fs fs1 fs2 : FS) (cs2 : List (String × V)) (hperm : cs2.Perm m.contexts)
    (hU : NoCollision m fs) (hR : Repeatable K m) (hclr : Cleared m fs)
    (h1 : m.Execute K fs = (fs1, none))
    (h2 : (m.reorder cs2).Execute K fs1 = (fs2, none)) (p : List String) :
    fs2.nodes p = fs1.nodes p := by
  have hcwd : fs1.cwd = fs.cwd := Execute_cwd K m fs fs1 h1
  have hU2 : NoCollision (m.reorder cs2) fs1 := by
    intro c hc t ht c' hc' t' ht' hd
    simp only [MiphaEngine.dest, FS.resolve_congr hcwd] at hd
    exact hU c (hperm.mem_iff.mp hc) t ht c' (hperm.mem_iff.mp hc') t' ht' hd
  have s1 := Execute_settled K m fs fs1 h1 hU p
  have s2 := Execute_settled K (m.reorder cs2) fs1 fs2 h2 hU2 p
  have s2' : Settled K m fs1 cs2 p ((osRemoveAll m.outputPath fs1).1.nodes p) (fs2.nodes p) := s2
  have s2'' : Settled K m fs m.contexts p _ _ :=
    Settled.congr hcwd (fun c => hperm.mem_iff) s2'
  refine Settled.unique hU hR s2'' ?_
  rcases s1 with hpair | ⟨hn, hs⟩
  · exact Or.inl hpair
  · right
    refine ⟨hn, ?_⟩
    rcases osRemoveAll_nodes m.outputPath fs1 p with hx | ⟨hroot, hx⟩
    · rw [hx]
      rcases hy : fs1.nodes p with _ | n
      · right
        refine ⟨rfl, Or.inr ⟨?_, rfl⟩⟩
        rw [hy] at hs
        rcases hs with ⟨n, _, hn2⟩ | ⟨_, hs⟩
        · cases hn2
        · rcases hs with ⟨_, hs⟩ | ⟨hs, _⟩
          · cases hs
          · exact hs
      · exact Or.inl ⟨n, rfl, rfl⟩
    · rw [hx]
      rw [FS.resolve_congr hcwd] at hroot
      have hx1 := hclr p hroot
      rw [hx1] at hs
      rcases hs with ⟨n, hn1, _⟩ | hs
      · cases hn1
      · exact Or.inr hs

theorem cleanFrom_descends (r : Bool) (st es : List String) (h : ∀ e ∈ es, e ≠ "..") :
    cleanFrom r st es = st ++ es.filter (fun e => e != ".") := by
  induction es generalizing st with
  | nil => simp [cleanFrom]
  | cons e es ih =>
    have h1 : cleanFrom r st (e :: es) = cleanFrom r (cleanStep r st e) es := rfl
    rw [h1, ih _ (fun x hx => h x (List.mem_cons_of_mem _ hx))]
    by_cases hd : e = "."
    · simp [cleanStep, hd]
    · rw [cleanStep_plain r st e hd (h e (List.mem_cons_self _ _))]
      have hb : (e != ".") = true := by simpa using hd
      simp [List.filter_cons, hb]

theorem Join_ne_empty (a b : String) (hb : b ≠ "") : Join [a, b] ≠ "" := by
  by_cases ha : a = ""
  · subst ha
    have hj : Join ["", b] = Clean b := by
      simp [Join, hb, joinSlash]
    rw [hj]
    exact Clean_ne_empty b
  · have hj : Join [a, b] = Clean (a ++ "/" ++ b) := by
      simp [Join, ha, joinSlash]
    rw [hj]
    exact Clean_ne_empty _

theorem IsPiece.ne_empty {s : String} (h : IsPiece s) : s ≠ "" := by
  intro he
  subst he
  exact h.1 rfl

theorem ctxDir_eq {T V : Type} (m : MiphaEngine T V) (fs : FS) (c : String) (hc : IsElem c) :
    m.ctxDir fs c = m.root fs ++ [c] := by
  unfold MiphaEngine.ctxDir MiphaEngine.root
  rw [resolve_Join fs _ _ (Or.inr (isRooted_of_isPiece c hc.1)), elements_of_isPiece c hc.1]
  exact cleanStep_plain true _ c hc.2.1 hc.2.2

theorem tplDir_eq {T V : Type} (m : MiphaEngine T V) (fs : FS) (c : String) (hc : IsElem c)
    (t : templateFile T) (hr : Descends t.relpath) :
    m.tplDir fs c t = m.root fs ++ [c] ++ relElems t.relpath := by
  have h1 := ctxDir_eq m fs c hc
  unfold MiphaEngine.ctxDir at h1
  unfold MiphaEngine.tplDir
  rw [resolve_Join fs _ _ (Or.inl (Join_ne_empty _ _ hc.1.ne_empty)), h1,
    cleanFrom_descends true _ _ hr]
  rfl

theorem dest_eq {T V : Type} (m : MiphaEngine T V) (fs : FS) (c : String) (hc : IsElem c)
    (t : templateFile T) (hr : Descends t.relpath) (hn : IsElem t.name) :
    m.dest fs c t = m.root fs ++ [c] ++ relElems t.relpath ++ [t.name] := by
  have h1 := tplDir_eq m fs c hc t hr
  unfold MiphaEngine.tplDir at h1
  unfold MiphaEngine.dest
  rw [resolve_Join fs _ _ (Or.inr (isRooted_of_isPiece _ hn.1)), h1,
    elements_of_isPiece _ hn.1]
  exact cleanStep_plain true _ _ hn.2.1 hn.2.2

/-- With well-formed and distinct names no two pairs share a destination. -/
theorem noCollision_of_wellNamed {T V : Type} (m : MiphaEngine T V) (fs : FS)
    (hW : WellNamed m) (hD : Distinct m) : NoCollision m fs := by
  intro c hc t ht c' hc' t' ht' hd
  obtain ⟨hr, hn⟩ := hW.2 t ht
  obtain ⟨hr', hn'⟩ := hW.2 t' ht'
  rw [dest_eq m fs c.1 (hW.1 c hc) t hr hn, dest_eq m fs c'.1 (hW.1 c' hc') t' hr' hn'] at hd
  simp only [List.append_assoc, List.append_cancel_left_eq, List.singleton_append,
    List.cons.injEq] at hd
  have hcc : c.1 = c'.1 := (List.cons.inj hd).1
  have hrest : relElems t.relpath ++ [t.name] = relElems t'.relpath ++ [t'.name] :=
    (List.cons.inj hd).2
  have hlen := congrArg List.length hrest
  simp only [List.length_append, List.length_singleton, add_left_inj] at hlen
  have h2 := List.append_inj hrest hlen
  simp only [List.cons.injEq, and_true] at h2
  obtain ⟨hre, hne⟩ := h2
  have hceq : c = c' := by
    have := List.inj_on_of_nodup_map hD.1 hc hc' hcc
    exact this
  have hteq : t = t' := by
    refine List.inj_on_of_nodup_map hD.2 ht ht' ?_
    simp [hre, hne]
  exact ⟨hceq, hteq⟩

theorem cleanStep_keeps (r : Bool) (acc : List String) (e : String) (h : ".." ∈ acc) :
    ".." ∈ cleanStep r acc e := by
  rcases List.eq_nil_or_concat acc with hnil | ⟨L, x, hL⟩
  · rw [hnil] at h
    cases h
  · rw [List.concat_eq_append] at hL
    subst hL
    by_cases h1 : e = "."
    · simpa [cleanStep, h1] using h
    · by_cases h2 : e = ".."
      · subst h2
        by_cases hx : x = ".."
        · subst hx
          simp [cleanStep]
        · have e1 : cleanStep r (L ++ [x]) ".." = L := by
            simp [cleanStep, hx]
          rw [e1]
          rcases List.mem_append.mp h with h3 | h3
          · exact h3
          · simp only [List.mem_singleton] at h3
            exact absurd h3.symm hx
      · rw [cleanStep_plain _ _ _ h1 h2]
        exact List.mem_append_left _ h

theorem cleanFrom_keeps (r : Bool) (acc es : List String) (h : ".." ∈ acc) :
    ".." ∈ cleanFrom r acc es := by
  induction es generalizing acc with
  | nil => simpa [cleanFrom] using h
  | cons e es ih =>
    have hc : cleanFrom r acc (e :: es) = cleanFrom r (cleanStep r acc e) es := by
      simp [cleanFrom]
    rw [hc]
    exact ih _ (cleanStep_keeps r acc e h)

/-- Elements that, cleaned, do not begin with `..` are resolved below the
directory they start from. -/
theorem cleanFrom_stays (st acc es : List String) (hacc : ".." ∉ acc)
    (h : ".." ∉ cleanFrom false acc es) :
    cleanFrom true (st ++ acc) es = st ++ cleanFrom false acc es := by
  induction es generalizing acc with
  | nil => simp [cleanFrom]
  | cons e es ih =>
    have hc1 : cleanFrom false acc (e :: es) = cleanFrom false (cleanStep false acc e) es := by
      simp [cleanFrom]
    have hc2 : cleanFrom true (st ++ acc) (e :: es) =
        cleanFrom true (cleanStep true (st ++ acc) e) es := by
      simp [cleanFrom]
    rw [hc1] at h ⊢
    rw [hc2]
    have hacc1 : ".." ∉ cleanStep false acc e := fun hx => h (cleanFrom_keeps false _ es hx)
    have hstep : cleanStep true (st ++ acc) e = st ++ cleanStep false acc e := by
      by_cases h1 : e = "."
      · simp [cleanStep, h1]
      · by_cases h2 : e = ".."
        · subst h2
          rcases List.eq_nil_or_concat acc with hnil | ⟨L, x, hL⟩
          · subst hnil
            exact absurd (by simp [cleanStep]) hacc1
          · rw [List.concat_eq_append] at hL
            subst hL
            have hx : x ≠ ".." := fun hx => hacc (by simp [hx])
            have e1 : cleanStep false (L ++ [x]) ".." = L := by
              simp [cleanStep, hx]
            have e2 : cleanStep true (st ++ (L ++ [x])) ".." = st ++ L := by
              rw [← List.append_assoc]
              simp [cleanStep, hx]
            rw [e1, e2]
        · rw [cleanStep_plain _ _ _ h1 h2, cleanStep_plain _ _ _ h1 h2, List.append_assoc]
    rw [hstep]
    exact ih _ hacc1 h

theorem resolve_Join_stays (fs : FS) (a b : String) (hb : Stays b) :
    fs.resolve (Join [a, b]) = fs.resolve a ++ cleanFrom false [] (elements b) := by
  rw [resolve_Join fs a b (Or.inr hb.1)]
  have := cleanFrom_stays (fs.resolve a) [] (elements b) (by simp) hb.2
  simpa using this

theorem Join_ne_empty_left (a b : String) (ha : a ≠ "") : Join [a, b] ≠ "" := by
  unfold Join
  have h1 : (a == "") = false := by simpa using ha
  simp only [List.dropWhile_cons, h1]
  exact Clean_ne_empty _

/-- With a non-empty output path the destination of a pair is the place of
`root/context/relative directory/file name`. -/
theorem dest_elements {T V : Type} (m : MiphaEngine T V) (fs : FS) (hne : m.outputPath ≠ "")
    (c : String) (t : templateFile T) :
    m.dest fs c t =
      cleanFrom true (m.root fs) (elements c ++ elements t.relpath ++ elements t.name) := by
  have h1 := Join_ne_empty_left m.outputPath c hne
  have h2 := Join_ne_empty_left (Join [m.outputPath, c]) t.relpath h1
  unfold MiphaEngine.dest MiphaEngine.root
  rw [resolve_Join fs _ _ (Or.inl h2), resolve_Join fs _ _ (Or.inl h1),
    resolve_Join fs _ _ (Or.inl hne), cleanFrom_append, cleanFrom_append]

/-- The directory of a template lies at or below the directory of its context
and the destination at or below the directory of the template, when neither
the relative directory nor the file name leads upward. -/
theorem dest_below {T V : Type} (m : MiphaEngine T V) (fs : FS) (c : String)
    (t : templateFile T) (hr : Stays t.relpath) (hn : Stays t.name) :
    m.ctxDir fs c <+: m.tplDir fs c t ∧ m.tplDir fs c t <+: m.dest fs c t := by
  unfold MiphaEngine.ctxDir MiphaEngine.tplDir MiphaEngine.dest
  rw [resolve_Join_stays fs _ t.name hn, resolve_Join_stays fs _ t.relpath hr]
  exact ⟨List.prefix_append _ _, List.prefix_append _ _⟩

theorem string_length_eq_zero (s : String) : s.length = 0 ↔ s = "" := by
  constructor
  · intro h
    apply String.ext
    have : s.data.length = 0 := h
    exact List.length_eq_zero.mp this
  · rintro rfl
    rfl

theorem collectHelpers_eq {T Tree V : Type} (K : Collab T Tree V) (l hs : List T) :
    collectHelpers K l hs = hs ++ l.filter (fun h => K.name h != helperTemlatesName) := by
  induction l generalizing hs with
  | nil => simp [collectHelpers]
  | cons h l ih =>
    simp only [collectHelpers]
    by_cases hn : K.name h = helperTemlatesName
    · simp [hn, ih]
    · have hb : (K.name h != helperTemlatesName) = true := by simpa using hn
      simp [hn, ih, List.filter_cons, hb]

/-- What `walkFunc` does to the collection: helpers and paths are kept, and the
unit of the entry, if any, is appended when the entry is processed without
error. -/
theorem walkFunc_spec {T Tree V : Type} (K : Collab T Tree V) (e : WalkEntry)
    (tc : templateCollection T) :
    (walkFunc K e tc).1.helpers = tc.helpers ∧
    (walkFunc K e tc).1.templatesPath = tc.templatesPath ∧
    (walkFunc K e tc).1.helperPath = tc.helperPath ∧
    ((walkFunc K e tc).2 = none →
      (walkFunc K e tc).1.templates = tc.templates ++ (unitOf K tc e).toList) ∧
    (∀ err, (walkFunc K e tc).2 = some err → (walkFunc K e tc).1 = tc) := by
  unfold walkFunc unitOf
  rcases e.err with _ | err0
  · simp only
    by_cases hd : e.isDir = true
    · simp [hd]
    · simp only [hd, Bool.false_eq_true, if_false]
      rcases Rel tc.templatesPath (Dir e.path) with err | rel
      · simp
      · simp only
        rcases K.parseFiles e.path with err | t
        · simp
        · simp only
          rcases addHelpers K tc.helpers (K.option t "missingkey=error") with err | t1
          · simp
          · simp
  · simp

theorem unitOf_congr {T Tree V : Type} (K : Collab T Tree V) (tc tc1 : templateCollection T)
    (h1 : tc1.helpers = tc.helpers) (h2 : tc1.templatesPath = tc.templatesPath)
    (e : WalkEntry) : unitOf K tc1 e = unitOf K tc e := by
  simp [unitOf, h1, h2]

/-- A walk that succeeds keeps helpers and paths and appends the units of its
entries. -/
theorem walk_ok {T Tree V : Type} (K : Collab T Tree V) (es : List WalkEntry)
    (tc tc' : templateCollection T) (h : forEach (walkFunc K) es tc = (tc', none)) :
    tc'.helpers = tc.helpers ∧ tc'.templatesPath = tc.templatesPath ∧
      tc'.helperPath = tc.helperPath ∧ tc'.templates = tc.templates ++ unitsOf K tc es := by
  induction es generalizing tc with
  | nil =>
    simp only [forEach, Prod.mk.injEq, and_true] at h
    subst h
    simp [unitsOf]
  | cons e es ih =>
    simp only [forEach] at h
    obtain ⟨w1, w2, w3, w4, _⟩ := walkFunc_spec K e tc
    rcases hw : walkFunc K e tc with ⟨tc1, _ | err⟩
    · rw [hw] at h w1 w2 w3 w4
      simp only at h w1 w2 w3 w4
      obtain ⟨i1, i2, i3, i4⟩ := ih tc1 h
      refine ⟨i1.trans w1, i2.trans w2, i3.trans w3, ?_⟩
      rw [i4, w4 trivial]
      have : unitsOf K tc1 es = unitsOf K tc es := by
        unfold unitsOf
        congr 1
        funext x
        rw [unitOf_congr K tc tc1 w1 w2]
      rw [this]
      simp [unitsOf, List.flatMap_cons]
    · rw [hw] at h
      simp at h

/-- The method `load` is the reference helper loading followed by the walk. -/
theorem load_eq {T Tree V : Type} (K : Collab T Tree V) (tc : templateCollection T) :
    tc.load K =
      match helperDefinitions K tc.helperPath with
      | .error err => (tc, some err)
      | .ok hs =>
        forEach (walkFunc K) (K.walk tc.templatesPath) { tc with helpers := tc.helpers ++ hs } := by
  unfold templateCollection.load helperDefinitions
  by_cases hp : tc.helperPath = ""
  · have h0 : ¬ tc.helperPath.length ≠ 0 := by
      rw [hp]
      decide
    rw [if_neg h0, if_pos hp]
    simp
  · have h0 : tc.helperPath.length ≠ 0 := fun h => hp ((string_length_eq_zero _).mp h)
    rw [if_pos h0, if_neg hp]
    rcases K.readFile tc.helperPath with err | bytes
    · rfl
    · simp only
      rcases K.parse helperTemlatesName bytes with err | helper
      · rfl
      · simp only [collectHelpers_eq]

/-- The walk keeps the helpers, whatever its outcome. -/
theorem walk_helpers {T Tree V : Type} (K : Collab T Tree V) (es : List WalkEntry)
    (tc : templateCollection T) : (forEach (walkFunc K) es tc).1.helpers = tc.helpers :=
  forEach_rel (walkFunc K) (fun a b => b.helpers = a.helpers) (fun _ => rfl)
    (fun _ _ _ h1 h2 => h2.trans h1) es (fun e _ s => (walkFunc_spec K e s).1) tc

/-- With `AddParseTree` as `text/template` does it, a template into which
helpers of distinct names have been merged has, under the name of every helper,
the tree of the helper, or the tree it had before when the helper is empty. -/
theorem addHelpers_lookup {T Tree V : Type} (K : Collab T Tree V) (hassoc : Associates K)
    (hs : List T) (hnames : (hs.map K.name).Nodup) (t t1 : T)
    (h : addHelpers K hs t = .ok t1) :
    (∀ x ∈ hs, K.lookupTree t1 (K.name x) =
      if K.isEmptyTree (K.tree x) = true ∧ (K.lookupTree t (K.name x)).isSome = true
      then K.lookupTree t (K.name x) else some (K.tree x)) ∧
      ∀ n, n ∉ hs.map K.name → K.lookupTree t1 n = K.lookupTree t n := by
  induction hs generalizing t with
  | nil =>
    simp only [addHelpers, Except.ok.injEq] at h
    subst h
    simp
  | cons x hs ih =>
    simp only [addHelpers] at h
    rcases ha : K.addParseTree t (K.name x) (K.tree x) with err | t2
    · rw [ha] at h
      cases h
    · rw [ha] at h
      simp only at h
      simp only [List.map_cons, List.nodup_cons] at hnames
      obtain ⟨i1, i2⟩ := ih hnames.2 t2 h
      obtain ⟨c2, c1⟩ := hassoc t _ _ t2 ha
      constructor
      · intro y hy
        rcases List.mem_cons.mp hy with rfl | hy
        · rw [i2 _ hnames.1, c1]
        · have hne : K.name y ≠ K.name x := by
            intro he
            exact hnames.1 (he ▸ List.mem_map_of_mem K.name hy)
          rw [i1 y hy, c2 _ hne]
      · intro n hn
        simp only [List.map_cons, List.mem_cons, not_or] at hn
        rw [i2 n hn.2, c2 n hn.1]

/-- A file entry processed without error has produced its unit. -/
theorem walkFunc_ok_file {T Tree V : Type} (K : Collab T Tree V) (e : WalkEntry)
    (tc tc' : templateCollection T) (h : walkFunc K e tc = (tc', none))
    (hfile : e.isDir = false) :
    ∃ rel t t1, Rel tc.templatesPath (Dir e.path) = .ok rel ∧ K.parseFiles e.path = .ok t ∧
      addHelpers K tc.helpers (K.option t "missingkey=error") = .ok t1 ∧
      unitOf K tc e = some { fullpath := e.path, relpath := rel, name := e.name, template := t1 } := by
  unfold walkFunc at h
  unfold unitOf
  rcases he : e.err with _ | err0
  · rw [he] at h
    simp only [hfile, Bool.false_eq_true, if_false] at h ⊢
    rcases hr : Rel tc.templatesPath (Dir e.path) with err | rel
    · rw [hr] at h
      simp at h
    · rw [hr] at h
      simp only at h ⊢
      rcases hp : K.parseFiles e.path with err | t
      · rw [hp] at h
        simp at h
      · rw [hp] at h
        simp only at h ⊢
        rcases ha : addHelpers K tc.helpers (K.option t "missingkey=error") with err | t1
        · rw [ha] at h
          simp at h
        · exact ⟨rel, t, t1, rfl, rfl, ha, rfl⟩
  · rw [he] at h
    simp at h

/-- After a successful walk every file entry has its unit in the collection. -/
theorem walk_ok_unit {T Tree V : Type} (K : Collab T Tree V) (es : List WalkEntry)
    (tc tc' : templateCollection T) (h : forEach (walkFunc K) es tc = (tc', none))
    (e : WalkEntry) (he : e ∈ es) (hfile : e.isDir = false) :
    ∃ rel t t1, Rel tc.templatesPath (Dir e.path) = .ok rel ∧ K.parseFiles e.path = .ok t ∧
      addHelpers K tc.helpers (K.option t "missingkey=error") = .ok t1 ∧
      ({ fullpath := e.path, relpath := rel, name := e.name, template := t1 } :
        templateFile T) ∈ tc'.templates := by
  obtain ⟨pre, post, hsplit⟩ := List.append_of_mem he
  have h' := h
  rw [hsplit] at h'
  obtain ⟨sa, sb, hpre, hbody, hpost⟩ := forEach_ok_split _ pre e post tc tc' h'
  obtain ⟨a1, a2, _, _⟩ := walk_ok K pre tc sa hpre
  obtain ⟨rel, t, t1, h1, h2, h3, h4⟩ := walkFunc_ok_file K e sa sb hbody hfile
  rw [a1] at h3
  rw [a2] at h1
  refine ⟨rel, t, t1, h1, h2, h3, ?_⟩
  have hw := (walkFunc_spec K e sa).2.2.2.1
  rw [hbody] at hw
  have hsb := hw rfl
  obtain ⟨_, _, _, b4⟩ := walk_ok K post sb tc' hpost
  rw [b4, hsb, h4]
  simp

theorem forEach_flatMap {α β σ : Type} (body : β → σ → σ × Option Err) (f : α → List β)
    (xs : List α) (s : σ) :
    forEach body (xs.flatMap f) s = forEach (fun x s => forEach body (f x) s) xs s := by
  induction xs generalizing s with
  | nil => rfl
  | cons x xs ih =>
    rw [List.flatMap_cons, forEach_append]
    simp only [forEach]
    rcases forEach body (f x) s with ⟨s1, _ | err⟩
    · exact ih s1
    · rfl

theorem renderTemplate_eq_steps {T Tree V : Type} (K : Collab T Tree V) (m : MiphaEngine T V)
    (c : String × V) (t : templateFile T) (fs : FS) :
    renderTemplate K (Join [m.outputPath, c.1]) c.2 t fs =
      forEach (Step.run K m) [.statDir c t, .createExecute c t] fs := by
  simp only [renderTemplate, forEach, Step.run]
  rcases ensureDir (Join [Join [m.outputPath, c.1], t.relpath]) fs with ⟨s1, _ | err⟩
  · simp only
    rcases osCreate (Join [Join [Join [m.outputPath, c.1], t.relpath], t.name]) s1
      with ⟨s2, err | hd⟩
    · rfl
    · simp only
      rcases (K.execute t.template c.2 s2.ticks).2 with _ | err <;> rfl
  · rfl

theorem renderContext_eq_steps {T Tree V : Type} (K : Collab T Tree V) (m : MiphaEngine T V)
    (c : String × V) (fs : FS) :
    renderContext K m c fs = forEach (Step.run K m) (contextSteps m c) fs := by
  simp only [renderContext, contextSteps, forEach, Step.run]
  rcases osMkdirAll (Join [m.outputPath, c.1]) fs with ⟨s1, _ | err⟩
  · simp only
    rw [forEach_flatMap]
    congr 1
    funext t s
    exact renderTemplate_eq_steps K m c t s
  · rfl

/-- The method `Execute` runs the steps of the plan in order and stops at the
first that fails. -/
theorem Execute_eq_plan {T Tree V : Type} (K : Collab T Tree V) (m : MiphaEngine T V)
    (fs : FS) : m.Execute K fs = forEach (Step.run K m) (plan m) fs := by
  simp only [MiphaEngine.Execute, plan, forEach, Step.run]
  rcases osRemoveAll m.outputPath fs with ⟨s1, _ | err⟩
  · simp only
    rw [forEach_flatMap]
    unfold MiphaEngine.contexts
    congr 1
    funext c s
    exact renderContext_eq_steps K m c s
  · rfl

/-- Every step after the removal of the output root keeps what exists. -/
theorem Step.run_grows {T Tree V : Type} (K : Collab T Tree V) (m : MiphaEngine T V)
    (s : Step T V) (hs : s ∈ m.contexts.flatMap (contextSteps m)) (fs : FS) :
    Grows (fun _ _ _ => True) (fun _ => True) fs (s.run K m fs).1 := by
  cases s with
  | removeOutput =>
    simp [contextSteps] at hs
  | mkdirContext c => exact osMkdirAll_grows _ fs trivial
  | statDir c t => exact ensureDir_grows _ fs trivial
  | createExecute c t =>
    simp only [Step.run]
    rcases hcr : osCreate (Join [Join [Join [m.outputPath, c.1], t.relpath], t.name]) fs
      with ⟨fs2, err | hd⟩
    · simp only
      rw [osCreate_err hcr]
      exact Grows.refl _ _ fs
    · simp only
      obtain ⟨rfl, rfl, hnd, _⟩ := osCreate_ok hcr
      obtain ⟨hc, htk, hn⟩ := write_after_create fs
        (fs.resolve (Join [Join [Join [m.outputPath, c.1], t.relpath], t.name]))
        (K.execute t.template c.2 fs.ticks).1
      simp only [FS.set_ticks]
      exact grows_write hc htk hn hnd trivial

/-- A failing `Execute` has run a prefix of its plan with success and returns
the state and the error of the step that failed; what existed after any
earlier step still exists, with its kind. -/
theorem Execute_fails {T Tree V : Type} (K : Collab T Tree V) (m : MiphaEngine T V)
    (fs fs' : FS) (err : Err) (h : m.Execute K fs = (fs', some err)) :
    ∃ done s rest fsk, plan m = done ++ s :: rest ∧
      forEach (Step.run K m) done fs = (fsk, none) ∧ s.run K m fsk = (fs', some err) ∧
      ∀ d1 d2 fsj, done = d1 ++ d2 → d1 ≠ [] → forEach (Step.run K m) d1 fs = (fsj, none) →
        ∀ p n, fsj.nodes p = some n → ∃ n', fs'.nodes p = some n' ∧ n.sameKind n' = true := by
  rw [Execute_eq_plan] at h
  obtain ⟨done, s, rest, fsk, hplan, hdone, hs⟩ := forEach_err_split _ _ _ _ _ h
  refine ⟨done, s, rest, fsk, hplan, hdone, hs, ?_⟩
  intro d1 d2 fsj hd hne hd1 p n hp
  cases d1 with
  | nil => exact absurd rfl hne
  | cons a d1 =>
    rw [hd] at hplan hdone
    simp only [plan, List.cons_append, List.cons.injEq] at hplan
    obtain ⟨_, hX⟩ := hplan
    rw [forEach_append, hd1] at hdone
    simp only at hdone
    have hg2 : Grows (fun _ _ _ => True) (fun _ => True) fsj fsk := by
      have := forEach_rel (Step.run K m) (Grows (fun _ _ _ => True) (fun _ => True))
        (Grows.refl _ _) (fun _ _ _ h1 h2 => h1.trans h2) d2
        (fun x hx st => Step.run_grows K m x (by rw [hX]; simp [hx]) st) fsj
      rw [hdone] at this
      exact this
    have hg3 : Grows (fun _ _ _ => True) (fun _ => True) fsk fs' := by
      have := Step.run_grows K m s (by rw [hX]; simp) fsk
      rw [hs] at this
      exact this
    exact (hg2.trans hg3).2.1 p n hp

/-! ## The claims -/

theorem mem_destPaths {T V : Type} (m : MiphaEngine T V) (fs : FS) (p : List String) :
    p ∈ destPaths m fs ↔ ∃ c ∈ m.contexts, ∃ t ∈ m.tc.templates, m.dest fs c.1 t = p := by
  unfold destPaths
  simp only [List.mem_map]
  constructor
  · rintro ⟨⟨c, t⟩, hmem, h⟩
    rw [List.pair_mem_product] at hmem
    exact ⟨c, hmem.1, t, hmem.2, h⟩
  · rintro ⟨c, hc, t, ht, h⟩
    exact ⟨(c, t), List.pair_mem_product.mpr ⟨hc, ht⟩, h⟩

theorem destPaths_length {T V : Type} (m : MiphaEngine T V) (fs : FS) :
    (destPaths m fs).length = m.tc.templates.length * m.contexts.length := by
  unfold destPaths
  rw [List.length_map]
  exact (List.length_product m.contexts m.tc.templates).trans (Nat.mul_comm _ _)

/-- A removal that resolves its name to a place other than the root, under a
last element other than `.` and `..`, has cleared the output root. -/
theorem cleared_of_kwalk {T V : Type} (m : MiphaEngine T V) (fs : FS) (r : List String)
    (hne : m.outputPath ≠ "") (hdot : endsWithDot m.outputPath = false)
    (hk : fs.kwalk true (if isRooted m.outputPath then [] else fs.cwd)
      (elements m.outputPath) = .ok r)
    (hr : r ≠ []) (h1 : (elements m.outputPath).getLast? ≠ some ".")
    (h2 : (elements m.outputPath).getLast? ≠ some "..") : Cleared m fs := by
  intro q hq
  have hrr : r = fs.resolve m.outputPath := kwalk_ok fs _ _ _ r hk
  unfold MiphaEngine.root at hq
  rw [← hrr] at hq
  unfold osRemoveAll
  rw [if_neg hne, hdot]
  simp only [Bool.false_eq_true, if_false, hk, if_neg hr, if_neg h1, if_neg h2, FS.clear,
    if_pos hq]

/-- Claim C1, amended: when the removal of the output root has left nothing at
or below it, and the destinations of the pairs of a context and a template
unit are pairwise distinct and lie at or below the output root, then after
`Execute` has returned without error the regular files at or below the output
root are exactly those destinations, `T × C` in number; with a non-empty output
path each destination is the place of
`root/context/relative directory/file name`. -/
theorem cross_product_complete {T Tree V : Type} (K : Collab T Tree V) (m : MiphaEngine T V)
    (fs fs' : FS) (hclr : Cleared m fs) (hnd : (destPaths m fs).Nodup)
    (hin : ∀ p ∈ destPaths m fs, m.root fs <+: p) (h : m.Execute K fs = (fs', none)) :
    CrossProduct m fs fs' ∧
      (m.outputPath ≠ "" → ∀ c ∈ m.contexts, ∀ t ∈ m.tc.templates,
        m.dest fs c.1 t =
          cleanFrom true (m.root fs) (elements c.1 ++ elements t.relpath ++ elements t.name)) := by
  have hiff : ∀ p, p ∈ regularFilesUnder fs' (m.root fs) ↔ p ∈ destPaths m fs := by
    intro p
    constructor
    · rintro ⟨hroot, b, hb⟩
      obtain ⟨_, _, _, c, hc, t, ht, hd, _⟩ := (Execute_inside K m fs fs' hclr h p hroot).1 b hb
      exact (mem_destPaths m fs p).mpr ⟨c, hc, t, ht, hd⟩
    · intro hp
      refine ⟨hin p hp, ?_⟩
      obtain ⟨c, hc, t, ht, rfl⟩ := (mem_destPaths m fs p).mp hp
      obtain ⟨⟨y, hy, _⟩, _⟩ := (Execute_written K m fs fs' h c hc).2 t ht
      exact ⟨y, hy⟩
  refine ⟨⟨hiff, hnd, ?_⟩, fun hne c _ t _ => dest_elements m fs hne c.1 t⟩
  have hset : regularFilesUnder fs' (m.root fs) = ↑(destPaths m fs).toFinset := by
    ext p
    rw [hiff p]
    simp
  rw [hset, Set.ncard_coe_Finset, List.toFinset_card_of_nodup hnd, destPaths_length]

/-- Claim C6, amended: when the directory of every context lies at or below
the output root, and neither the relative directory nor the file name of a
template unit leads upward, `Execute`, whatever its outcome, leaves every path
that is not at or below the output root as it was, except that a missing
ancestor of the output root may have been created as a directory; and every
destination lies at or below the directory of its context. -/
theorem effects_confined {T Tree V : Type} (K : Collab T Tree V) (m : MiphaEngine T V)
    (fs : FS) (hctx : ∀ c ∈ m.contexts, m.root fs <+: m.ctxDir fs c.1)
    (htpl : ∀ t ∈ m.tc.templates, Stays t.relpath ∧ Stays t.name) :
    (∀ q, ¬ m.root fs <+: q →
      (m.Execute K fs).1.nodes q = fs.nodes q ∨
        (q <+: m.root fs ∧ fs.nodes q = none ∧ (m.Execute K fs).1.nodes q = some .dir)) ∧
    ∀ c ∈ m.contexts, ∀ t ∈ m.tc.templates, m.ctxDir fs c.1 <+: m.dest fs c.1 t := by
  have hbelow : ∀ c ∈ m.contexts, ∀ t ∈ m.tc.templates,
      m.ctxDir fs c.1 <+: m.tplDir fs c.1 t ∧ m.tplDir fs c.1 t <+: m.dest fs c.1 t :=
    fun c _ t ht => dest_below m fs c.1 t (htpl t ht).1 (htpl t ht).2
  constructor
  · intro q hq
    rcases Execute_outside K m fs q hq with h1 | ⟨b, _, n, c, hc, t, ht, hd, _⟩ | ⟨h1, h2, g, hg, hqg⟩
    · exact Or.inl h1
    · exfalso
      apply hq
      rw [← hd]
      exact ((hctx c hc).trans (hbelow c hc t ht).1).trans (hbelow c hc t ht).2
    · right
      refine ⟨?_, h1, h2⟩
      have hrg : m.root fs <+: g := by
        obtain ⟨c, hc, hg⟩ := hg
        rcases hg with hg | ⟨t, ht, hg⟩
        · rw [← hg]
          exact hctx c hc
        · rw [← hg]
          exact (hctx c hc).trans (hbelow c hc t ht).1
      rcases List.prefix_or_prefix_of_prefix hqg hrg with h3 | h3
      · exact h3
      · exact absurd h3 hq
  · intro c hc t ht
    exact (hbelow c hc t ht).1.trans (hbelow c hc t ht).2

/-- Claim C2, amended: when no two pairs of a context and a template unit have
the same destination, then after a successful `Load` and `Execute` every file
entry of the walk has a template unit carrying its path, its name and the
directory `Rel` gives for it, and for every context the destination of that
unit is a file whose bytes are exactly what executing the unit's compiled
template against the context's variables has written at a moment of the run. -/
theorem layout_and_content {T Tree V : Type} (K : Collab T Tree V)
    (templates config helper output : String) (m : MiphaEngine T V) (fs fs' : FS)
    (hload : (NewMipha templates config helper output : MiphaEngine T V).Load K = (m, none))
    (hexec : m.Execute K fs = (fs', none)) (hno : NoCollision m fs)
    (e : WalkEntry) (he : e ∈ K.walk templates) (hfile : e.isDir = false)
    (c : String × V) (hc : c ∈ m.contexts) :
    LayoutContent K m templates fs fs' e c := by
  unfold MiphaEngine.Load at hload
  rcases htc : (NewMipha templates config helper output : MiphaEngine T V).tc.load K
    with ⟨tc1, _ | err⟩
  · rw [htc] at hload
    simp only at hload
    rcases hrc : (NewMipha templates config helper output : MiphaEngine T V).rc.load K
      with ⟨rc1, _ | err⟩
    · rw [hrc] at hload
      simp only [Prod.mk.injEq, and_true] at hload
      subst hload
      rw [load_eq] at htc
      rcases hh : helperDefinitions K
          (NewMipha templates config helper output : MiphaEngine T V).tc.helperPath with err | hs
      · rw [hh] at htc
        simp at htc
      · rw [hh] at htc
        simp only at htc
        obtain ⟨rel, t, t1, h1, _, _, h4⟩ := walk_ok_unit K _ _ tc1 htc e he hfile
        refine ⟨_, h4, rfl, rfl, h1, ?_⟩
        obtain ⟨⟨y, hy, n, hn1, hn2, c', hc', t', ht', hd, hb⟩, _⟩ :=
          (Execute_written K _ fs fs' hexec c hc).2 _ h4
        obtain ⟨rfl, rfl⟩ := hno c' hc' t' ht' c hc _ h4 hd
        exact ⟨n, hn2, hn1, by rw [hy, hb]⟩
    · rw [hrc] at hload
      simp at hload
  · rw [htc] at hload
    simp at hload

/-- What `load` does for a configuration document that is a mapping without the
`configurations` key, or with a null value under it: the context-set load of a
new engine returns the missing-section error; when template loading has
succeeded `Load` returns that error too, and the run ends with it before
`Execute`, the filesystem being as it was. -/
theorem load_without_section {T Tree V : Type} (K : Collab T Tree V)
    (templates config helper output : String) (bytes : String)
    (hread : K.readFile config = .ok bytes) (hdec : K.unmarshal bytes = .ok (.contexts none)) :
    ((NewMipha templates config helper output : MiphaEngine T V).rc.load K).2 =
        some noConfigurations ∧
      (((NewMipha templates config helper output : MiphaEngine T V).tc.load K).2 = none →
        ((NewMipha templates config helper output : MiphaEngine T V).Load K).2 =
            some noConfigurations ∧
          ∀ fs, mainRun K (NewMipha templates config helper output : MiphaEngine T V) fs =
            (fs, some noConfigurations)) := by
  have hread : K.readFile (NewMipha templates config helper output : MiphaEngine T V).rc.path =
      .ok bytes := hread
  generalize (NewMipha templates config helper output : MiphaEngine T V) = m at hread ⊢
  have hrc : (m.rc.load K).2 = some noConfigurations := by
    simp [renderContexts.load, hread, hdec]
  refine ⟨hrc, ?_⟩
  intro htc
  have hl : (m.Load K).2 = some noConfigurations := by
    unfold MiphaEngine.Load
    rcases h1 : m.tc.load K with ⟨tc1, _ | err⟩
    · simp only
      rcases h2 : m.rc.load K with ⟨rc1, _ | err⟩
      · rw [h2] at hrc
        cases hrc
      · rw [h2] at hrc
        simpa using hrc
    · rw [h1] at htc
      cases htc
  refine ⟨hl, fun fs => ?_⟩
  unfold mainRun
  rcases h3 : m.Load K with ⟨m1, _ | err⟩
  · rw [h3] at hl
    cases hl
  · rw [h3] at hl
    simp only [Option.some.injEq] at hl
    rw [hl]

/-- Claim C3, the code at a null configuration document (`~`): `yaml.Unmarshal`
sets the receiver to nil, and `load` does not return the missing-section error
but panics on `c.Contexts`; so do `Load` and the run, which leaves the file
found under the output root in place. -/
theorem missing_section :
    (demoYaml .null).collab.readFile helloEngine.rc.path = .ok "config-text" ∧
    (demoYaml .null).collab.unmarshal "config-text" = .ok .null ∧
    (helloEngine.rc.load (demoYaml .null).collab).2 = some nilDereference ∧
    (helloEngine.rc.load (demoYaml .null).collab).2 ≠ some noConfigurations ∧
    (helloEngine.Load (demoYaml .null).collab).2 = some nilDereference ∧
    (mainRun (demoYaml .null).collab helloEngine fsStale).2 = some nilDereference ∧
    (mainRun (demoYaml .null).collab helloEngine fsStale).1.nodes ["work", "output", "stale"] =
      some (.file "old") := by
  refine ⟨?_, ?_, ?_, ?_, ?_, ?_, ?_⟩
  all_goals decide

/-- Claim C4, amended: when no two pairs of a context and a template unit have
the same destination, every template unit renders the same bytes for a context
whenever it is executed, and the removal of the first run has left nothing at
or below the output root, a second successful `Execute` of the same engine, in
any order of the contexts, leaves every path as the first run left it; and a
file at or below the output root after the first run is a destination written
by that run, a directory there lies on the way to a directory of the engine. -/
theorem idempotent_structure {T Tree V : Type} (K : Collab T Tree V) (m : MiphaEngine T V)
    (fs fs1 fs2 : FS) (cs2 : List (String × V)) (hperm : cs2.Perm m.contexts)
    (hno : NoCollision m fs) (hrep : Repeatable K m) (hclr : Cleared m fs)
    (h1 : m.Execute K fs = (fs1, none))
    (h2 : (m.reorder cs2).Execute K fs1 = (fs2, none)) :
    (∀ p, fs2.nodes p = fs1.nodes p) ∧
      (∀ p, m.root fs <+: p →
        (∀ b, fs1.nodes p = some (.file b) → p ∈ destPaths m fs) ∧
        (fs1.nodes p = some .dir → ∃ g, m.targets fs m.contexts g ∧ p <+: g)) := by
  refine ⟨Execute_twice K m fs fs1 fs2 cs2 hperm hno hrep hclr h1 h2, ?_⟩
  intro p hp
  obtain ⟨i1, i2⟩ := Execute_inside K m fs fs1 hclr h1 p hp
  refine ⟨?_, i2⟩
  intro b hb
  obtain ⟨_, _, _, c, hc, t, ht, hd, _⟩ := i1 b hb
  exact (mem_destPaths m fs p).mpr ⟨c, hc, t, ht, hd⟩

/-- Claim C5: when `Execute` fails, it has run a prefix of its steps with
success, the next step has failed, and `Execute` returns the error and the
state of that step, no later step being run; every directory and file that
existed after any step following the removal of the output root still exists,
with its kind. -/
theorem fail_fast_no_rollback {T Tree V : Type} (K : Collab T Tree V) (m : MiphaEngine T V)
    (fs fs' : FS) (err : Err) (h : m.Execute K fs = (fs', some err)) :
    ∃ done s rest fsk, plan m = done ++ s :: rest ∧
      forEach (Step.run K m) done fs = (fsk, none) ∧ s.run K m fsk = (fs', some err) ∧
      ∀ d1 d2 fsj, done = d1 ++ d2 → d1 ≠ [] → forEach (Step.run K m) d1 fs = (fsj, none) →
        ∀ p n, fsj.nodes p = some n → ∃ n', fs'.nodes p = some n' ∧ n.sameKind n' = true :=
  Execute_fails K m fs fs' err h

/-- Claim C7: `load` of a new collection is the reference helper loading
followed by the walk: for the empty helper path there are no helper definitions
and `load` is the walk alone; otherwise a read failure and a parse failure are
returned as the error of `load`, and on success the helper definitions are the
templates of the parsed document other than the one named `__helper__.tpl`. -/
theorem helper_loading {T Tree V : Type} (K : Collab T Tree V) (templates helper : String) :
    (helper = "" →
      (newTemplateCollection templates helper : templateCollection T).load K =
          forEach (walkFunc K) (K.walk templates) (newTemplateCollection templates helper) ∧
        ((newTemplateCollection templates helper : templateCollection T).load K).1.helpers = []) ∧
    (helper ≠ "" →
      (∀ err, K.readFile helper = .error err →
        (newTemplateCollection templates helper : templateCollection T).load K =
          (newTemplateCollection templates helper, some err)) ∧
      (∀ bytes err, K.readFile helper = .ok bytes →
        K.parse helperTemlatesName bytes = .error err →
        (newTemplateCollection templates helper : templateCollection T).load K =
          (newTemplateCollection templates helper, some err)) ∧
      (∀ bytes doc, K.readFile helper = .ok bytes →
        K.parse helperTemlatesName bytes = .ok doc →
        ((newTemplateCollection templates helper : templateCollection T).load K).1.helpers =
          (K.templates doc).filter (fun h => K.name h != helperTemlatesName))) ∧
    (∀ err, helperDefinitions K helper = .error err →
      (newTemplateCollection templates helper : templateCollection T).load K =
        (newTemplateCollection templates helper, some err)) ∧
    (∀ hs, helperDefinitions K helper = .ok hs →
      ((newTemplateCollection templates helper : templateCollection T).load K).1.helpers = hs) := by
  have hgen : ∀ hs, helperDefinitions K helper = .ok hs →
      ((newTemplateCollection templates helper : templateCollection T).load K).1.helpers = hs := by
    intro hs hh
    rw [load_eq]
    simp only [newTemplateCollection, hh, List.nil_append]
    exact walk_helpers K _ _
  have herr : ∀ err, helperDefinitions K helper = .error err →
      (newTemplateCollection templates helper : templateCollection T).load K =
        (newTemplateCollection templates helper, some err) := by
    intro err hh
    rw [load_eq]
    simp only [newTemplateCollection, hh]
  refine ⟨?_, ?_, herr, hgen⟩
  · intro he
    have hh : helperDefinitions K helper = .ok [] := by
      simp [helperDefinitions, he]
    refine ⟨?_, hgen [] hh⟩
    rw [load_eq]
    simp only [newTemplateCollection, hh, List.append_nil]
  · intro hne
    refine ⟨?_, ?_, ?_⟩
    · intro err hr
      exact herr err (by simp [helperDefinitions, hne, hr])
    · intro bytes err hr hp
      exact herr err (by simp [helperDefinitions, hne, hr, hp])
    · intro bytes doc hr hp
      exact hgen _ (by simp [helperDefinitions, hne, hr, hp])

theorem unitOf_some {T Tree V : Type} (K : Collab T Tree V) (tc : templateCollection T)
    (e : WalkEntry) (u : templateFile T) (h : unitOf K tc e = some u) :
    ∃ rel t t1, Rel tc.templatesPath (Dir e.path) = .ok rel ∧ K.parseFiles e.path = .ok t ∧
      addHelpers K tc.helpers (K.option t "missingkey=error") = .ok t1 ∧
      u = { fullpath := e.path, relpath := rel, name := e.name, template := t1 } := by
  unfold unitOf at h
  split at h
  · cases h
  · split at h
    · cases h
    · split at h
      · cases h
      · rename_i rel hrel
        split at h
        · cases h
        · rename_i t hp
          split at h
          · cases h
          · rename_i t1 hadd
            simp only [Option.some.injEq] at h
            exact ⟨rel, t, t1, hrel, hp, hadd, h.symm⟩

/-- Claim C8, amended: with `AddParseTree` as `text/template` does it and
helper definitions of distinct names, after a successful `load` of a new
collection every template unit has a definition under the name of every helper,
so that a call of the helper finds one: it is the parse tree of the helper,
unless that tree is empty and the file of the unit defines the name itself, in
which case the unit keeps its own definition; and when merging the helpers into
the unit of an entry fails, `load` returns that error. -/
theorem helper_availability {T Tree V : Type} (K : Collab T Tree V)
    (templates helper : String) (hassoc : Associates K) :
    (∀ tc', (newTemplateCollection templates helper : templateCollection T).load K = (tc', none) →
      (tc'.helpers.map K.name).Nodup →
      ∀ u ∈ tc'.templates, ∀ h ∈ tc'.helpers,
        (K.lookupTree u.template (K.name h)).isSome = true ∧
        ∃ t0, K.parseFiles u.fullpath = .ok t0 ∧
          K.lookupTree u.template (K.name h) =
            if K.isEmptyTree (K.tree h) = true ∧
                (K.lookupTree (K.option t0 "missingkey=error") (K.name h)).isSome = true
            then K.lookupTree (K.option t0 "missingkey=error") (K.name h)
            else some (K.tree h)) ∧
    (∀ hs pre e post tc2 rel t err, helperDefinitions K helper = .ok hs →
      K.walk templates = pre ++ e :: post →
      forEach (walkFunc K) pre
        { (newTemplateCollection templates helper : templateCollection T) with helpers := hs } =
          (tc2, none) →
      e.err = none → e.isDir = false → Rel templates (Dir e.path) = .ok rel →
      K.parseFiles e.path = .ok t →
      addHelpers K hs (K.option t "missingkey=error") = .error err →
      (newTemplateCollection templates helper : templateCollection T).load K =
        (tc2, some err)) := by
  constructor
  · intro tc' hload hnames u hu h hh
    rw [load_eq] at hload
    rcases hd : helperDefinitions K
        (newTemplateCollection templates helper : templateCollection T).helperPath with err | hs
    · rw [hd] at hload
      simp at hload
    · rw [hd] at hload
      simp only at hload
      obtain ⟨w1, _, _, w4⟩ := walk_ok K _ _ tc' hload
      rw [w4] at hu
      simp only [newTemplateCollection, List.nil_append, unitsOf, List.mem_flatMap,
        Option.mem_toList, Option.mem_def] at hu
      obtain ⟨e, _, hunit⟩ := hu
      rw [w1] at hh hnames
      simp only [newTemplateCollection, List.nil_append] at hh hnames
      obtain ⟨rel, t0, t1, _, hp, hadd, rfl⟩ := unitOf_some K _ e u hunit
      simp only [List.nil_append] at hadd
      have hl := (addHelpers_lookup K hassoc hs hnames _ t1 hadd).1 h hh
      refine ⟨?_, t0, hp, hl⟩
      simp only at hl ⊢
      rw [hl]
      split
      · rename_i hc
        exact hc.2
      · rfl
  · intro hs pre e post tc2 rel t err hd hwalk hpre herr hdir hrel hparse hadd
    rw [load_eq]
    simp only [newTemplateCollection, hd, List.nil_append, hwalk]
    simp only [newTemplateCollection] at hpre
    rw [forEach_append, hpre]
    simp only [forEach]
    obtain ⟨w1, w2, _, _⟩ := walk_ok K _ _ tc2 hpre
    have hw : walkFunc K e tc2 = (tc2, some err) := by
      simp only [walkFunc, herr, hdir, Bool.false_eq_true, if_false, w1, w2, hrel, hparse, hadd]
    rw [hw]

/-- Claim C9, amended: when the entries of the walk before one entry are
processed without error and `walkFunc` fails at that entry, `load` returns that
error without visiting the later entries, and the collection holds the template
units of the entries processed before the failure. -/
theorem load_fail_fast {T Tree V : Type} (K : Collab T Tree V) (tc : templateCollection T)
    (hs : List T) (pre : List WalkEntry) (e : WalkEntry) (post : List WalkEntry)
    (tc2 : templateCollection T) (err : Err)
    (hh : helperDefinitions K tc.helperPath = .ok hs)
    (hwalk : K.walk tc.templatesPath = pre ++ e :: post)
    (hpre : forEach (walkFunc K) pre { tc with helpers := tc.helpers ++ hs } = (tc2, none))
    (hfail : (walkFunc K e tc2).2 = some err) :
    tc.load K = (tc2, some err) ∧
      tc2.templates = tc.templates ++ unitsOf K { tc with helpers := tc.helpers ++ hs } pre := by
  constructor
  · rw [load_eq]
    simp only [hh, hwalk]
    rw [forEach_append, hpre]
    simp only [forEach]
    have h5 := (walkFunc_spec K e tc2).2.2.2.2 err hfail
    rcases hw : walkFunc K e tc2 with ⟨tc3, _ | err3⟩
    · rw [hw] at hfail
      cases hfail
    · rw [hw] at hfail h5
      simp only [Option.some.injEq] at hfail
      simp only at h5
      rw [hfail, h5]
  · exact (walk_ok K pre _ tc2 hpre).2.2.2

/-- Claim C10, amended: when no two pairs of a context and a template unit
have the same destination and every template unit renders the same bytes for a
context whenever it is executed, two successful runs of `Execute` from the same
state that visit the contexts in two orders leave the same node at every
path. -/
theorem render_order_irrelevant {T Tree V : Type} (K : Collab T Tree V) (m : MiphaEngine T V)
    (fs fs1 fs2 : FS) (cs2 : List (String × V)) (hperm : cs2.Perm m.contexts)
    (hno : NoCollision m fs) (hrep : Repeatable K m) (h1 : m.Execute K fs = (fs1, none))
    (h2 : (m.reorder cs2).Execute K fs = (fs2, none)) :
    ∀ p, fs1.nodes p = fs2.nodes p :=
  Execute_order K m fs fs1 fs2 cs2 hperm hno hrep h1 h2

/-! ## Evaluation on concrete worlds -/

theorem pair_of_snd_none {α β : Type} (x : α × Option β) (h : x.2 = none) : x = (x.1, none) :=
  Prod.ext rfl h

theorem pair_of_snd_some {α β : Type} (x : α × Option β) (b : β) (h : x.2 = some b) :
    x = (x.1, some b) :=
  Prod.ext rfl h

theorem lookup_filter_ne {β : Type} (l : List (String × β)) (n n' : String) (h : n' ≠ n) :
    (l.filter (fun nt => nt.1 != n)).lookup n' = l.lookup n' := by
  induction l with
  | nil => rfl
  | cons x l ih =>
    obtain ⟨a, b⟩ := x
    by_cases ha : a = n
    · subst ha
      have h1 : (n' == a) = false := by simpa using h
      simp [List.filter_cons, List.lookup_cons, h1, ih]
    · have h2 : (a != n) = true := by simpa using ha
      simp only [List.filter_cons, h2, if_true, List.lookup_cons, ih]

theorem mem_of_lookup {β : Type} (l : List (String × β)) (k : String) (v : β)
    (h : l.lookup k = some v) : (k, v) ∈ l := by
  induction l with
  | nil => cases h
  | cons x l ih =>
    obtain ⟨a, b⟩ := x
    rw [List.lookup_cons] at h
    by_cases hk : k = a
    · subst hk
      simp only [beq_self_eq_true, Option.some.injEq] at h
      subst h
      exact List.mem_cons_self _ _
    · have h1 : (k == a) = false := by simpa using hk
      rw [h1] at h
      exact List.mem_cons_of_mem _ (ih h)

/-- The template engine of a concrete world merges as `text/template` does. -/
theorem demo_assoc (d : Demo) : Associates d.collab := by
  intro t n tr t' h
  simp only [Demo.collab] at h ⊢
  split at h
  · cases h
  · split at h
    · rename_i hc
      simp only [Except.ok.injEq] at h
      subst h
      simp only [Bool.and_eq_true] at hc
      exact ⟨fun _ _ => rfl, by rw [if_pos hc]⟩
    · rename_i hc
      simp only [Except.ok.injEq] at h
      subst h
      simp only [Bool.and_eq_true] at hc
      refine ⟨fun n' hn => ?_, ?_⟩
      · have h1 : (n' == n) = false := by simpa using hn
        simp only [List.lookup_cons, h1]
        exact lookup_filter_ne t.defs n n' hn
      · rw [if_neg hc]
        simp [List.lookup_cons]

theorem runFlat_now (strict : Bool) (v : List (String × String)) (n n' : Nat)
    (body : List Piece) (h : Piece.stamp ∉ body) :
    runFlat strict v n body = runFlat strict v n' body := by
  induction body with
  | nil => rfl
  | cons x rest ih =>
    have hr : Piece.stamp ∉ rest := fun hx => h (List.mem_cons_of_mem _ hx)
    cases x with
    | text s => simp only [runFlat, ih hr]
    | field f => simp only [runFlat, ih hr]
    | call c => simp only [runFlat]
    | stamp => exact absurd (List.mem_cons_self _ _) h

theorem runPieces_now (strict : Bool) (defs : List (String × List Piece))
    (v : List (String × String)) (n n' : Nat) (body : List Piece)
    (hd : ∀ x ∈ defs, Piece.stamp ∉ x.2) (h : Piece.stamp ∉ body) :
    runPieces strict defs v n body = runPieces strict defs v n' body := by
  induction body with
  | nil => rfl
  | cons x rest ih =>
    have hr : Piece.stamp ∉ rest := fun hx => h (List.mem_cons_of_mem _ hx)
    cases x with
    | text s => simp only [runPieces, ih hr]
    | field f => simp only [runPieces, ih hr]
    | call c =>
      simp only [runPieces, ih hr]
      rcases hl : defs.lookup c with _ | b
      · rfl
      · simp only
        rw [runFlat_now strict v n n' b (hd _ (mem_of_lookup defs c b hl))]
    | stamp => exact absurd (List.mem_cons_self _ _) h

/-- In a concrete world, templates that do not write the moment of their
execution are repeatable. -/
theorem demo_repeatable (d : Demo) (m : MiphaEngine Tmpl (List (String × String)))
    (h : ∀ t ∈ m.tc.templates, ∀ x ∈ t.template.defs, Piece.stamp ∉ x.2) :
    Repeatable d.collab m := by
  intro t ht c _ n n'
  simp only [Demo.collab]
  have hb : Piece.stamp ∉ (t.template.defs.lookup t.template.name).getD [] := by
    rcases hl : t.template.defs.lookup t.template.name with _ | b
    · simp
    · exact h t ht _ (mem_of_lookup _ _ b hl)
  rw [runPieces_now t.template.strict t.template.defs c.2 n n' _ (h t ht) hb]

/-- In the scenario of the specification the removal clears `output`. -/
theorem hello_cleared : Cleared (loaded demoHello "output") fsStale :=
  cleared_of_kwalk _ _ ["work", "output"] (by decide) (by decide) (by decide) (by decide)
    (by decide) (by decide)

/-- The scenario of the specification renders `T × C = 4` files. -/
theorem cross_product_complete_witness :
    Cleared (loaded demoHello "output") fsStale ∧
    (destPaths (loaded demoHello "output") fsStale).Nodup ∧
    (∀ p ∈ destPaths (loaded demoHello "output") fsStale,
      (loaded demoHello "output").root fsStale <+: p) ∧
    ((loaded demoHello "output").Execute demoHello.collab fsStale).2 = none ∧
    CrossProduct (loaded demoHello "output") fsStale
      ((loaded demoHello "output").Execute demoHello.collab fsStale).1 :=
  ⟨hello_cleared, by decide, by decide, by decide,
    (cross_product_complete demoHello.collab (loaded demoHello "output") fsStale _
      hello_cleared (by decide) (by decide) (pair_of_snd_none _ (by decide))).1⟩

/-- Claim C1 fails as stated: two context names that denote the same directory
give one file for two pairs; with an empty output path, and with the output
path `missing/../output`, the removal removes nothing and a file found below
the root stays among the files there; a context named `../x` is rendered to a
file that is not below the root. -/
theorem cross_product_counterexample :
    (((loaded (demoSingle collidingContexts) "output").Execute
        (demoSingle collidingContexts).collab fsStale).2 = none ∧
      ¬ CrossProduct (loaded (demoSingle collidingContexts) "output") fsStale
        ((loaded (demoSingle collidingContexts) "output").Execute
          (demoSingle collidingContexts).collab fsStale).1) ∧
    (((loaded demoHello "").Execute demoHello.collab fsOld).2 = none ∧
      ¬ CrossProduct (loaded demoHello "") fsOld
        ((loaded demoHello "").Execute demoHello.collab fsOld).1) ∧
    (((loaded demoHello "missing/../output").Execute demoHello.collab fsStale).2 = none ∧
      ¬ CrossProduct (loaded demoHello "missing/../output") fsStale
        ((loaded demoHello "missing/../output").Execute demoHello.collab fsStale).1) ∧
    (((loaded (demoSingle escapingContexts) "output").Execute
        (demoSingle escapingContexts).collab fsStale).2 = none ∧
      ¬ CrossProduct (loaded (demoSingle escapingContexts) "output") fsStale
        ((loaded (demoSingle escapingContexts) "output").Execute
          (demoSingle escapingContexts).collab fsStale).1) := by
  refine ⟨⟨by decide, fun h => absurd h.2.1 (by decide)⟩, ⟨by decide, fun h => ?_⟩,
    ⟨by decide, fun h => ?_⟩, ⟨by decide, fun h => ?_⟩⟩
  · have h1 := (h.1 ["work", "old"]).mp ⟨by decide, "x", by decide⟩
    exact absurd h1 (by decide)
  · have h1 := (h.1 ["work", "output", "stale"]).mp ⟨by decide, "old", by decide⟩
    exact absurd h1 (by decide)
  · have h1 := ((h.1 ["work", "x", "a.tpl"]).mpr (by decide)).1
    exact absurd h1 (by decide)

/-- In the scenario of the specification `output/ctx2/sub/b.tpl` holds the
bytes of its template executed against `ctx2`. -/
theorem layout_and_content_witness :
    LayoutContent demoHello.collab (loaded demoHello "output") "templates" fsStale
      ((loaded demoHello "output").Execute demoHello.collab fsStale).1
      { path := "templates/sub/b.tpl", name := "b.tpl", isDir := false, err := none }
      ("ctx2", [("Name", "Go")]) ∧
    ((loaded demoHello "output").Execute demoHello.collab fsStale).1.nodes
      ["work", "output", "ctx1", "a.tpl"] = some (.file "Hello World") :=
  ⟨layout_and_content demoHello.collab "templates" "config.yaml" "helper.tpl" "output"
    (loaded demoHello "output") fsStale _ (pair_of_snd_none _ (by decide))
    (pair_of_snd_none _ (by decide))
    (noCollision_of_wellNamed _ _ (by decide) (by decide)) _ (by decide) (by decide) _
    (by decide), by decide⟩

/-- Claim C2 fails as stated: with the contexts `ctx` and `./ctx` both pairs
are rendered to `output/ctx/a.tpl`, which holds the bytes of the second. -/
theorem layout_and_content_counterexample :
    ((NewMipha "templates" "config.yaml" "helper.tpl" "output" :
      MiphaEngine Tmpl (List (String × String))).Load
        (demoSingle collidingContexts).collab).2 = none ∧
    ((loaded (demoSingle collidingContexts) "output").Execute
      (demoSingle collidingContexts).collab fsStale).2 = none ∧
    ({ path := "templates/a.tpl", name := "a.tpl", isDir := false, err := none } : WalkEntry) ∈
      (demoSingle collidingContexts).collab.walk "templates" ∧
    (("ctx", [("Name", "World")]) : String × List (String × String)) ∈
      (loaded (demoSingle collidingContexts) "output").contexts ∧
    ¬ LayoutContent (demoSingle collidingContexts).collab
      (loaded (demoSingle collidingContexts) "output") "templates" fsStale
      ((loaded (demoSingle collidingContexts) "output").Execute
        (demoSingle collidingContexts).collab fsStale).1
      { path := "templates/a.tpl", name := "a.tpl", isDir := false, err := none }
      ("ctx", [("Name", "World")]) := by
  refine ⟨?_, ?_, ?_, ?_, ?_⟩
  all_goals decide

/-- The templates of the scenario of the specification are repeatable. -/
theorem hello_repeatable : Repeatable demoHello.collab (loaded demoHello "output") :=
  demo_repeatable demoHello _ (by decide)

/-- A second run of the scenario, visiting the contexts in reverse order,
leaves the files of the first run. -/
theorem idempotent_structure_witness :
    Cleared (loaded demoHello "output") fsStale ∧
    ((loaded demoHello "output").reorder (loaded demoHello "output").contexts.reverse).Execute
        demoHello.collab ((loaded demoHello "output").Execute demoHello.collab fsStale).1 =
      ((((loaded demoHello "output").reorder
        (loaded demoHello "output").contexts.reverse).Execute demoHello.collab
          ((loaded demoHello "output").Execute demoHello.collab fsStale).1).1, none) ∧
    (((loaded demoHello "output").reorder (loaded demoHello "output").contexts.reverse).Execute
        demoHello.collab ((loaded demoHello "output").Execute demoHello.collab fsStale).1).1.nodes
        ["work", "output", "ctx2", "sub", "b.tpl"] =
      ((loaded demoHello "output").Execute demoHello.collab fsStale).1.nodes
        ["work", "output", "ctx2", "sub", "b.tpl"] :=
  ⟨hello_cleared, pair_of_snd_none _ (by decide),
    (idempotent_structure demoHello.collab (loaded demoHello "output") fsStale _ _
      (loaded demoHello "output").contexts.reverse (List.reverse_perm _)
      (noCollision_of_wellNamed _ _ (by decide) (by decide)) hello_repeatable hello_cleared
      (pair_of_snd_none _ (by decide)) (pair_of_snd_none _ (by decide))).1 _⟩

/-- Claim C4 fails as stated: with the contexts `ctx` and `./ctx` a second run
that visits them in the other order leaves other bytes in `output/ctx/a.tpl`;
a template that writes the moment of its execution is rendered to other bytes
by the second run; and with an empty output path, or the output path
`missing/../output`, a file found below the root survives the run without
being written by it. -/
theorem idempotent_structure_counterexample :
    (((loaded (demoSingle collidingContexts) "output").Execute
        (demoSingle collidingContexts).collab fsStale).2 = none ∧
      (((loaded (demoSingle collidingContexts) "output").reorder
        collidingContexts.reverse).Execute (demoSingle collidingContexts).collab
          ((loaded (demoSingle collidingContexts) "output").Execute
            (demoSingle collidingContexts).collab fsStale).1).2 = none ∧
      (loaded (demoSingle collidingContexts) "output").root fsStale <+:
        ["work", "output", "ctx", "a.tpl"] ∧
      (((loaded (demoSingle collidingContexts) "output").reorder
        collidingContexts.reverse).Execute (demoSingle collidingContexts).collab
          ((loaded (demoSingle collidingContexts) "output").Execute
            (demoSingle collidingContexts).collab fsStale).1).1.nodes
          ["work", "output", "ctx", "a.tpl"] ≠
        ((loaded (demoSingle collidingContexts) "output").Execute
          (demoSingle collidingContexts).collab fsStale).1.nodes
          ["work", "output", "ctx", "a.tpl"]) ∧
    (((loaded demoStamp "output").Execute demoStamp.collab fsStale).2 = none ∧
      ((loaded demoStamp "output").Execute demoStamp.collab
        ((loaded demoStamp "output").Execute demoStamp.collab fsStale).1).2 = none ∧
      ((loaded demoStamp "output").Execute demoStamp.collab fsStale).1.nodes
        ["work", "output", "ctx2", "a.tpl"] = some (.file "at |") ∧
      ((loaded demoStamp "output").Execute demoStamp.collab
        ((loaded demoStamp "output").Execute demoStamp.collab fsStale).1).1.nodes
        ["work", "output", "ctx2", "a.tpl"] = some (.file "at |||")) ∧
    (((loaded demoHello "").Execute demoHello.collab fsOld).2 = none ∧
      (loaded demoHello "").root fsOld <+: ["work", "old"] ∧
      fsOld.nodes ["work", "old"] = some (.file "x") ∧
      ((loaded demoHello "").Execute demoHello.collab fsOld).1.nodes ["work", "old"] =
        some (.file "x") ∧
      ["work", "old"] ∉ destPaths (loaded demoHello "") fsOld) ∧
    (((loaded demoHello "missing/../output").Execute demoHello.collab fsStale).2 = none ∧
      (loaded demoHello "missing/../output").root fsStale <+: ["work", "output", "stale"] ∧
      ((loaded demoHello "missing/../output").Execute demoHello.collab fsStale).1.nodes
        ["work", "output", "stale"] = some (.file "old") ∧
      ["work", "output", "stale"] ∉ destPaths (loaded demoHello "missing/../output") fsStale) := by
  refine ⟨⟨?_, ?_, ?_, ?_⟩, ⟨?_, ?_, ?_, ?_⟩, ⟨?_, ?_, ?_, ?_, ?_⟩, ⟨?_, ?_, ?_, ?_⟩⟩
  all_goals decide

/-- A run that fails in the second context returns the error of the failing
step and leaves the file of the first context. -/
theorem fail_fast_no_rollback_witness :
    ((loaded demoMissingKey "output").Execute demoMissingKey.collab fsStale).2 =
      some (.msg "map has no entry for key Name") ∧
    ((loaded demoMissingKey "output").Execute demoMissingKey.collab fsStale).1.nodes
      ["work", "output", "ctx1", "a.tpl"] = some (.file "Hello World") ∧
    ∃ done s rest fsk, plan (loaded demoMissingKey "output") = done ++ s :: rest ∧
      forEach (Step.run demoMissingKey.collab (loaded demoMissingKey "output")) done fsStale =
        (fsk, none) ∧
      s.run demoMissingKey.collab (loaded demoMissingKey "output") fsk =
        (((loaded demoMissingKey "output").Execute demoMissingKey.collab fsStale).1,
          some (.msg "map has no entry for key Name")) ∧
      ∀ d1 d2 fsj, done = d1 ++ d2 → d1 ≠ [] →
        forEach (Step.run demoMissingKey.collab (loaded demoMissingKey "output")) d1 fsStale =
          (fsj, none) →
        ∀ p n, fsj.nodes p = some n →
          ∃ n', ((loaded demoMissingKey "output").Execute demoMissingKey.collab fsStale).1.nodes p =
            some n' ∧ n.sameKind n' = true :=
  ⟨by decide, by decide,
    fail_fast_no_rollback demoMissingKey.collab (loaded demoMissingKey "output") fsStale _ _
      (pair_of_snd_some _ _ (by decide))⟩

/-- The scenario leaves a path outside the output root as it was. -/
theorem effects_confined_witness :
    (∀ c ∈ (loaded demoHello "output").contexts,
      (loaded demoHello "output").root fsOld <+: (loaded demoHello "output").ctxDir fsOld c.1) ∧
    (∀ t ∈ (loaded demoHello "output").tc.templates, Stays t.relpath ∧ Stays t.name) ∧
    (((loaded demoHello "output").Execute demoHello.collab fsOld).1.nodes ["work", "old"] =
        fsOld.nodes ["work", "old"] ∨
      (["work", "old"] <+: (loaded demoHello "output").root fsOld ∧
        fsOld.nodes ["work", "old"] = none ∧
        ((loaded demoHello "output").Execute demoHello.collab fsOld).1.nodes ["work", "old"] =
          some .dir)) :=
  ⟨by decide, by decide,
    (effects_confined demoHello.collab (loaded demoHello "output") fsOld (by decide)
      (by decide)).1 ["work", "old"] (by decide)⟩

/-- Claim C6 fails as stated: the context `../x` is rendered to a file outside
the output root; a missing parent of the output root is created; and a
template path that names a regular file is rendered outside the directories of
the contexts. -/
theorem effects_confined_counterexample :
    ¬ Confined (demoSingle escapingContexts).collab
        (loaded (demoSingle escapingContexts) "output") fsStale ∧
    ¬ Confined demoHello.collab (loaded demoHello "gen/output") fsStale ∧
    ¬ Confined demoFileRoot.collab (loaded demoFileRoot "output") fsStale := by
  refine ⟨fun h => ?_, fun h => ?_, fun h => ?_⟩
  · exact absurd (h.1 ["work", "x", "a.tpl"] (by decide)) (by decide)
  · exact absurd (h.1 ["work", "gen"] (by decide)) (by decide)
  · exact absurd h.2 (by decide)

/-- In the scenario of the specification the helper definitions are the
templates of the helper document other than `__helper__.tpl`. -/
theorem helper_loading_witness :
    ("helper.tpl" : String) ≠ "" ∧
    demoHello.collab.readFile "helper.tpl" = .ok "helper-text" ∧
    demoHello.collab.parse helperTemlatesName "helper-text" =
      .ok { name := "__helper__.tpl", strict := false,
            defs := [("__helper__.tpl", []), ("greet", [.text "Hi ", .field "Name"])] } ∧
    ((newTemplateCollection "templates" "helper.tpl" : templateCollection Tmpl).load
        demoHello.collab).1.helpers =
      (demoHello.collab.templates
        { name := "__helper__.tpl", strict := false,
          defs := [("__helper__.tpl", []), ("greet", [.text "Hi ", .field "Name"])] }).filter
        (fun h => demoHello.collab.name h != helperTemlatesName) :=
  ⟨by decide, by decide, by decide,
    ((helper_loading demoHello.collab "templates" "helper.tpl").2.1 (by decide)).2.2
      "helper-text" _ (by decide) (by decide)⟩

/-- In the scenario of the specification the unit of `sub/b.tpl` contains the
helper `greet`, which it calls, and executes; and with a template engine that
refuses the merge, `load` returns the error of the merge. -/
theorem helper_availability_witness :
    (((newTemplateCollection "templates" "helper.tpl" : templateCollection Tmpl).load
      demoHello.collab).2 = none ∧
    ((loaded demoHello "output").tc.helpers.map demoHello.collab.name).Nodup ∧
    (demoHello.collab.lookupTree
      { name := "b.tpl", strict := true,
        defs := [("greet", [.text "Hi ", .field "Name"]), ("b.tpl", [.call "greet", .text "!"])] }
      "greet").isSome = true ∧
    demoHello.collab.execute
      { name := "b.tpl", strict := true,
        defs := [("greet", [.text "Hi ", .field "Name"]), ("b.tpl", [.call "greet", .text "!"])] }
      [("Name", "Go")] 0 = ("Hi Go!", none)) ∧
    (helperDefinitions demoRefused.collab "helper.tpl" = .ok helloHelpers ∧
    addHelpers demoRefused.collab helloHelpers
      (demoRefused.collab.option
        { name := "a.tpl", strict := false, defs := [("a.tpl", [.text "Hello ", .field "Name"])] }
        "missingkey=error") = .error (.msg "template: cannot add greet") ∧
    ((newTemplateCollection "templates" "helper.tpl" : templateCollection Tmpl).load
      demoRefused.collab).2 = some (.msg "template: cannot add greet")) :=
  ⟨⟨by decide, by decide,
    ((helper_availability demoHello.collab "templates" "helper.tpl" (demo_assoc demoHello)).1
      ((newTemplateCollection "templates" "helper.tpl" : templateCollection Tmpl).load
        demoHello.collab).1
      (pair_of_snd_none _ (by decide)) (by decide)
      { fullpath := "templates/sub/b.tpl", relpath := "sub", name := "b.tpl",
        template := { name := "b.tpl", strict := true,
                      defs := [("greet", [.text "Hi ", .field "Name"]),
                               ("b.tpl", [.call "greet", .text "!"])] } }
      (by decide)
      { name := "greet", strict := false,
        defs := [("__helper__.tpl", []), ("greet", [.text "Hi ", .field "Name"])] }
      (by decide)).1, by decide⟩,
   ⟨by decide, by decide,
    congrArg Prod.snd
      ((helper_availability demoRefused.collab "templates" "helper.tpl"
        (demo_assoc demoRefused)).2 helloHelpers
        [{ path := "templates", name := "templates", isDir := true, err := none }]
        { path := "templates/a.tpl", name := "a.tpl", isDir := false, err := none }
        [{ path := "templates/sub", name := "sub", isDir := true, err := none },
         { path := "templates/sub/b.tpl", name := "b.tpl", isDir := false, err := none }]
        _ "." { name := "a.tpl", strict := false,
                defs := [("a.tpl", [.text "Hello ", .field "Name"])] }
        (.msg "template: cannot add greet")
        (by decide) (by decide) (pair_of_snd_none _ (by decide)) (by decide) (by decide)
        (by decide) (by decide) (by decide))⟩⟩

/-- Claim C8 fails as stated: when the file of a template defines `greet`
itself and the helper document defines `greet` with an empty body, `load`
succeeds and the unit keeps its own `greet`, not the parse tree of the
helper. -/
theorem helper_availability_counterexample :
    ((newTemplateCollection "templates" "helper.tpl" : templateCollection Tmpl).load
      demoOwnGreet.collab).2 = none ∧
    ((newTemplateCollection "templates" "helper.tpl" : templateCollection Tmpl).load
      demoOwnGreet.collab).1.helpers.map
        (fun h => (demoOwnGreet.collab.name h, demoOwnGreet.collab.tree h)) = [("greet", [])] ∧
    ((newTemplateCollection "templates" "helper.tpl" : templateCollection Tmpl).load
      demoOwnGreet.collab).1.templates.map
        (fun u => (u.fullpath, demoOwnGreet.collab.lookupTree u.template "greet")) =
      [("templates/a.tpl", some [.text "local"])] ∧
    (some [Piece.text "local"] : Option (List Piece)) ≠ some [] := by
  refine ⟨?_, ?_, ?_, ?_⟩
  all_goals decide

/-- With a second template that does not parse, `load` returns the parse error
and the later entry is not visited. -/
theorem load_fail_fast_witness :
    helperDefinitions demoBadTemplate.collab
      (newTemplateCollection "templates" "helper.tpl" : templateCollection Tmpl).helperPath =
        .ok helloHelpers ∧
    demoBadTemplate.collab.walk "templates" =
      badWalkBefore ++
        { path := "templates/bad.tpl", name := "bad.tpl", isDir := false, err := none } ::
        [{ path := "templates/c.tpl", name := "c.tpl", isDir := false, err := none }] ∧
    ((newTemplateCollection "templates" "helper.tpl" : templateCollection Tmpl).load
      demoBadTemplate.collab).2 =
        some (.msg "template: unexpected input in templates/bad.tpl") :=
  ⟨by decide, by decide,
    congrArg Prod.snd
      (load_fail_fast demoBadTemplate.collab
        (newTemplateCollection "templates" "helper.tpl" : templateCollection Tmpl)
        helloHelpers badWalkBefore
        { path := "templates/bad.tpl", name := "bad.tpl", isDir := false, err := none }
        [{ path := "templates/c.tpl", name := "c.tpl", isDir := false, err := none }]
        _ (.msg "template: unexpected input in templates/bad.tpl")
        (by decide) (by decide) (pair_of_snd_none _ (by decide)) (by decide)).1⟩

/-- Claim C9 fails as stated: after the failure at the second template the
collection still holds the unit of the first. -/
theorem load_fail_fast_counterexample :
    ((newTemplateCollection "templates" "helper.tpl" : templateCollection Tmpl).load
      demoBadTemplate.collab).2 =
        some (.msg "template: unexpected input in templates/bad.tpl") ∧
    (((newTemplateCollection "templates" "helper.tpl" : templateCollection Tmpl).load
      demoBadTemplate.collab).1.templates.map (fun u => u.fullpath)) = ["templates/a.tpl"] ∧
    ((newTemplateCollection "templates" "helper.tpl" : templateCollection Tmpl).load
      demoBadTemplate.collab).1.templates ≠ [] := by
  refine ⟨?_, ?_, ?_⟩
  all_goals decide

/-- Two runs of the scenario that visit the contexts in opposite orders leave
the same file. -/
theorem render_order_irrelevant_witness :
    ((loaded demoHello "output").reorder (loaded demoHello "output").contexts.reverse).Execute
        demoHello.collab fsStale =
      ((((loaded demoHello "output").reorder
        (loaded demoHello "output").contexts.reverse).Execute demoHello.collab fsStale).1,
        none) ∧
    ((loaded demoHello "output").Execute demoHello.collab fsStale).1.nodes
        ["work", "output", "ctx1", "a.tpl"] =
      (((loaded demoHello "output").reorder (loaded demoHello "output").contexts.reverse).Execute
        demoHello.collab fsStale).1.nodes ["work", "output", "ctx1", "a.tpl"] :=
  ⟨pair_of_snd_none _ (by decide),
    render_order_irrelevant demoHello.collab (loaded demoHello "output") fsStale _ _
      (loaded demoHello "output").contexts.reverse (List.reverse_perm _)
      (noCollision_of_wellNamed _ _ (by decide) (by decide)) hello_repeatable
      (pair_of_snd_none _ (by decide)) (pair_of_snd_none _ (by decide)) _⟩

/-- Claim C10 fails as stated: the contexts `ctx` and `./ctx` write to the same
path, and the two orders leave different bytes in `output/ctx/a.tpl`; and a
template that writes the moment of its execution is rendered to different bytes
for `ctx1` by the two orders, although no two destinations are the same. -/
theorem render_order_irrelevant_counterexample :
    (collidingContexts.reverse.Perm (loaded (demoSingle collidingContexts) "output").contexts ∧
    ((loaded (demoSingle collidingContexts) "output").Execute
      (demoSingle collidingContexts).collab fsStale).2 = none ∧
    (((loaded (demoSingle collidingContexts) "output").reorder
      collidingContexts.reverse).Execute (demoSingle collidingContexts).collab fsStale).2 = none ∧
    (loaded (demoSingle collidingContexts) "output").root fsStale <+:
      ["work", "output", "ctx", "a.tpl"] ∧
    ((loaded (demoSingle collidingContexts) "output").Execute
      (demoSingle collidingContexts).collab fsStale).1.nodes ["work", "output", "ctx", "a.tpl"] =
        some (.file "Hello Go") ∧
    (((loaded (demoSingle collidingContexts) "output").reorder
      collidingContexts.reverse).Execute (demoSingle collidingContexts).collab fsStale).1.nodes
        ["work", "output", "ctx", "a.tpl"] = some (.file "Hello World")) ∧
    ((loaded demoStamp "output").contexts.reverse.Perm (loaded demoStamp "output").contexts ∧
    (destPaths (loaded demoStamp "output") fsStale).Nodup ∧
    ((loaded demoStamp "output").Execute demoStamp.collab fsStale).2 = none ∧
    (((loaded demoStamp "output").reorder (loaded demoStamp "output").contexts.reverse).Execute
      demoStamp.collab fsStale).2 = none ∧
    ((loaded demoStamp "output").Execute demoStamp.collab fsStale).1.nodes
      ["work", "output", "ctx1", "a.tpl"] = some (.file "at ") ∧
    (((loaded demoStamp "output").reorder (loaded demoStamp "output").contexts.reverse).Execute
      demoStamp.collab fsStale).1.nodes ["work", "output", "ctx1", "a.tpl"] =
        some (.file "at |")) := by
  refine ⟨⟨List.reverse_perm _, ?_, ?_, ?_, ?_, ?_⟩, ⟨List.reverse_perm _, ?_, ?_, ?_, ?_, ?_⟩⟩
  all_goals decide

end Mipha
